import Mathlib

/-!
Wordnet: `Digraph`, `ShortestCommonAncestor`, `WordNet` and `Outcast`.

A shallow embedding of `src/libraries/wordnet/src/Wordnet.cpp`, followed by the notions its
properties are stated with and by the proofs.

Conventions of the embedding.

* `unsigned` values are natural numbers; where the C++ arithmetic is done in 32 bits the
  model reduces modulo `two32`.
* `std::vector<T>` is the list of its elements.  For `Digraph::graph` the state also holds
  `capacity`, the number of elements that the vector is guaranteed to hold before an
  `emplace_back` moves them: `reserve(n)` raises it to `n`, and an `emplace_back` into a full
  vector leaves it at the new size, the least value the standard allows.  An implementation
  may allocate more, so a call that the model defines is defined for every implementation,
  and `Error.undefined` from `add_edge` says that the standard does not guarantee the call.
  `add_edge` forms the reference `graph[build(v)]` before it calls `build(w)` (C++17
  sequences the postfix-expression of a call before its arguments); when `build(w)` moves
  the elements of `graph`, the append goes through a dangling reference.
* `std::unordered_map<K, V>` is an association list in insertion order; `find` is the
  first entry with the key, and an entry is only ever added for a key that is absent.
* `std::string` and `std::string_view` are lists of characters; `std::size_t` has 64 bits.
* An input stream is the list of the lines that `std::getline` reads from it.
* `std::set<std::string>` is the list of its elements in iteration order.
* A C++ exception and undefined behaviour are results of type `Error`.
-/

namespace Wordnet

/-- The ways in which a call can fail to return a value. -/
inductive Error where
  /-- `std::out_of_range`, thrown by `at` of a map. -/
  | out_of_range
  /-- Undefined behaviour: an unchecked index or a character range outside its container,
  the read of an uninitialised variable. -/
  | undefined
  /-- A loop that has not ended within its iteration bound. -/
  | diverged
  deriving DecidableEq, Repr

deriving instance DecidableEq for Except

/-- The number of values of the C++ type `unsigned`. -/
def two32 : Nat := 4294967296

/-- The constant `4294967290` that `bfs` starts `min_distance` from. -/
def sentinel : Nat := 4294967290

/-- Unchecked `v[i]` read of a `std::vector<unsigned>`. -/
def vec_read (v : List Nat) (i : Nat) : Except Error Nat :=
  match v[i]? with
  | some x => .ok x
  | none => .error .undefined

/-- Unchecked `v[i] = x` write of a `std::vector<unsigned>`. -/
def vec_write (v : List Nat) (i x : Nat) : Except Error (List Nat) :=
  if i < v.length then .ok (v.set i x) else .error .undefined

/-- The call `m.at(k)` of an `unordered_map<unsigned, unsigned>`. -/
def map_at (m : List (Nat × Nat)) (k : Nat) : Except Error Nat :=
  match m.lookup k with
  | some x => .ok x
  | none => .error .out_of_range

/-! ## Digraph -/

/-- The three private members of `class Digraph`, and the capacity of `graph`. -/
structure Digraph where
  graph : List (List Nat)
  id_map : List (Nat × Nat)
  node_map : List Nat
  /-- `graph.capacity()`, as far as the standard guarantees it. -/
  capacity : Nat
  deriving DecidableEq, Repr

namespace Digraph

/-- The default constructor `Digraph::Digraph()`. -/
def empty : Digraph := ⟨[], [], [], 0⟩

/-- `Digraph::size`. -/
def size (g : Digraph) : Nat := g.graph.length

/-- `Digraph::extend`: three `reserve` calls.  They change no element; `graph.reserve`
raises the capacity of `graph` to `new_value` when it is below. -/
def extend (g : Digraph) (new_value : Nat) : Digraph :=
  { g with capacity := max g.capacity new_value }

/-- The call `build(id)` moves the elements of `graph`: `id` is new, and `graph` is full, so
that `graph.emplace_back()` reallocates. -/
def reallocates (g : Digraph) (id : Nat) : Bool :=
  (g.id_map.lookup id).isNone && decide (g.capacity ≤ g.graph.length)

/-- `Digraph::build`: the internal index of `id`, created when `id` is new.  The
`graph.emplace_back()` of a new vertex keeps the capacity when there is room and otherwise
reallocates `graph`, to the new size at least. -/
def build (g : Digraph) (id : Nat) : Nat × Digraph :=
  match g.id_map.lookup id with
  | some i => (i, g)
  | none =>
    (g.node_map.length % two32,
      { graph := g.graph ++ [[]]
        id_map := g.id_map ++ [(id, g.node_map.length % two32)]
        node_map := g.node_map ++ [id]
        capacity := if g.graph.length < g.capacity then g.capacity else g.graph.length + 1 })

/-- `Digraph::add_edge`: `graph[build(v)].emplace_back(build(w))`.  `build(v)` runs first and
the reference to `graph[build(v)]` is formed; then `build(w)` runs, and if it moves the
elements of `graph` the reference dangles and the append is undefined behaviour. -/
def add_edge (g : Digraph) (v w : Nat) : Except Error Digraph :=
  let (iv, g1) := g.build v
  if g1.reallocates w then .error .undefined
  else
    let (iw, g2) := g1.build w
    match g2.graph[iv]? with
    | some adj => .ok { g2 with graph := g2.graph.set iv (adj ++ [iw]) }
    | none => .error .undefined

/-- The graph obtained from the empty one by `extend(n)` and then `add_edge` calls, in the
order of the list. -/
def of_edges (n : Nat) (es : List (Nat × Nat)) : Except Error Digraph :=
  es.foldlM (fun g e => g.add_edge e.1 e.2) (empty.extend n)

end Digraph

/-! ## ShortestCommonAncestor -/

/-- The local variables of `ShortestCommonAncestor::bfs` during its last loop. -/
structure BfsState where
  distance : List Nat
  marked : List Nat
  queue : List Nat
  min_distance : Nat
  ancestor_id : Nat
  deriving DecidableEq, Repr

/-- The first loop of `bfs`: every member of `subset_a` is marked 1 and enqueued. -/
def seed_a (g : Digraph) : List Nat → List Nat → List Nat → Except Error (List Nat × List Nat)
  | [], marked, queue => .ok (marked, queue)
  | it :: rest, marked, queue =>
    match map_at g.id_map it with
    | .error e => .error e
    | .ok node =>
      match vec_write marked node 1 with
      | .error e => .error e
      | .ok marked1 => seed_a g rest marked1 (queue ++ [node])

/-- How the second loop of `bfs` ends: by its `return`, or by running to the end. -/
inductive Seeded where
  | returned (result : Nat × Nat)
  | seeded (marked queue : List Nat)
  deriving DecidableEq, Repr

/-- The second loop of `bfs`: a member of `subset_b` whose vertex is already marked ends the
call with distance 0; the others are marked 2 and enqueued. -/
def seed_b (g : Digraph) : List Nat → List Nat → List Nat → Except Error Seeded
  | [], marked, queue => .ok (.seeded marked queue)
  | it :: rest, marked, queue =>
    match map_at g.id_map it with
    | .error e => .error e
    | .ok node =>
      match vec_read marked node with
      | .error e => .error e
      | .ok m =>
        if m ≠ 0 then .ok (.returned (it, 0))
        else
          match vec_write marked node 2 with
          | .error e => .error e
          | .ok marked1 => seed_b g rest marked1 (queue ++ [node])

/-- One pass of the body of `for (auto it : digraph.graph[node])`. -/
def relax (node : Nat) (st : BfsState) (it : Nat) : Except Error BfsState := do
  let mi ← vec_read st.marked it
  let mn ← vec_read st.marked node
  if mi = 0 then
    let marked1 ← vec_write st.marked it mn
    let dn ← vec_read st.distance node
    let distance1 ← vec_write st.distance it ((dn + 1) % two32)
    pure { st with marked := marked1, distance := distance1, queue := st.queue ++ [it] }
  else if mi ≠ mn then
    let di ← vec_read st.distance it
    let dn ← vec_read st.distance node
    if (di + dn + 1) % two32 < st.min_distance then
      pure { st with min_distance := (di + dn + 1) % two32, ancestor_id := it }
    else pure st
  else pure st

/-- The loop `for (auto it : digraph.graph[node])` over the successors of `node`. -/
def visit (node : Nat) : List Nat → BfsState → Except Error BfsState
  | [], st => .ok st
  | it :: rest, st =>
    match relax node st it with
    | .error e => .error e
    | .ok st1 => visit node rest st1

/-- The loop `for (; !queue.empty(); queue.pop_front())`, run for at most `fuel` passes. -/
def drain (g : Digraph) : Nat → BfsState → Except Error BfsState
  | fuel, st =>
    match st.queue with
    | [] => .ok st
    | node :: _ =>
      match fuel with
      | 0 => .error .diverged
      | fuel1 + 1 =>
        match g.graph[node]? with
        | none => .error .undefined
        | some adj =>
          match visit node adj st with
          | .error e => .error e
          | .ok st1 => drain g fuel1 { st1 with queue := st1.queue.tail }

/-- `ShortestCommonAncestor::bfs` on the graph `g`.  The traversal loop is given one pass
for every queued vertex and one for every vertex of the graph; a vertex is queued by that
loop only when it is marked, so the bound is not reached (`drain_spec`). -/
def bfs (g : Digraph) (subset_a subset_b : List Nat) : Except Error (Nat × Nat) :=
  match seed_a g subset_a (List.replicate g.size 0) [] with
  | .error e => .error e
  | .ok (marked, queue) =>
    match seed_b g subset_b marked queue with
    | .error e => .error e
    | .ok (.returned r) => .ok r
    | .ok (.seeded marked1 queue1) =>
      match drain g (queue1.length + g.size)
          ⟨List.replicate g.size 0, marked1, queue1, sentinel, 0⟩ with
      | .error e => .error e
      | .ok st =>
        match vec_read g.node_map st.ancestor_id with
        | .error e => .error e
        | .ok z => .ok (z, st.min_distance)

/-! ## WordNet -/

/-- A `std::string` or `std::string_view`. -/
abbrev Str := List Char

/-- The value `std::string::npos`. -/
def npos : Nat := 18446744073709551615

/-- The number of values of `std::size_t`. -/
def two64 : Nat := 18446744073709551616

/-- The search of `find_from`: `i` is the index of the head of the remaining characters. -/
def find_aux (c : Char) : Str → Nat → Nat
  | [], _ => npos
  | x :: xs, i => if x = c then i else find_aux c xs (i + 1)

/-- The call `s.find(c, pos)` of `std::string`. -/
def find_from (s : Str) (c : Char) (pos : Nat) : Nat :=
  find_aux c (s.drop pos) pos

/-- The characters `{&s[start], len}`: a string or view made from a pointer into `s` and a
length.  A range that leaves `s` is undefined behaviour. -/
def char_range (s : Str) (start len : Nat) : Except Error Str :=
  if start + len ≤ s.length then .ok ((s.drop start).take len) else .error .undefined

/-- The value of a string of decimal digits. -/
def digits_value (ds : Str) : Nat :=
  ds.foldl (fun acc c => 10 * acc + (c.toNat - 48)) 0

/-- `string_view_to_unsigned`: `std::from_chars` reads the longest prefix of decimal digits;
when there is none, or its value does not fit `unsigned`, `result` is returned
uninitialised. -/
def string_view_to_unsigned (sv : Str) : Except Error Nat :=
  let ds := sv.takeWhile Char.isDigit
  if ds = [] then .error .undefined
  else if digits_value ds < two32 then .ok (digits_value ds) else .error .undefined

/-- The members of `class WordNet`. -/
structure WordNet where
  input : List Str
  glosses : List (Nat × Str)
  words : List (Str × List Nat)
  digraph : Digraph
  deriving DecidableEq, Repr

/-- The statement `words[key].emplace_back(id)`. -/
def words_push (words : List (Str × List Nat)) (key : Str) (id : Nat) : List (Str × List Nat) :=
  match words.lookup key with
  | some _ => words.map (fun p => if p.1 = key then (p.1, p.2 ++ [id]) else p)
  | none => words ++ [(key, [id])]

/-- The statement `glosses[id] = text`. -/
def glosses_assign (glosses : List (Nat × Str)) (id : Nat) (text : Str) : List (Nat × Str) :=
  match glosses.lookup id with
  | some _ => glosses.map (fun p => if p.1 = id then (p.1, text) else p)
  | none => glosses ++ [(id, text)]

/-- The `while` loop over the synonyms of one concept line, run for at most `fuel` passes:
the result is the table of words and the final `start_pos`. -/
def synonyms_loop (line : Str) (id gloss_start : Nat) :
    Nat → Nat → List (Str × List Nat) → Except Error (List (Str × List Nat) × Nat)
  | fuel, start_pos, words =>
    let end_pos := find_from line ' ' start_pos
    if end_pos < gloss_start then
      match fuel with
      | 0 => .error .diverged
      | fuel1 + 1 =>
        match char_range line start_pos ((end_pos + two64 - start_pos) % two64) with
        | .error e => .error e
        | .ok key =>
          synonyms_loop line id gloss_start fuel1 ((end_pos + 1) % two64) (words_push words key id)
    else .ok (words, start_pos)

/-- The body of `for (auto& it : input)` in the constructor: one concept line.  The loop
over the synonyms gets one pass for every character of the line; each pass consumes a
space. -/
def synset_line (tables : List (Str × List Nat) × List (Nat × Str)) (line : Str) :
    Except Error (List (Str × List Nat) × List (Nat × Str)) := do
  let identifier ← char_range line 0 (find_from line ',' 0)
  let unsigned_string ← string_view_to_unsigned identifier
  let gloss_start := (find_from line ',' (identifier.length + 1) + 1) % two64
  let (words1, start_pos) ←
    synonyms_loop line unsigned_string gloss_start line.length (identifier.length + 1) tables.1
  let key ← char_range line start_pos ((gloss_start + two64 - 1 + two64 - start_pos) % two64)
  let gloss ← char_range line gloss_start ((line.length + two64 - gloss_start) % two64)
  pure (words_push words1 key unsigned_string, glosses_assign tables.2 unsigned_string gloss)

/-- The `while` loop over the targets of one generalization line but the last, run for at most
`fuel` passes: the result is the graph and the final `start_pos`. -/
def targets_loop (line : Str) (id : Nat) : Nat → Nat → Digraph → Except Error (Digraph × Nat)
  | fuel, start_pos, g =>
    let end_pos := find_from line ',' start_pos
    if end_pos < line.length then
      match fuel with
      | 0 => .error .diverged
      | fuel1 + 1 =>
        match char_range line start_pos ((end_pos + two64 - start_pos) % two64) with
        | .error e => .error e
        | .ok field =>
          match string_view_to_unsigned field with
          | .error e => .error e
          | .ok target =>
            match g.add_edge id target with
            | .error e => .error e
            | .ok g1 => targets_loop line id fuel1 ((end_pos + 1) % two64) g1
    else .ok (g, start_pos)

/-- The body of the `while (std::getline(hypernyms, line))` loop: one generalization line.
The loop over the targets gets one pass for every character of the line; each pass consumes
a comma. -/
def hypernym_line (g : Digraph) (line : Str) : Except Error Digraph :=
  if line = [] then .ok g
  else
    let identifier_size := find_from line ',' 0
    if identifier_size < line.length then do
      let identifier ← char_range line 0 identifier_size
      let unsigned_string ← string_view_to_unsigned identifier
      let (g1, start_pos) ← targets_loop line unsigned_string line.length (identifier_size + 1) g
      let field ← char_range line start_pos ((line.length + two64 - start_pos) % two64)
      let target ← string_view_to_unsigned field
      g1.add_edge unsigned_string target
    else .ok g

namespace WordNet

/-- The constructor `WordNet::WordNet(synsets, hypernyms)`. -/
def ctor (synsets hypernyms : List Str) : Except Error WordNet := do
  let input := synsets.filter (fun line => line ≠ [])
  let (words, glosses) ← input.foldlM synset_line ([], [])
  let digraph ← hypernyms.foldlM hypernym_line (Digraph.empty.extend input.length)
  pure { input := input, glosses := glosses, words := words, digraph := digraph }

/-- `WordNet::is_noun`. -/
def is_noun (wn : WordNet) (word : Str) : Bool :=
  (wn.words.lookup word).isSome

/-- The call `words.at(noun)`. -/
def words_at (wn : WordNet) (noun : Str) : Except Error (List Nat) :=
  match wn.words.lookup noun with
  | some ids => .ok ids
  | none => .error .out_of_range

/-- The call `glosses.at(id)`. -/
def glosses_at (wn : WordNet) (id : Nat) : Except Error Str :=
  match wn.glosses.lookup id with
  | some text => .ok text
  | none => .error .out_of_range

/-- `WordNet::distance_calculation`. -/
def distance_calculation (wn : WordNet) (noun1 noun2 : Str) : Except Error (Nat × Nat) := do
  let subset_a ← wn.words_at noun1
  let subset_b ← wn.words_at noun2
  bfs wn.digraph subset_a subset_b

/-- `WordNet::sca`. -/
def sca (wn : WordNet) (noun1 noun2 : Str) : Except Error Str := do
  let r ← wn.distance_calculation noun1 noun2
  wn.glosses_at r.1

/-- `WordNet::distance`. -/
def distance (wn : WordNet) (noun1 noun2 : Str) : Except Error Nat := do
  let r ← wn.distance_calculation noun1 noun2
  pure r.2

end WordNet

/-! ## Outcast -/

/-- The local variables of `Outcast::outcast` that its loops change; `it` is `none` while
the iterator is uninitialised. -/
structure OutcastState where
  distances : List Nat
  ans : Nat
  it : Option Str
  confirmed : Bool
  deriving DecidableEq, Repr

/-- The statement `distances[i] += distance`. -/
def add_at (distances : List Nat) (i distance : Nat) : Except Error (List Nat) :=
  match distances[i]? with
  | some x => .ok (distances.set i ((x + distance) % two32))
  | none => .error .undefined

/-- The inner loop of `outcast`: `first_nout` has index `i`, the remaining nouns start at
index `j`. -/
def outcast_inner (wn : WordNet) (first_nout : Str) (i : Nat) :
    List Str → Nat → List Nat → Except Error (List Nat)
  | [], _, distances => .ok distances
  | second_nout :: rest, j, distances =>
    match wn.distance first_nout second_nout with
    | .error e => .error e
    | .ok distance =>
      match add_at distances i distance with
      | .error e => .error e
      | .ok distances1 =>
        match add_at distances1 j distance with
        | .error e => .error e
        | .ok distances2 => outcast_inner wn first_nout i rest (j + 1) distances2

/-- The outer loop of `outcast` over the nouns that remain, the first of index `i`. -/
def outcast_outer (wn : WordNet) : List Str → Nat → OutcastState → Except Error OutcastState
  | [], _, st => .ok st
  | first_nout :: rest, i, st =>
    match outcast_inner wn first_nout i rest (i + 1) st.distances with
    | .error e => .error e
    | .ok distances1 =>
      match vec_read distances1 i, vec_read distances1 st.ans with
      | .ok di, .ok da =>
        if di > da ∨ i = 0 then
          outcast_outer wn rest (i + 1)
            { distances := distances1, ans := i, it := some first_nout, confirmed := false }
        else
          outcast_outer wn rest (i + 1)
            { st with distances := distances1, confirmed := decide (di = da) || st.confirmed }
      | _, _ => .error .undefined

/-- `Outcast::outcast` over the nouns of the set, in iteration order. -/
def outcast (wn : WordNet) (nouns : List Str) : Except Error Str :=
  if nouns.length ≤ 2 then .ok []
  else
    match outcast_outer wn nouns 0 ⟨List.replicate nouns.length 0, 0, none, false⟩ with
    | .error e => .error e
    | .ok st =>
      if st.confirmed then .ok []
      else
        match st.it with
        | some noun => .ok noun
        | none => .error .undefined

/-! ## Notions the statements use -/
namespace Digraph

/-- The internal index that `id_map` gives the external id `e`, if any. -/
def internal (g : Digraph) (e : Nat) : Option Nat := g.id_map.lookup e

/-- The invariant of `Digraph`. -/
structure Inv (g : Digraph) : Prop where
  node_of_id : ∀ e i, g.id_map.lookup e = some i → g.node_map[i]? = some e
  id_of_node : ∀ i e, g.node_map[i]? = some e → g.id_map.lookup e = some i
  graph_length : g.graph.length = g.node_map.length
  id_map_length : g.id_map.length = g.node_map.length
  adjacent_lt : ∀ adj ∈ g.graph, ∀ j ∈ adj, j < g.node_map.length
  keys_nodup : (g.id_map.map Prod.fst).Nodup
  keys_lt : ∀ p ∈ g.id_map, p.1 < two32

/-- The adjacency list of the vertex of index `i`, empty when there is no such vertex. -/
def adj (g : Digraph) (i : Nat) : List Nat := (g.graph[i]?).getD []

/-- There is room for the call `add_edge(v, w)`: `w` is a vertex already, or `w` is `v`, or
the vertices that the call creates fit the capacity of `graph`. -/
def Room (g : Digraph) (v w : Nat) : Prop :=
  w ∈ g.node_map ∨ w = v ∨ g.size + (if v ∈ g.node_map then 1 else 2) ≤ g.capacity

end Digraph


/-- A call of the public interface of `Digraph` that changes the graph. -/
inductive Call where
  | add_edge (v w : Nat)
  | extend (new_value : Nat)
  deriving DecidableEq, Repr

/-- The external ids that a call names. -/
def Call.ids : Call → List Nat
  | .add_edge v w => [v, w]
  | .extend _ => []

/-- The graph after one call. -/
def Digraph.call (g : Digraph) : Call → Except Error Digraph
  | .add_edge v w => g.add_edge v w
  | .extend n => .ok (g.extend n)

/-- The graph after a sequence of calls, made in the order of the list. -/
def Digraph.run (g : Digraph) : List Call → Except Error Digraph
  | [] => .ok g
  | c :: rest =>
    match g.call c with
    | .error e => .error e
    | .ok g1 => g1.run rest

/-- The value of a vector at an index, 0 outside the vector. -/
def val (v : List Nat) (i : Nat) : Nat := (v[i]?).getD 0

/-- The internal indices of the external ids of a list, in its order. -/
def Digraph.nodes (g : Digraph) (ids : List Nat) : List Nat := ids.filterMap g.internal

/-- There is an edge from the vertex `u` to the vertex `v` (internal indices). -/
def Digraph.Edge (g : Digraph) (u v : Nat) : Prop :=
  ∃ adj, g.graph[u]? = some adj ∧ v ∈ adj

/-- A directed walk of `k` edges from the vertex `u` to the vertex `v` (internal indices). -/
inductive Digraph.Walk (g : Digraph) : Nat → Nat → Nat → Prop where
  | zero (u : Nat) : u < g.size → g.Walk 0 u u
  | succ (k u v w : Nat) : g.Walk k u v → g.Edge v w → g.Walk (k + 1) u w

/-- The vertex `x` (internal index) is reached from the external id `a` by a directed walk
of `k` edges. -/
def Digraph.Reaches (g : Digraph) (k a x : Nat) : Prop :=
  ∃ i, g.internal a = some i ∧ g.Walk k i x

/-- No directed walk of one edge or more returns to its start. -/
def Digraph.Acyclic (g : Digraph) : Prop :=
  ∀ k u, ¬ g.Walk (k + 1) u u

/-- Some vertex is reached from a member of `A` and from a member of `B`. -/
def Digraph.CommonAncestor (g : Digraph) (A B : List Nat) : Prop :=
  ∃ a ∈ A, ∃ b ∈ B, ∃ x p q, g.Reaches p a x ∧ g.Reaches q b x

/-- The graph of eight vertices and eight edges on which `bfs` misses the minimum:
`1 -> 6`, `1 -> 2 -> 3 -> 4 -> 6` and `7 -> 8 -> 9 -> 4`, with room for its eight
vertices. -/
def detour_graph : Digraph :=
  { graph := [[1, 2], [], [5], [4], [6], [7], [7], [1]]
    id_map := [(1, 0), (6, 1), (2, 2), (7, 3), (8, 4), (3, 5), (9, 6), (4, 7)]
    node_map := [1, 6, 2, 7, 8, 3, 9, 4]
    capacity := 8 }

/-- The edges of `detour_graph`, in the order of the `add_edge` calls that build it. -/
def detour_edges : List (Nat × Nat) :=
  [(1, 6), (1, 2), (7, 8), (2, 3), (8, 9), (3, 4), (9, 4), (4, 6)]

/-- A place of each vertex of `detour_graph` in a topological order. -/
def detour_rank (u : Nat) : Nat := ([0, 4, 1, 0, 1, 2, 2, 3][u]?).getD 0

/-- Concept lines for the eight ids of `detour_graph`: the nouns `a` and `b` have the ids 1
and 7. -/
def detour_synsets : List Str :=
  [['1', ',', 'a', ',', 'x'], ['7', ',', 'b', ',', 'y'], ['6', ',', 'c', ',', 'z'],
   ['2', ',', 'd', ',', 'z'], ['8', ',', 'e', ',', 'z'], ['3', ',', 'f', ',', 'z'],
   ['9', ',', 'g', ',', 'z'], ['4', ',', 'h', ',', 'z']]

/-- Generalization lines that list the edges of `detour_graph`. -/
def detour_hypernyms : List Str :=
  [['1', ',', '6', ',', '2'], ['7', ',', '8'], ['2', ',', '3'], ['8', ',', '9'],
   ['3', ',', '4'], ['9', ',', '4'], ['4', ',', '6']]

/-- What is known of the vertex `u` once the loop over its successors has run: every
successor carries the mark of `u`, or carries the other mark and a crossing was recorded. -/
def Settled (g : Digraph) (st : BfsState) (u : Nat) : Prop :=
  ∀ v, g.Edge u v →
    val st.marked v = val st.marked u ∨ (val st.marked v ≠ 0 ∧ st.min_distance < sentinel)

/-- The invariant of the last loop of `bfs(A, B)` on the graph `g`. -/
structure BfsInv (g : Digraph) (A B : List Nat) (st : BfsState) : Prop where
  marked_length : st.marked.length = g.size
  distance_length : st.distance.length = g.size
  queue_marked : ∀ q ∈ st.queue, val st.marked q ≠ 0
  marks : ∀ j, val st.marked j ≤ 2
  from_a : ∀ j, val st.marked j = 1 → ∃ a ∈ A, g.Reaches (val st.distance j) a j
  from_b : ∀ j, val st.marked j = 2 → ∃ b ∈ B, g.Reaches (val st.distance j) b j
  depth : ∀ j, val st.marked j ≠ 0 →
    val st.distance j + 1 ≤ st.marked.count (val st.marked j)
  seeds_a : ∀ j ∈ g.nodes A, val st.marked j = 1
  seeds_b : ∀ j ∈ g.nodes B, val st.marked j = 2
  min_le : st.min_distance ≤ sentinel
  crossing : st.min_distance < sentinel →
    ∃ a ∈ A, ∃ b ∈ B, ∃ p q, g.Reaches p a st.ancestor_id ∧ g.Reaches q b st.ancestor_id ∧
      p + q = st.min_distance
  ancestor_lt : st.ancestor_id < g.size
  closed : ∀ u, val st.marked u ≠ 0 → u ∈ st.queue ∨ Settled g st u

/-- What a pass of the loops never undoes: a mark once set stays with its distance, the
minimum does not grow, and the queue only gains elements at its end. -/
structure Grows (st st1 : BfsState) : Prop where
  marked_eq : ∀ j, val st.marked j ≠ 0 → val st1.marked j = val st.marked j
  min_le : st1.min_distance ≤ st.min_distance
  queue_ext : ∃ ext, st1.queue = st.queue ++ ext
  measure_eq : st1.queue.length + st1.marked.count 0 = st.queue.length + st.marked.count 0

/-- The total of the noun at position `k` among `n` nouns: the sum of the distances of the
pairs it belongs to, where `d i j` is the distance queried for the pair of positions
`i < j`, the earlier noun first. -/
def pair_total (d : Nat → Nat → Nat) (n k : Nat) : Nat :=
  (∑ m ∈ Finset.range k, d m k) + ∑ m ∈ Finset.Ico (k + 1) n, d k m

/-- The invariant of the outer loop of `outcast` before the pass for position `i`. -/
structure OutcastInv (nouns : List Str) (d : Nat → Nat → Nat) (i : Nat) (st : OutcastState) :
    Prop where
  length_eq : st.distances.length = nouns.length
  done : ∀ k, k < i → val st.distances k = pair_total d nouns.length k
  partial_sum : ∀ k, i ≤ k → k < nouns.length →
    val st.distances k = ∑ m ∈ Finset.range i, d m k
  ans_lt : st.ans < nouns.length
  ans_lt_pos : 0 < i → st.ans < i
  it_eq : 0 < i → st.it = some (nouns.getD st.ans [])
  ans_max : ∀ k, k < i → pair_total d nouns.length k ≤ pair_total d nouns.length st.ans
  confirmed_iff : 0 < i → (st.confirmed = true ↔
    ∃ k, k < i ∧ k ≠ st.ans ∧ pair_total d nouns.length k = pair_total d nouns.length st.ans)

/-- A `WordNet` over `detour_graph` with the three nouns `a`, `b`, `c` of ids 1, 7 and 2. -/
def three_nouns : WordNet :=
  { input := []
    glosses := [(1, ['x']), (7, ['y']), (2, ['z'])]
    words := [(['a'], [1]), (['b'], [7]), (['c'], [2])]
    digraph := detour_graph }

/-- The distances that `three_nouns` returns for the pairs of positions in `a`, `b`, `c`. -/
def three_nouns_distance (i j : Nat) : Nat :=
  if i = 0 ∧ j = 1 then 6 else if i = 0 ∧ j = 2 then 1 else 5

/-- The words of a list, separated by single spaces. -/
def join_spaces : List Str → Str
  | [] => []
  | [s] => s
  | s :: t :: rest => s ++ ' ' :: join_spaces (t :: rest)

/-- The concept line `id,s1 s2 ... sk,gloss`. -/
def concept_line (idtext : Str) (syns : List Str) (gloss : Str) : Str :=
  idtext ++ ',' :: (join_spaces syns ++ ',' :: gloss)

/-- The fields of a concept line as the claim describes them: a decimal `unsigned` id, one
synonym or more, each non-empty and free of spaces and commas, on a line whose length is
below `npos`. -/
structure ConceptFields (idtext : Str) (syns : List Str) (gloss : Str) : Prop where
  id_nonempty : idtext ≠ []
  id_digits : ∀ c ∈ idtext, c.isDigit = true
  id_fits : digits_value idtext < two32
  syns_nonempty : syns ≠ []
  syn_nonempty : ∀ s ∈ syns, s ≠ []
  syn_no_space : ∀ s ∈ syns, ' ' ∉ s
  syn_no_comma : ∀ s ∈ syns, ',' ∉ s
  length_lt : (concept_line idtext syns gloss).length < npos

/-- The id that the constructor reads from a concept line: the digits before its first
comma. -/
def concept_id (line : Str) : Except Error Nat :=
  match char_range line 0 (find_from line ',' 0) with
  | .error e => .error e
  | .ok identifier => string_view_to_unsigned identifier

/-- The table of words only gains ids: every stored word stays stored, with the ids it had. -/
def WordsGrow (words words1 : List (Str × List Nat)) : Prop :=
  ∀ s ids, words.lookup s = some ids →
    ∃ ids1, words1.lookup s = some ids1 ∧ ∀ x ∈ ids, x ∈ ids1

/-! ## Notions for the generalization lines and the constructed tables -/

/-- The fields of a list, separated by single commas. -/
def join_commas : List Str → Str
  | [] => []
  | [s] => s
  | s :: t :: rest => s ++ ',' :: join_commas (t :: rest)

/-- The generalization line `id,t1,...,tm`. -/
def generalization_line (idtext : Str) (targets : List Str) : Str :=
  idtext ++ ',' :: join_commas targets

/-- A decimal field that `unsigned` can hold: one digit or more, of a value below 2^32. -/
structure DecimalUnsigned (s : Str) : Prop where
  nonempty : s ≠ []
  digits : ∀ c ∈ s, c.isDigit = true
  fits : digits_value s < two32

/-- The fields of a generalization line as the claim describes them: an id and one target
or more, all decimal `unsigned`, on a line whose length is below `npos`. -/
structure GeneralizationFields (idtext : Str) (targets : List Str) : Prop where
  id_ok : DecimalUnsigned idtext
  targets_nonempty : targets ≠ []
  targets_ok : ∀ t ∈ targets, DecimalUnsigned t
  length_lt : (generalization_line idtext targets).length < npos

/-- The edges `id -> t1`, ..., `id -> tm` of a generalization line, in the order of the
line. -/
def line_edges (idtext : Str) (targets : List Str) : List (Nat × Nat) :=
  targets.map (fun t => (digits_value idtext, digits_value t))

/-- The concept source of one line `1,a,x`. -/
def lone_synsets : List Str := [['1', ',', 'a', ',', 'x']]

/-- The generalization source of one line `1,2`. -/
def lone_hypernyms : List Str := [['1', ',', '2']]

/-- The concept lines `1,a b,x` and `2,b,y`: the noun `b` has the ids 1 and 2. -/
def shared_synsets : List Str :=
  [['1', ',', 'a', ' ', 'b', ',', 'x'], ['2', ',', 'b', ',', 'y']]

/-- The generalization line `1,3`: the id 2 is not a vertex of the hierarchy. -/
def shared_hypernyms : List Str := [['1', ',', '3']]

/-- The concept lines `1,a a,x` and `2,b,y`: the noun `a` has the id list `[1, 1]`. -/
def repeated_synsets : List Str :=
  [['1', ',', 'a', ' ', 'a', ',', 'x'], ['2', ',', 'b', ',', 'y']]

/-- The concept lines `1,a,x`, `2,b,y`, `3,c,z` and `10,d,w`: one for each id of
`apart_hypernyms`. -/
def apart_synsets : List Str :=
  [['1', ',', 'a', ',', 'x'], ['2', ',', 'b', ',', 'y'], ['3', ',', 'c', ',', 'z'],
   ['1', '0', ',', 'd', ',', 'w']]

/-- The concept lines `1,a,x`, `2,b,y` and `4,c,z`: the constructor reserves three
vertices. -/
def orphan_synsets : List Str :=
  [['1', ',', 'a', ',', 'x'], ['2', ',', 'b', ',', 'y'], ['4', ',', 'c', ',', 'z']]

/-- The generalization lines `1,3` and `2,3`: the id 3 has no concept line. -/
def orphan_hypernyms : List Str := [['1', ',', '3'], ['2', ',', '3']]

/-- The generalization lines `1,10` and `2,3`: nothing is reached from both 1 and 2, nor
from both 1 and 3. -/
def apart_hypernyms : List Str := [['1', ',', '1', '0'], ['2', ',', '3']]

/-- The distances of the pairs of positions in `a`, `b`, `c` over `apart_hypernyms`. -/
def apart_distance (i _j : Nat) : Nat := if i = 0 then sentinel else 1

/-! ## Notions for the traversal loop on arbitrary graphs -/

/-- The part of the invariant of the traversal loop that needs no bound on the graph: the
vectors have one entry for each vertex, every queued vertex is marked, `ancestor_id` is 0
or the index of a vertex, and it is 0 as long as `min_distance` is the sentinel. -/
structure TermInv (g : Digraph) (st : BfsState) : Prop where
  marked_length : st.marked.length = g.size
  distance_length : st.distance.length = g.size
  queue_marked : ∀ q ∈ st.queue, val st.marked q ≠ 0
  ancestor_ok : st.ancestor_id = 0 ∨ st.ancestor_id < g.size
  min_le : st.min_distance ≤ sentinel
  ancestor_zero : st.min_distance = sentinel → st.ancestor_id = 0

/-- The state `st1` comes from `st` by appending the vertices `ext` to the queue: they are
pairwise distinct, each was unmarked in `st` and is marked in `st1`, and no mark of `st`
has changed. -/
structure Enqueues (st st1 : BfsState) (ext : List Nat) : Prop where
  queue_eq : st1.queue = st.queue ++ ext
  nodup : ext.Nodup
  fresh : ∀ x ∈ ext, val st.marked x = 0 ∧ val st1.marked x ≠ 0
  kept : ∀ j, val st.marked j ≠ 0 → val st1.marked j = val st.marked j
  measure_eq : st1.queue.length + st1.marked.count 0 = st.queue.length + st.marked.count 0

/-- The loop `drain` with a log: beside the final state it returns the vertices that its
passes appended to the queue, in order.  A pass appends at the end of the queue and removes
nothing before its `pop_front`, so what it appended is the queue after the pass without
its first `queue.size()` elements. -/
def drain_log (g : Digraph) : Nat → BfsState → Except Error (BfsState × List Nat)
  | fuel, st =>
    match st.queue with
    | [] => .ok (st, [])
    | node :: _ =>
      match fuel with
      | 0 => .error .diverged
      | fuel1 + 1 =>
        match g.graph[node]? with
        | none => .error .undefined
        | some adj =>
          match visit node adj st with
          | .error e => .error e
          | .ok st1 =>
            match drain_log g fuel1 { st1 with queue := st1.queue.tail } with
            | .error e => .error e
            | .ok (st2, log) => .ok (st2, st1.queue.drop st.queue.length ++ log)

/-- What is known of the edge from `u` to `v` once the loop body has run for it, with the
total that a crossing recorded: `v` carries the mark of `u`, or it carries a mark and
`min_distance` is at most the sum of the two distances plus 1. -/
def CrossedEdge (st : BfsState) (u v : Nat) : Prop :=
  val st.marked v = val st.marked u ∨
    (val st.marked v ≠ 0 ∧ st.min_distance ≤ val st.distance v + val st.distance u + 1)

/-- The loop over the successors of the vertex `u` has run. -/
def Crossed (g : Digraph) (st : BfsState) (u : Nat) : Prop :=
  ∀ v, g.Edge u v → CrossedEdge st u v

/-- What the traversal never undoes: a mark once set stays with its distance, and the
minimum does not grow. -/
structure Keeps (st st1 : BfsState) : Prop where
  marked_eq : ∀ j, val st.marked j ≠ 0 → val st1.marked j = val st.marked j
  distance_eq : ∀ j, val st.marked j ≠ 0 → val st1.distance j = val st.distance j
  min_le : st1.min_distance ≤ st.min_distance

/-- Every marked vertex is in the queue or has had its successors looked at. -/
def AllCrossed (g : Digraph) (st : BfsState) : Prop :=
  ∀ u, val st.marked u ≠ 0 → u ∈ st.queue ∨ Crossed g st u

/-- Two leaves of ids 1 and 2 with the same direct parent of id 3. -/
def sibling_graph : Digraph :=
  { graph := [[1], [], [1]], id_map := [(1, 0), (3, 1), (2, 2)], node_map := [1, 3, 2],
    capacity := 3 }

/-- The `WordNet` that construction returns for `orphan_synsets` and `orphan_hypernyms`. -/
def orphan_wordnet : WordNet :=
  { input := orphan_synsets
    glosses := [(1, ['x']), (2, ['y']), (4, ['z'])]
    words := [(['a'], [1]), (['b'], [2]), (['c'], [4])]
    digraph := sibling_graph }

/-- The chain `b -> a -> root` with the ids 2, 1 and 0. -/
def chain_graph : Digraph :=
  { graph := [[1], [2], []], id_map := [(2, 0), (1, 1), (0, 2)], node_map := [2, 1, 0],
    capacity := 3 }

/-- Two vertices of ids 1 and 2: a self-loop at the first and the edge from the first to
the second stored twice. -/
def looped_graph : Digraph :=
  { graph := [[0, 1, 1], []], id_map := [(1, 0), (2, 1)], node_map := [1, 2], capacity := 2 }

/-- A place of each vertex of `sibling_graph` in a topological order. -/
def sibling_rank (u : Nat) : Nat := ([0, 1, 0][u]?).getD 0

/-- The chain `0 -> 1 -> ... -> n - 1` of `n` vertices, as `extend(n)` and the calls
`add_edge(0, 1)`, `add_edge(1, 2)`, ... build it: the vertex of id `i` has the index `i`. -/
def long_chain (n : Nat) : Digraph :=
  { graph := (List.range n).map (fun i => if i + 1 < n then [i + 1] else [])
    id_map := (List.range n).map (fun i => (i, i))
    node_map := List.range n
    capacity := n }

/-- The state of the traversal of `long_chain n` from its first and its last vertex once
the vertices up to `t` carry the mark 1: each is at the distance of its index, the last
vertex carries the mark 2 at distance 0, and no crossing is recorded. -/
structure ChainState (n t : Nat) (st : BfsState) : Prop where
  marked_length : st.marked.length = n
  distance_length : st.distance.length = n
  marked_val : ∀ j, val st.marked j = if j ≤ t then 1 else if j + 1 = n then 2 else 0
  distance_val : ∀ j, j ≤ t → val st.distance j = j
  distance_top : ∀ j, j + 1 = n → val st.distance j = 0
  min_eq : st.min_distance = sentinel
  ancestor_eq : st.ancestor_id = 0

/-- The edges `0 -> 1`, `1 -> 2`, ..., `n - 2 -> n - 1`, in this order. -/
def chain_edges (n : Nat) : List (Nat × Nat) :=
  (List.range (n - 1)).map (fun i => (i, i + 1))

/-! ## Digraph: the invariant, `add_edge`, `size` -/

theorem nodup_bounded_length (l : List Nat) (N : Nat) (hn : l.Nodup) (hb : ∀ x ∈ l, x < N) :
    l.length ≤ N := by
  have h1 : l.toFinset ⊆ Finset.range N := by
    intro x hx
    simp only [List.mem_toFinset] at hx
    simpa using hb x hx
  have h2 := Finset.card_le_card h1
  rw [List.toFinset_card_of_nodup hn, Finset.card_range] at h2
  exact h2

theorem lookup_none_not_mem_keys (m : List (Nat × Nat)) (k : Nat) (h : m.lookup k = none) :
    k ∉ m.map Prod.fst := by
  intro hk
  obtain ⟨p, hp, rfl⟩ := List.mem_map.1 hk
  have := (List.lookup_eq_none_iff.1 h) p hp
  simp at this

namespace Digraph

theorem Inv.size_lt (g : Digraph) (h : g.Inv) (id : Nat) (hid : id < two32)
    (hnew : g.id_map.lookup id = none) : g.node_map.length < two32 := by
  have hk := lookup_none_not_mem_keys _ _ hnew
  have hnd : (id :: g.id_map.map Prod.fst).Nodup := List.nodup_cons.2 ⟨hk, h.keys_nodup⟩
  have hb : ∀ x ∈ id :: g.id_map.map Prod.fst, x < two32 := by
    intro x hx
    rcases List.mem_cons.1 hx with rfl | hx
    · exact hid
    · obtain ⟨p, hp, rfl⟩ := List.mem_map.1 hx
      exact h.keys_lt p hp
  have := nodup_bounded_length _ _ hnd hb
  simp only [List.length_cons, List.length_map] at this
  have h2 := h.id_map_length
  omega

theorem empty_inv : empty.Inv := by
  constructor <;> simp [empty]

theorem build_old (g : Digraph) (id i : Nat) (h : g.id_map.lookup id = some i) :
    g.build id = (i, g) := by
  simp [build, h]

theorem build_new (g : Digraph) (h : g.Inv) (id : Nat) (hid : id < two32)
    (hnew : g.id_map.lookup id = none) :
    g.build id = (g.node_map.length,
      { graph := g.graph ++ [[]]
        id_map := g.id_map ++ [(id, g.node_map.length)]
        node_map := g.node_map ++ [id]
        capacity := if g.graph.length < g.capacity then g.capacity else g.graph.length + 1 }) := by
  have hlt := h.size_lt g id hid hnew
  simp [build, hnew, Nat.mod_eq_of_lt hlt]

theorem build_inv (g : Digraph) (h : g.Inv) (id : Nat) (hid : id < two32) :
    (g.build id).2.Inv := by
  cases hl : g.id_map.lookup id with
  | some i => rw [build_old g id i hl]; exact h
  | none =>
    rw [build_new g h id hid hl]
    have hk := lookup_none_not_mem_keys _ _ hl
    constructor
    · intro e i he
      simp only [List.lookup_append] at he
      cases hle : g.id_map.lookup e with
      | some i' =>
        simp only [hle, Option.or_some] at he
        have := h.node_of_id e i (hle.trans he)
        have hi : i < g.node_map.length := by
          rcases List.getElem?_eq_some.1 this with ⟨hi, _⟩
          exact hi
        simp only [List.getElem?_append_left hi]
        exact this
      | none =>
        simp only [hle, Option.none_or, List.lookup_cons, List.lookup_nil] at he
        split at he
        · rename_i hb
          cases he
          have : e = id := by simpa using hb
          subst this
          simp
        · cases he
    · intro i e hi
      simp only [List.lookup_append]
      rcases Nat.lt_or_ge i g.node_map.length with hlt | hge
      · simp only [List.getElem?_append_left hlt] at hi
        simp [h.id_of_node i e hi]
      · rw [List.getElem?_append_right hge] at hi
        have hi0 : i - g.node_map.length = 0 := by
          by_contra hne
          have : ([id] : List Nat)[i - g.node_map.length]? = none := by
            apply List.getElem?_eq_none
            simp; omega
          rw [this] at hi; cases hi
        rw [hi0] at hi
        simp at hi
        subst hi
        have : i = g.node_map.length := by omega
        subst this
        simp [hl]
    · simp [h.graph_length]
    · simp [h.id_map_length]
    · intro adj hadj j hj
      simp only [List.mem_append, List.mem_singleton] at hadj
      rcases hadj with hadj | rfl
      · have := h.adjacent_lt adj hadj j hj
        simp; omega
      · cases hj
    · simp only [List.map_append, List.map_cons, List.map_nil]
      rw [List.nodup_append]
      refine ⟨h.keys_nodup, by simp, ?_⟩
      intro a ha
      simp
      intro hEq; subst hEq; exact hk ha
    · intro p hp
      simp only [List.mem_append, List.mem_singleton] at hp
      rcases hp with hp | rfl
      · exact h.keys_lt p hp
      · exact hid

theorem build_lookup (g : Digraph) (h : g.Inv) (id : Nat) (hid : id < two32) :
    (g.build id).2.id_map.lookup id = some (g.build id).1 := by
  cases hl : g.id_map.lookup id with
  | some i => rw [build_old g id i hl]; exact hl
  | none =>
    rw [build_new g h id hid hl]
    simp [List.lookup_append, hl]

theorem build_keeps (g : Digraph) (id e i : Nat) (he : g.id_map.lookup e = some i) :
    (g.build id).2.id_map.lookup e = some i := by
  unfold build
  split
  · exact he
  · simp [List.lookup_append, he]

theorem build_graph (g : Digraph) (id : Nat) :
    ∃ k, (g.build id).2.graph = g.graph ++ List.replicate k [] := by
  unfold build
  split
  · exact ⟨0, by simp⟩
  · exact ⟨1, by simp⟩

theorem Inv.mem_node_map (g : Digraph) (h : g.Inv) (e : Nat) :
    e ∈ g.node_map ↔ ∃ i, g.id_map.lookup e = some i := by
  constructor
  · intro he
    obtain ⟨i, hi⟩ := List.getElem?_of_mem he
    exact ⟨i, h.id_of_node i e hi⟩
  · rintro ⟨i, hi⟩
    exact List.getElem?_mem (h.node_of_id e i hi)

theorem build_mem_node_map (g : Digraph) (h : g.Inv) (id e : Nat) :
    e ∈ (g.build id).2.node_map ↔ e ∈ g.node_map ∨ e = id := by
  unfold build
  split
  · rename_i i hl
    have : id ∈ g.node_map := (h.mem_node_map g id).2 ⟨i, hl⟩
    constructor
    · intro he; exact Or.inl he
    · rintro (he | rfl)
      · exact he
      · exact this
  · simp

theorem Inv.lookup_lt (g : Digraph) (h : g.Inv) (e i : Nat) (he : g.id_map.lookup e = some i) :
    i < g.node_map.length :=
  (List.getElem?_eq_some.1 (h.node_of_id e i he)).1

theorem Inv.node_map_nodup (g : Digraph) (h : g.Inv) : g.node_map.Nodup := by
  rw [List.nodup_iff_getElem?_ne_getElem?]
  intro i j hij hj heq
  have hi : i < g.node_map.length := by omega
  have h1 : g.node_map[i]? = some g.node_map[i] := List.getElem?_eq_getElem hi
  have h2 := h.id_of_node i _ h1
  have h3 := h.id_of_node j _ (heq ▸ h1)
  rw [h2] at h3
  cases h3
  omega

theorem getElem?_append_replicate_nil (l : List (List Nat)) (k j : Nat)
    (hj : j < (l ++ List.replicate k []).length) :
    (l ++ List.replicate k [])[j]? = some ((l[j]?).getD []) := by
  rcases Nat.lt_or_ge j l.length with hlt | hge
  · rw [List.getElem?_append_left hlt, List.getElem?_eq_getElem hlt]; rfl
  · rw [List.getElem?_append_right hge, List.getElem?_eq_none hge]
    simp only [List.length_append, List.length_replicate] at hj
    rw [List.getElem?_replicate]
    simp
    omega

theorem build_capacity (g : Digraph) (id : Nat) : g.capacity ≤ (g.build id).2.capacity := by
  unfold build
  split
  · exact Nat.le_refl _
  · show g.capacity ≤ if g.graph.length < g.capacity then g.capacity else g.graph.length + 1
    split <;> omega

/-- When `build(w)` moves the elements of `graph`, `add_edge(v, w)` is undefined. -/
theorem add_edge_undefined (g : Digraph) (v w : Nat)
    (h : (g.build v).2.reallocates w = true) : g.add_edge v w = .error .undefined := by
  show (if (g.build v).2.reallocates w = true then Except.error Error.undefined else _) = _
  rw [if_pos h]

/-- What `add_edge` does to a graph that satisfies the invariant, when `build(w)` does not
move the elements of `graph`. -/
theorem add_edge_spec (g : Digraph) (h : g.Inv) (v w : Nat) (hv : v < two32) (hw : w < two32)
    (hroom : (g.build v).2.reallocates w = false) :
    ∃ g1 iv iw k, g.add_edge v w = .ok g1 ∧ g1.Inv ∧
      g1.id_map.lookup v = some iv ∧ g1.id_map.lookup w = some iw ∧
      g1.graph = (g.graph ++ List.replicate k []).set iv ((g.graph[iv]?).getD [] ++ [iw]) ∧
      iv < (g.graph ++ List.replicate k []).length ∧
      (∀ e i, g.id_map.lookup e = some i → g1.id_map.lookup e = some i) ∧
      (∀ e, e ∈ g1.node_map ↔ e ∈ g.node_map ∨ e = v ∨ e = w) ∧
      g.capacity ≤ g1.capacity := by
  have hi1 := build_inv g h v hv
  have hi2 := build_inv (g.build v).2 hi1 w hw
  have hl1 := build_lookup g h v hv
  have hl2 := build_lookup (g.build v).2 hi1 w hw
  have hl1' := build_keeps (g.build v).2 w v _ hl1
  obtain ⟨k1, hg1⟩ := build_graph g v
  obtain ⟨k2, hg2⟩ := build_graph (g.build v).2 w
  have hlt : (g.build v).1 < ((g.build v).2.build w).2.graph.length := by
    rw [hi2.graph_length]
    exact hi2.lookup_lt _ _ _ hl1'
  have hgraph : ((g.build v).2.build w).2.graph = g.graph ++ List.replicate (k1 + k2) [] := by
    rw [hg2, hg1, List.append_assoc, List.append_replicate_replicate]
  have hget := getElem?_append_replicate_nil g.graph (k1 + k2) (g.build v).1 (hgraph ▸ hlt)
  refine ⟨{ ((g.build v).2.build w).2 with
      graph := (g.graph ++ List.replicate (k1 + k2) []).set (g.build v).1
        ((g.graph[(g.build v).1]?).getD [] ++ [((g.build v).2.build w).1]) },
    (g.build v).1, ((g.build v).2.build w).1, k1 + k2, ?_, ?_, ?_, ?_, ?_, ?_, ?_, ?_, ?_⟩
  · show (if (g.build v).2.reallocates w = true then
        (Except.error Error.undefined : Except Error Digraph) else
      match ((g.build v).2.build w).2.graph[(g.build v).1]? with
      | some adj => Except.ok { ((g.build v).2.build w).2 with
          graph := ((g.build v).2.build w).2.graph.set (g.build v).1
            (adj ++ [((g.build v).2.build w).1]) }
      | none => Except.error Error.undefined) = _
    rw [if_neg (by rw [hroom]; decide), hgraph, hget]
  · constructor
    · exact hi2.node_of_id
    · exact hi2.id_of_node
    · simp only [List.length_set]
      rw [← hgraph]; exact hi2.graph_length
    · exact hi2.id_map_length
    · intro adj hadj j hj
      have hadj' := List.mem_or_eq_of_mem_set hadj
      rcases hadj' with hadj' | rfl
      · rw [← hgraph] at hadj'
        exact hi2.adjacent_lt adj hadj' j hj
      · simp only [List.mem_append, List.mem_singleton] at hj
        rcases hj with hj | rfl
        · have hmem : (g.graph[(g.build v).1]?).getD [] ∈ ((g.build v).2.build w).2.graph := by
            rw [hgraph]
            exact List.getElem?_mem hget
          exact hi2.adjacent_lt _ hmem j hj
        · exact hi2.lookup_lt _ _ _ hl2
    · exact hi2.keys_nodup
    · exact hi2.keys_lt
  · exact hl1'
  · exact hl2
  · rfl
  · rw [← hgraph]; exact hlt
  · intro e i he
    exact build_keeps _ w e i (build_keeps g v e i he)
  · intro e
    show e ∈ ((g.build v).2.build w).2.node_map ↔ _
    rw [build_mem_node_map _ hi1, build_mem_node_map _ h]
    tauto
  · exact Nat.le_trans (build_capacity g v) (build_capacity (g.build v).2 w)

/-- What is known of a graph that `add_edge` returns. -/
theorem add_edge_of_ok (g g1 : Digraph) (h : g.Inv) (v w : Nat) (hv : v < two32)
    (hw : w < two32) (hok : g.add_edge v w = .ok g1) :
    ∃ iv iw k, g1.Inv ∧
      g1.id_map.lookup v = some iv ∧ g1.id_map.lookup w = some iw ∧
      g1.graph = (g.graph ++ List.replicate k []).set iv ((g.graph[iv]?).getD [] ++ [iw]) ∧
      iv < (g.graph ++ List.replicate k []).length ∧
      (∀ e i, g.id_map.lookup e = some i → g1.id_map.lookup e = some i) ∧
      (∀ e, e ∈ g1.node_map ↔ e ∈ g.node_map ∨ e = v ∨ e = w) ∧
      g.capacity ≤ g1.capacity := by
  cases hr : (g.build v).2.reallocates w with
  | true =>
    rw [add_edge_undefined g v w hr] at hok
    cases hok
  | false =>
    obtain ⟨g2, iv, iw, k, hadd, rest⟩ := add_edge_spec g h v w hv hw hr
    rw [hadd] at hok
    cases hok
    exact ⟨iv, iw, k, rest⟩

/-- The call `build(w)` inside `add_edge(v, w)` moves the elements of `graph` exactly when
`w` is a new id other than `v` and the vertices that the call creates do not fit the
capacity. -/
theorem reallocates_iff (g : Digraph) (h : g.Inv) (v w : Nat) (hv : v < two32) :
    (g.build v).2.reallocates w = false ↔ g.Room v w := by
  unfold Room
  have hmem := h.mem_node_map g
  cases hl : g.id_map.lookup v with
  | some i =>
    have hvm : v ∈ g.node_map := (hmem v).2 ⟨i, hl⟩
    rw [build_old g v i hl, if_pos hvm]
    simp only [reallocates]
    cases hlw : g.id_map.lookup w with
    | some j =>
      have : w ∈ g.node_map := (hmem w).2 ⟨j, hlw⟩
      simp [this]
    | none =>
      have hwm : w ∉ g.node_map := by
        intro hc
        obtain ⟨j, hj⟩ := (hmem w).1 hc
        rw [hlw] at hj
        cases hj
      have hne : w ≠ v := by
        intro e
        rw [e] at hwm
        exact hwm hvm
      simp only [Option.isNone_none, Bool.true_and, decide_eq_false_iff_not, hwm, hne,
        false_or, size]
      omega
  | none =>
    have hvm : v ∉ g.node_map := by
      intro hc
      obtain ⟨j, hj⟩ := (hmem v).1 hc
      rw [hl] at hj
      cases hj
    rw [build_new g h v hv hl, if_neg hvm]
    simp only [reallocates]
    by_cases hwv : w = v
    · subst hwv
      simp [List.lookup_append, hl]
    · cases hlw : g.id_map.lookup w with
      | some j =>
        have : w ∈ g.node_map := (hmem w).2 ⟨j, hlw⟩
        simp [List.lookup_append, hlw, this]
      | none =>
        have hwm : w ∉ g.node_map := by
          intro hc
          obtain ⟨j, hj⟩ := (hmem w).1 hc
          rw [hlw] at hj
          cases hj
        have hb : (w == v) = false := by simpa using hwv
        simp only [List.lookup_append, hlw, Option.none_or, List.lookup_cons, hb,
          List.lookup_nil, Option.isNone_none, Bool.true_and, decide_eq_false_iff_not, hwm,
          hwv, false_or, size, List.length_append, List.length_singleton]
        split <;> omega

/-- The call `add_edge(v, w)` has defined behaviour exactly when there is room. -/
theorem add_edge_defined_iff (g : Digraph) (h : g.Inv) (v w : Nat) (hv : v < two32)
    (hw : w < two32) : (∃ g1, g.add_edge v w = .ok g1) ↔ g.Room v w := by
  rw [← reallocates_iff g h v w hv]
  constructor
  · rintro ⟨g1, hok⟩
    cases hr : (g.build v).2.reallocates w with
    | true =>
      rw [add_edge_undefined g v w hr] at hok
      cases hok
    | false => rfl
  · intro hr
    obtain ⟨g1, -, -, -, hadd, -⟩ := add_edge_spec g h v w hv hw hr
    exact ⟨g1, hadd⟩

end Digraph
namespace Digraph

theorem extend_inv (g : Digraph) (n : Nat) (h : g.Inv) : (g.extend n).Inv :=
  ⟨h.node_of_id, h.id_of_node, h.graph_length, h.id_map_length, h.adjacent_lt, h.keys_nodup,
    h.keys_lt⟩

end Digraph

/-- A graph that a sequence of `add_edge` calls returns satisfies the invariant. -/
theorem foldlM_add_edge_inv (es : List (Nat × Nat)) : ∀ (g g1 : Digraph), g.Inv →
    (∀ e ∈ es, e.1 < two32 ∧ e.2 < two32) →
    es.foldlM (fun g e => g.add_edge e.1 e.2) g = .ok g1 → g1.Inv := by
  induction es with
  | nil =>
    intro g g1 h _ hfold
    cases hfold
    exact h
  | cons e rest ih =>
    intro g g1 h hb hfold
    simp only [List.foldlM_cons, bind, Except.bind] at hfold
    cases hadd : g.add_edge e.1 e.2 with
    | error err =>
      rw [hadd] at hfold
      cases hfold
    | ok g2 =>
      rw [hadd] at hfold
      obtain ⟨_, _, _, hinv, _⟩ := Digraph.add_edge_of_ok g g2 h e.1 e.2
        (hb e (List.mem_cons_self _ _)).1 (hb e (List.mem_cons_self _ _)).2 hadd
      exact ih g2 g1 hinv (fun e he => hb e (List.mem_cons_of_mem _ he)) hfold

/-- A graph that `of_edges` returns satisfies the invariant. -/
theorem of_edges_inv (n : Nat) (es : List (Nat × Nat)) (g : Digraph)
    (h : Digraph.of_edges n es = .ok g) (hb : ∀ e ∈ es, e.1 < two32 ∧ e.2 < two32) : g.Inv :=
  foldlM_add_edge_inv es _ g (Digraph.extend_inv _ n Digraph.empty_inv) hb h

/-- What is known of the graph that a sequence of calls returns. -/
theorem run_spec (calls : List Call) : ∀ (g g1 : Digraph), g.Inv →
    (∀ c ∈ calls, ∀ e ∈ c.ids, e < two32) → g.run calls = .ok g1 →
    g1.Inv ∧ g.capacity ≤ g1.capacity ∧
      ∀ e, e ∈ g1.node_map ↔ e ∈ g.node_map ∨ e ∈ (calls.map Call.ids).flatten := by
  induction calls with
  | nil =>
    intro g g1 h _ hrun
    cases hrun
    exact ⟨h, Nat.le_refl _, by simp⟩
  | cons c rest ih =>
    intro g g1 h hb hrun
    have hrest : ∀ c ∈ rest, ∀ e ∈ c.ids, e < two32 :=
      fun c hc => hb c (List.mem_cons_of_mem _ hc)
    cases c with
    | add_edge v w =>
      have hv : v < two32 := hb _ (List.mem_cons_self _ _) v (by simp [Call.ids])
      have hw : w < two32 := hb _ (List.mem_cons_self _ _) w (by simp [Call.ids])
      simp only [Digraph.run, Digraph.call] at hrun
      cases hadd : g.add_edge v w with
      | error err =>
        rw [hadd] at hrun
        cases hrun
      | ok g2 =>
        rw [hadd] at hrun
        obtain ⟨iv, iw, k, hinv, -, -, -, -, -, hmem, hcap⟩ :=
          Digraph.add_edge_of_ok g g2 h v w hv hw hadd
        obtain ⟨hinv1, hcap1, hmem1⟩ := ih g2 g1 hinv hrest hrun
        refine ⟨hinv1, Nat.le_trans hcap hcap1, ?_⟩
        intro e
        rw [hmem1, hmem]
        simp [Call.ids]
        tauto
    | extend n =>
      simp only [Digraph.run, Digraph.call] at hrun
      obtain ⟨hinv1, hcap1, hmem1⟩ := ih (g.extend n) g1 (Digraph.extend_inv g n h) hrest hrun
      refine ⟨hinv1, Nat.le_trans (Nat.le_max_left _ _) hcap1, ?_⟩
      intro e
      rw [hmem1]
      simp [Call.ids, Digraph.extend]

/-- A sequence of calls has defined behaviour when the vertices of the graph and the ids of
the calls, counted once each, fit the capacity of `graph`. -/
theorem run_defined (calls : List Call) : ∀ (g : Digraph), g.Inv →
    (∀ c ∈ calls, ∀ e ∈ c.ids, e < two32) →
    (g.node_map.toFinset ∪ ((calls.map Call.ids).flatten).toFinset).card ≤ g.capacity →
    ∃ g1, g.run calls = .ok g1 := by
  induction calls with
  | nil =>
    intro g _ _ _
    exact ⟨g, rfl⟩
  | cons c rest ih =>
    intro g h hb hcard
    have hrest : ∀ c ∈ rest, ∀ e ∈ c.ids, e < two32 :=
      fun c hc => hb c (List.mem_cons_of_mem _ hc)
    cases c with
    | add_edge v w =>
      have hv : v < two32 := hb _ (List.mem_cons_self _ _) v (by simp [Call.ids])
      have hw : w < two32 := hb _ (List.mem_cons_self _ _) w (by simp [Call.ids])
      have hsize : g.size = g.node_map.toFinset.card := by
        rw [List.toFinset_card_of_nodup (h.node_map_nodup g)]
        exact h.graph_length
      have hroom : g.Room v w := by
        unfold Digraph.Room
        by_cases hwm : w ∈ g.node_map
        · exact Or.inl hwm
        · by_cases hwv : w = v
          · exact Or.inr (Or.inl hwv)
          · right
            right
            by_cases hvm : v ∈ g.node_map
            · rw [if_pos hvm]
              have hsub : insert w g.node_map.toFinset ⊆ g.node_map.toFinset ∪
                  (((Call.add_edge v w :: rest).map Call.ids).flatten).toFinset := by
                intro x hx
                simp only [Finset.mem_insert, List.mem_toFinset] at hx
                simp only [Finset.mem_union, List.mem_toFinset, List.map_cons,
                  List.flatten_cons, List.mem_append, Call.ids, List.mem_cons,
                  List.mem_singleton, List.not_mem_nil, or_false]
                rcases hx with rfl | hx
                · exact Or.inr (Or.inl (Or.inr rfl))
                · exact Or.inl hx
              have hc := Finset.card_le_card hsub
              rw [Finset.card_insert_of_not_mem (by simpa using hwm)] at hc
              omega
            · rw [if_neg hvm]
              have hsub : insert w (insert v g.node_map.toFinset) ⊆ g.node_map.toFinset ∪
                  (((Call.add_edge v w :: rest).map Call.ids).flatten).toFinset := by
                intro x hx
                simp only [Finset.mem_insert, List.mem_toFinset] at hx
                simp only [Finset.mem_union, List.mem_toFinset, List.map_cons,
                  List.flatten_cons, List.mem_append, Call.ids, List.mem_cons,
                  List.mem_singleton, List.not_mem_nil, or_false]
                rcases hx with rfl | rfl | hx
                · exact Or.inr (Or.inl (Or.inr rfl))
                · exact Or.inr (Or.inl (Or.inl rfl))
                · exact Or.inl hx
              have hc := Finset.card_le_card hsub
              rw [Finset.card_insert_of_not_mem (by simp [hwm, hwv]),
                Finset.card_insert_of_not_mem (by simpa using hvm)] at hc
              omega
      obtain ⟨g2, hadd⟩ := (Digraph.add_edge_defined_iff g h v w hv hw).2 hroom
      obtain ⟨iv, iw, k, hinv, -, -, -, -, -, hmem, hcap⟩ :=
        Digraph.add_edge_of_ok g g2 h v w hv hw hadd
      have hcard2 : (g2.node_map.toFinset ∪ ((rest.map Call.ids).flatten).toFinset).card ≤
          g2.capacity := by
        refine Nat.le_trans (Finset.card_le_card ?_) (Nat.le_trans hcard hcap)
        intro x hx
        simp only [Finset.mem_union, List.mem_toFinset, hmem] at hx
        simp only [Finset.mem_union, List.mem_toFinset, List.map_cons, List.flatten_cons,
          List.mem_append, Call.ids, List.mem_cons, List.mem_singleton, List.not_mem_nil,
          or_false]
        tauto
      obtain ⟨g1, hrun⟩ := ih g2 hinv hrest hcard2
      refine ⟨g1, ?_⟩
      simp only [Digraph.run, Digraph.call, hadd]
      exact hrun
    | extend n =>
      have hcard2 : ((g.extend n).node_map.toFinset ∪
          ((rest.map Call.ids).flatten).toFinset).card ≤ (g.extend n).capacity := by
        refine Nat.le_trans ?_ (Nat.le_trans hcard (Nat.le_max_left _ _))
        apply Finset.card_le_card
        intro x hx
        simpa [Call.ids, Digraph.extend] using hx
      obtain ⟨g1, hrun⟩ := ih (g.extend n) (Digraph.extend_inv g n h) hrest hcard2
      refine ⟨g1, ?_⟩
      simp only [Digraph.run, Digraph.call]
      exact hrun

/-- C7. The invariant of `Digraph` holds of the empty graph and is kept by `extend`, and by
`add_edge` whenever that call has defined behaviour, which is exactly when there is room
for it (`Room`).  The first `add_edge` on a default-constructed `Digraph` has none:
`add_edge(3, 7)` forms the reference `graph[0]`, then `build(7)` moves the elements of
`graph`, and the append goes through the dangling reference.  After `extend(2)` the same
call returns the graph with the edge. -/
theorem add_edge_without_room_undefined :
    Digraph.empty.Inv ∧
    Digraph.empty.add_edge 3 7 = .error .undefined ∧
    (Digraph.empty.extend 2).add_edge 3 7 = .ok ⟨[[1], []], [(3, 0), (7, 1)], [3, 7], 2⟩ ∧
    (∀ (g : Digraph) (n : Nat), g.Inv → (g.extend n).Inv) ∧
    (∀ (g g1 : Digraph) (v w : Nat), g.Inv → v < two32 → w < two32 →
      g.add_edge v w = .ok g1 → g1.Inv) ∧
    (∀ (g : Digraph) (v w : Nat), g.Inv → v < two32 → w < two32 →
      ((∃ g1, g.add_edge v w = .ok g1) ↔ g.Room v w)) := by
  refine ⟨Digraph.empty_inv, by decide, by decide, Digraph.extend_inv, ?_, ?_⟩
  · intro g g1 v w h hv hw hok
    obtain ⟨_, _, _, hinv, _⟩ := Digraph.add_edge_of_ok g g1 h v w hv hw hok
    exact hinv
  · intro g v w h hv hw
    exact Digraph.add_edge_defined_iff g h v w hv hw

/-- C8. After `extend(1)` the call `add_edge(1, 1)` stores the self-loop, and the next call
`add_edge(1, 2)` is undefined: `graph` is full, `build(2)` moves its elements after the
reference `graph[0]` was formed.  Whenever `add_edge(v, w)` returns, the adjacency list of
the index of `v` is its previous content (empty for a new vertex) followed by the index of
`w`, every other adjacency list is as before (empty for a new vertex), and every external
id seen before has the index it had. -/
theorem add_edge_into_full_graph_undefined :
    (Digraph.empty.extend 1).add_edge 1 1 = .ok ⟨[[0]], [(1, 0)], [1], 1⟩ ∧
    (Digraph.mk [[0]] [(1, 0)] [1] 1).add_edge 1 2 = .error .undefined ∧
    (∀ (g g1 : Digraph) (v w : Nat), g.Inv → v < two32 → w < two32 →
      g.add_edge v w = .ok g1 →
      ∃ iv iw, g1.internal v = some iv ∧ g1.internal w = some iw ∧
        g1.graph[iv]? = some ((g.graph[iv]?).getD [] ++ [iw]) ∧
        (∀ j, j ≠ iv → j < g.size → g1.graph[j]? = g.graph[j]?) ∧
        (∀ j, j ≠ iv → g.size ≤ j → j < g1.size → g1.graph[j]? = some []) ∧
        (∀ e i, g.internal e = some i → g1.internal e = some i)) := by
  refine ⟨by decide, by decide, ?_⟩
  intro g g1 v w h hv hw hok
  obtain ⟨iv, iw, k, hinv, hlv, hlw, hgraph, hlt, hkeep, -, -⟩ :=
    Digraph.add_edge_of_ok g g1 h v w hv hw hok
  refine ⟨iv, iw, hlv, hlw, ?_, ?_, ?_, hkeep⟩
  · rw [hgraph, List.getElem?_set_self hlt]
  · intro j hj hjs
    rw [hgraph, List.getElem?_set_ne (Ne.symm hj), List.getElem?_append_left hjs]
  · intro j hj hge hjs
    have hjs' : j < (g.graph ++ List.replicate k []).length := by
      have : g1.size = (g.graph ++ List.replicate k []).length := by
        simp only [Digraph.size, hgraph, List.length_set]
      omega
    rw [hgraph, List.getElem?_set_ne (Ne.symm hj),
      Digraph.getElem?_append_replicate_nil g.graph k j hjs']
    have : g.graph[j]? = none := List.getElem?_eq_none hge
    rw [this]; rfl

/-- C9. On an initially empty `Digraph` the single call `add_edge(1, 2)` is undefined.
Whenever a sequence of `add_edge` and `extend` calls on the empty graph returns, `size()` is
the number of distinct ids among the arguments of the `add_edge` calls, and `extend` leaves
`size()` as it is; the sequence does return when it starts with `extend(n)` for an `n` that
is at least that number. -/
theorem unreserved_add_edge_undefined :
    Digraph.empty.run [.add_edge 1 2] = .error .undefined ∧
    Digraph.empty.run [.extend 2, .add_edge 1 2, .extend 10, .add_edge 2 2, .add_edge 2 1] =
      .ok ⟨[[1], [1, 0]], [(1, 0), (2, 1)], [1, 2], 10⟩ ∧
    (∀ (calls : List Call) (g : Digraph), (∀ c ∈ calls, ∀ e ∈ c.ids, e < two32) →
      Digraph.empty.run calls = .ok g →
      g.size = ((calls.map Call.ids).flatten).toFinset.card ∧
        ∀ n, (g.extend n).size = g.size) ∧
    (∀ (calls : List Call) (n : Nat), (∀ c ∈ calls, ∀ e ∈ c.ids, e < two32) →
      ((calls.map Call.ids).flatten).toFinset.card ≤ n →
      ∃ g, Digraph.empty.run (.extend n :: calls) = .ok g) := by
  refine ⟨by decide, by decide, ?_, ?_⟩
  · intro calls g hb hrun
    obtain ⟨hinv, -, hmem⟩ := run_spec calls Digraph.empty g Digraph.empty_inv hb hrun
    refine ⟨?_, fun _ => rfl⟩
    have h1 : g.node_map.toFinset = ((calls.map Call.ids).flatten).toFinset := by
      ext e
      simp only [List.mem_toFinset, hmem, Digraph.empty, List.not_mem_nil, false_or]
    rw [← h1, List.toFinset_card_of_nodup (hinv.node_map_nodup g)]
    exact hinv.graph_length
  · intro calls n hb hcard
    obtain ⟨g, hrun⟩ := run_defined calls (Digraph.empty.extend n)
      (Digraph.extend_inv _ n Digraph.empty_inv) hb (by
        show (([] : List Nat).toFinset ∪ ((calls.map Call.ids).flatten).toFinset).card ≤
          max 0 n
        simp only [List.toFinset_nil, Finset.empty_union]
        omega)
    exact ⟨g, hrun⟩

/-! ## ShortestCommonAncestor: the two seeding loops -/

theorem vec_read_eq (v : List Nat) (i : Nat) (h : i < v.length) :
    vec_read v i = .ok (val v i) := by
  simp [vec_read, val, List.getElem?_eq_getElem h]

theorem vec_write_eq (v : List Nat) (i x : Nat) (h : i < v.length) :
    vec_write v i x = .ok (v.set i x) := by
  simp [vec_write, h]

theorem val_set (v : List Nat) (i x j : Nat) (h : i < v.length) :
    val (v.set i x) j = if j = i then x else val v j := by
  unfold val
  rw [List.getElem?_set]
  by_cases hij : i = j
  · subst hij; simp [h]
  · have : ¬ j = i := fun hji => hij hji.symm
    simp [hij, this]

theorem val_replicate (n j : Nat) : val (List.replicate n 0) j = 0 := by
  unfold val
  rw [List.getElem?_replicate]
  split <;> rfl

theorem map_at_eq (m : List (Nat × Nat)) (k i : Nat) (h : m.lookup k = some i) :
    map_at m k = .ok i := by
  simp [map_at, h]

namespace Digraph

theorem Inv.internal_of_mem (g : Digraph) (h : g.Inv) (e : Nat) (he : e ∈ g.node_map) :
    ∃ i, g.internal e = some i ∧ i < g.size := by
  obtain ⟨i, hi⟩ := (h.mem_node_map g e).1 he
  exact ⟨i, hi, by rw [size, h.graph_length]; exact h.lookup_lt g e i hi⟩

theorem Inv.internal_inj (g : Digraph) (h : g.Inv) (e1 e2 i : Nat)
    (h1 : g.internal e1 = some i) (h2 : g.internal e2 = some i) : e1 = e2 := by
  have a := h.node_of_id e1 i h1
  have b := h.node_of_id e2 i h2
  rw [a] at b
  exact Option.some.inj b

theorem nodes_cons (g : Digraph) (e i : Nat) (rest : List Nat) (h : g.internal e = some i) :
    g.nodes (e :: rest) = i :: g.nodes rest := by
  simp [nodes, List.filterMap_cons, h]

theorem mem_nodes (g : Digraph) (ids : List Nat) (j : Nat) :
    j ∈ g.nodes ids ↔ ∃ e ∈ ids, g.internal e = some j := by
  simp [nodes, List.mem_filterMap]

theorem nodes_lt (g : Digraph) (h : g.Inv) (ids : List Nat) (j : Nat) (hj : j ∈ g.nodes ids) :
    j < g.size := by
  obtain ⟨e, _, he⟩ := (mem_nodes g ids j).1 hj
  rw [size, h.graph_length]
  exact h.lookup_lt g e j he

theorem nodes_length (g : Digraph) (h : g.Inv) (ids : List Nat)
    (hv : ∀ e ∈ ids, e ∈ g.node_map) : (g.nodes ids).length = ids.length := by
  induction ids with
  | nil => rfl
  | cons e rest ih =>
    obtain ⟨i, hi, _⟩ := h.internal_of_mem g e (hv e (List.mem_cons_self _ _))
    rw [nodes_cons g e i rest hi]
    simp [ih (fun e he => hv e (List.mem_cons_of_mem _ he))]

end Digraph

/-- The first loop marks the vertices of `subset_a` with 1 and appends them to the queue. -/
theorem seed_a_spec (g : Digraph) (h : g.Inv) (A : List Nat) :
    ∀ (marked queue : List Nat), (∀ a ∈ A, a ∈ g.node_map) → marked.length = g.size →
    ∃ m, seed_a g A marked queue = .ok (m, queue ++ g.nodes A) ∧ m.length = g.size ∧
      ∀ j, val m j = if j ∈ g.nodes A then 1 else val marked j := by
  induction A with
  | nil =>
    intro marked queue _ hlen
    exact ⟨marked, by simp [seed_a, Digraph.nodes], hlen, by simp [Digraph.nodes]⟩
  | cons a rest ih =>
    intro marked queue hv hlen
    obtain ⟨i, hi, hlt⟩ := h.internal_of_mem g a (hv a (List.mem_cons_self _ _))
    have hlt' : i < marked.length := hlen ▸ hlt
    obtain ⟨m, hm, hmlen, hmval⟩ := ih (marked.set i 1) (queue ++ [i])
      (fun e he => hv e (List.mem_cons_of_mem _ he)) (by simpa using hlen)
    refine ⟨m, ?_, hmlen, ?_⟩
    · simp only [seed_a, map_at_eq _ _ _ hi, vec_write_eq _ _ _ hlt', hm,
        Digraph.nodes_cons g a i rest hi]
      simp
    · intro j
      rw [hmval j, Digraph.nodes_cons g a i rest hi, val_set _ _ _ _ hlt']
      by_cases hj : j ∈ g.nodes rest
      · simp [hj]
      · by_cases hji : j = i
        · simp [hji]
        · simp [hj, hji]

/-- The second loop, for a duplicate-free `subset_b`: it returns at the first member that
is also in `subset_a`; when there is none it marks the vertices of `subset_b` with 2 and
appends them to the queue. -/
theorem seed_b_spec (g : Digraph) (h : g.Inv) (A : List Nat) (B : List Nat) :
    ∀ (marked queue : List Nat), (∀ b ∈ B, b ∈ g.node_map) → B.Nodup →
    marked.length = g.size →
    (∀ b ∈ B, ∀ i, g.internal b = some i → (val marked i ≠ 0 ↔ b ∈ A)) →
    match B.find? (fun b => decide (b ∈ A)) with
    | some z => seed_b g B marked queue = .ok (.returned (z, 0))
    | none => ∃ m, seed_b g B marked queue = .ok (.seeded m (queue ++ g.nodes B)) ∧
        m.length = g.size ∧ ∀ j, val m j = if j ∈ g.nodes B then 2 else val marked j := by
  induction B with
  | nil =>
    intro marked queue _ _ hlen _
    exact ⟨marked, by simp [seed_b, Digraph.nodes], hlen, by simp [Digraph.nodes]⟩
  | cons b rest ih =>
    intro marked queue hv hnd hlen hmark
    obtain ⟨i, hi, hlt⟩ := h.internal_of_mem g b (hv b (List.mem_cons_self _ _))
    have hlt' : i < marked.length := hlen ▸ hlt
    have hb := hmark b (List.mem_cons_self _ _) i hi
    by_cases hbA : b ∈ A
    · have : val marked i ≠ 0 := hb.2 hbA
      simp only [List.find?_cons, hbA, decide_True]
      simp [seed_b, map_at_eq _ _ _ hi, vec_read_eq _ _ hlt', this]
    · have hz : val marked i = 0 := by
        by_contra hne
        exact hbA (hb.1 hne)
      have hnd' := List.nodup_cons.1 hnd
      have hmark' : ∀ b' ∈ rest, ∀ i', g.internal b' = some i' →
          (val (marked.set i 2) i' ≠ 0 ↔ b' ∈ A) := by
        intro b' hb' i' hi'
        have hne : i' ≠ i := by
          intro heq
          subst heq
          have := h.internal_inj g b' b i' hi' hi
          subst this
          exact hnd'.1 hb'
        rw [val_set _ _ _ _ hlt', if_neg hne]
        exact hmark b' (List.mem_cons_of_mem _ hb') i' hi'
      have ih' := ih (marked.set i 2) (queue ++ [i])
        (fun e he => hv e (List.mem_cons_of_mem _ he)) hnd'.2 (by simpa using hlen) hmark'
      simp only [List.find?_cons, hbA, decide_False]
      cases hf : rest.find? (fun b => decide (b ∈ A)) with
      | some z =>
        rw [hf] at ih'
        simp only at ih' ⊢
        simp [seed_b, map_at_eq _ _ _ hi, vec_read_eq _ _ hlt', hz, vec_write_eq _ _ _ hlt', ih']
      | none =>
        rw [hf] at ih'
        obtain ⟨m, hm, hmlen, hmval⟩ := ih'
        refine ⟨m, ?_, hmlen, ?_⟩
        · simp [seed_b, map_at_eq _ _ _ hi, vec_read_eq _ _ hlt', hz, vec_write_eq _ _ _ hlt',
            hm, Digraph.nodes_cons g b i rest hi]
        · intro j
          rw [hmval j, Digraph.nodes_cons g b i rest hi, val_set _ _ _ _ hlt']
          by_cases hj : j ∈ g.nodes rest
          · simp [hj]
          · by_cases hji : j = i
            · simp [hji]
            · simp [hj, hji]

/-- The marks after the first loop of `bfs`, and what the second loop does with them. -/
theorem seeding_spec (g : Digraph) (h : g.Inv) (A B : List Nat)
    (hA : ∀ a ∈ A, a ∈ g.node_map) (hB : ∀ b ∈ B, b ∈ g.node_map) (hBn : B.Nodup) :
    ∃ m, seed_a g A (List.replicate g.size 0) [] = .ok (m, g.nodes A) ∧ m.length = g.size ∧
      (∀ j, val m j = if j ∈ g.nodes A then 1 else 0) ∧
      match B.find? (fun b => decide (b ∈ A)) with
      | some z => seed_b g B m (g.nodes A) = .ok (.returned (z, 0))
      | none => ∃ m1, seed_b g B m (g.nodes A) = .ok (.seeded m1 (g.nodes A ++ g.nodes B)) ∧
          m1.length = g.size ∧
          ∀ j, val m1 j = if j ∈ g.nodes B then 2 else if j ∈ g.nodes A then 1 else 0 := by
  obtain ⟨m, hm, hmlen, hmval⟩ := seed_a_spec g h A (List.replicate g.size 0) [] hA (by simp)
  simp only [List.nil_append, val_replicate] at hm hmval
  refine ⟨m, hm, hmlen, hmval, ?_⟩
  have hmark : ∀ b ∈ B, ∀ i, g.internal b = some i → (val m i ≠ 0 ↔ b ∈ A) := by
    intro b _ i hi
    rw [hmval i]
    constructor
    · intro hne
      by_cases hiA : i ∈ g.nodes A
      · obtain ⟨a, haA, hai⟩ := (Digraph.mem_nodes g A i).1 hiA
        have := h.internal_inj g a b i hai hi
        exact this ▸ haA
      · simp [hiA] at hne
    · intro hbA
      have : i ∈ g.nodes A := (Digraph.mem_nodes g A i).2 ⟨b, hbA, hi⟩
      simp [this]
  have hb := seed_b_spec g h A B m (g.nodes A) hB hBn hmlen hmark
  cases hf : B.find? (fun b => decide (b ∈ A)) with
  | some z => rw [hf] at hb; exact hb
  | none =>
    rw [hf] at hb
    obtain ⟨m1, hm1, hm1len, hm1val⟩ := hb
    refine ⟨m1, hm1, hm1len, ?_⟩
    intro j
    rw [hm1val j, hmval j]

/-- C3. When two sequences of vertex ids, the second duplicate-free, have an id in common,
`bfs` returns distance 0 with the first member of the second sequence that occurs in the
first, an id of both; so `bfs({v}, {v})` is `(v, 0)` and `bfs({3, 7}, {7, 9})` is `(7, 0)`. -/
theorem bfs_common_id (g : Digraph) (hinv : g.Inv) :
    (∀ A B : List Nat, (∀ a ∈ A, a ∈ g.node_map) → (∀ b ∈ B, b ∈ g.node_map) → B.Nodup →
      (∃ x, x ∈ A ∧ x ∈ B) →
      ∃ z, B.find? (fun b => decide (b ∈ A)) = some z ∧ z ∈ A ∧ z ∈ B ∧
        bfs g A B = .ok (z, 0)) ∧
    (∀ v, v ∈ g.node_map → bfs g [v] [v] = .ok (v, 0)) ∧
    (3 ∈ g.node_map → 7 ∈ g.node_map → 9 ∈ g.node_map → bfs g [3, 7] [7, 9] = .ok (7, 0)) := by
  have main : ∀ A B : List Nat, (∀ a ∈ A, a ∈ g.node_map) → (∀ b ∈ B, b ∈ g.node_map) →
      B.Nodup → (∃ x, x ∈ A ∧ x ∈ B) →
      ∃ z, B.find? (fun b => decide (b ∈ A)) = some z ∧ z ∈ A ∧ z ∈ B ∧
        bfs g A B = .ok (z, 0) := by
    intro A B hA hB hBn ⟨x, hxA, hxB⟩
    obtain ⟨m, hm, -, -, hb⟩ := seeding_spec g hinv A B hA hB hBn
    cases hf : B.find? (fun b => decide (b ∈ A)) with
    | none =>
      have := (List.find?_eq_none.1 hf) x hxB
      simp [hxA] at this
    | some z =>
      rw [hf] at hb
      refine ⟨z, rfl, ?_, List.mem_of_find?_eq_some hf, ?_⟩
      · simpa using List.find?_some hf
      · simp only [bfs, hm, hb]
  refine ⟨main, ?_, ?_⟩
  · intro v hv
    obtain ⟨z, hz, -, -, hbfs⟩ := main [v] [v] (by simpa using hv) (by simpa using hv)
      (by simp) ⟨v, by simp, by simp⟩
    simp at hz
    rw [← hz] at hbfs; exact hbfs
  · intro h3 h7 h9
    obtain ⟨z, hz, -, -, hbfs⟩ := main [3, 7] [7, 9]
      (by intro a ha; simp at ha; rcases ha with rfl | rfl <;> assumption)
      (by intro a ha; simp at ha; rcases ha with rfl | rfl <;> assumption)
      (by decide) ⟨7, by simp, by simp⟩
    simp [List.find?_cons] at hz
    rw [← hz] at hbfs; exact hbfs

theorem bfs_common_id_witness :
    (∀ A B : List Nat, (∀ a ∈ A, a ∈ [3, 7, 9]) → (∀ b ∈ B, b ∈ [3, 7, 9]) → B.Nodup →
      (∃ x, x ∈ A ∧ x ∈ B) →
      ∃ z, B.find? (fun b => decide (b ∈ A)) = some z ∧ z ∈ A ∧ z ∈ B ∧
        bfs (Digraph.mk [[1], [2], []] [(3, 0), (7, 1), (9, 2)] [3, 7, 9] 3) A B = .ok (z, 0)) ∧
    (∀ v, v ∈ [3, 7, 9] →
      bfs (Digraph.mk [[1], [2], []] [(3, 0), (7, 1), (9, 2)] [3, 7, 9] 3) [v] [v] = .ok (v, 0)) ∧
    (3 ∈ [3, 7, 9] → 7 ∈ [3, 7, 9] → 9 ∈ [3, 7, 9] →
      bfs (Digraph.mk [[1], [2], []] [(3, 0), (7, 1), (9, 2)] [3, 7, 9] 3) [3, 7] [7, 9] =
        .ok (7, 0)) :=
  bfs_common_id (Digraph.mk [[1], [2], []] [(3, 0), (7, 1), (9, 2)] [3, 7, 9] 3)
    (of_edges_inv 3 [(3, 7), (7, 9)] _ (by decide) (by decide))

/-! ## The queries of `WordNet` and the defect of `bfs` -/

theorem acyclic_of_rank (g : Digraph) (r : Nat → Nat)
    (h : ∀ u v, g.Edge u v → r u < r v) : g.Acyclic := by
  have key : ∀ k u v, g.Walk k u v → r u + k ≤ r v := by
    intro k u v hw
    induction hw with
    | zero u _ => simp
    | succ k u v w _ he ih =>
      have := h v w he
      omega
  intro k u hw
  have := key _ _ _ hw
  omega

theorem detour_graph_acyclic : detour_graph.Acyclic := by
  apply acyclic_of_rank detour_graph detour_rank
  have hdec : ∀ u ∈ List.range 8, ∀ v ∈ (detour_graph.graph[u]?).getD [],
      detour_rank u < detour_rank v := by decide
  intro u v ⟨adj, hadj, hv⟩
  have hu : u < 8 := (List.getElem?_eq_some.1 hadj).1
  have := hdec u (List.mem_range.2 hu) v (by rw [hadj]; exact hv)
  exact this

/-- C1. On the acyclic graph `detour_graph`, built by `extend(8)` and eight `add_edge` calls,
`bfs({1}, {7})` returns the ancestor 4 with distance 6, although the vertex of id 6
(index 1) is one edge from id 1 and four edges from id 7: the distance returned is not the
minimum, which is at most 5. -/
theorem bfs_misses_minimum :
    Digraph.of_edges 8 detour_edges = .ok detour_graph ∧ detour_graph.Acyclic ∧
    bfs detour_graph [1] [7] = .ok (4, 6) ∧
    detour_graph.Reaches 1 1 1 ∧ detour_graph.Reaches 4 7 1 := by
  refine ⟨by decide!, detour_graph_acyclic, by decide!, ?_, ?_⟩
  · refine ⟨0, rfl, ?_⟩
    exact .succ 0 0 0 1 (.zero 0 (by decide)) ⟨[1, 2], rfl, by decide⟩
  · refine ⟨3, rfl, ?_⟩
    exact .succ 3 3 7 1
      (.succ 2 3 6 7
        (.succ 1 3 4 6
          (.succ 0 3 3 4 (.zero 3 (by decide)) ⟨[4], rfl, by decide⟩)
          ⟨[6], rfl, by decide⟩)
        ⟨[7], rfl, by decide⟩)
      ⟨[1], rfl, by decide⟩

/-- C2. On `detour_graph` the distance depends on the order of the two arguments:
`bfs({1}, {7})` returns distance 6 and `bfs({7}, {1})` returns distance 5, and so do
`distance("a", "b")` and `distance("b", "a")` of the `WordNet` built from the eight concept
lines `detour_synsets`, one for each id, and the generalization lines
`detour_hypernyms`. -/
theorem bfs_distance_not_symmetric :
    bfs detour_graph [1] [7] = .ok (4, 6) ∧ bfs detour_graph [7] [1] = .ok (6, 5) ∧
    ∃ wn, WordNet.ctor detour_synsets detour_hypernyms = .ok wn ∧
      wn.digraph = detour_graph ∧
      wn.distance ['a'] ['b'] = .ok 6 ∧ wn.distance ['b'] ['a'] = .ok 5 := by
  refine ⟨by decide!, by decide!, ?_⟩
  exact ⟨⟨detour_synsets,
      [(1, ['x']), (7, ['y']), (6, ['z']), (2, ['z']), (8, ['z']), (3, ['z']), (9, ['z']),
        (4, ['z'])],
      [(['a'], [1]), (['b'], [7]), (['c'], [6]), (['d'], [2]), (['e'], [8]), (['f'], [3]),
        (['g'], [9]), (['h'], [4])], detour_graph⟩,
    by decide!, rfl, by decide!, by decide!⟩

/-- C5. When one of the two labels is not stored (`is_noun` is false for it), `distance` and
`sca` throw `std::out_of_range` and return no value. -/
theorem unknown_label_throws (wn : WordNet) (l1 l2 : Str)
    (h : wn.is_noun l1 = false ∨ wn.is_noun l2 = false) :
    wn.distance l1 l2 = .error .out_of_range ∧ wn.sca l1 l2 = .error .out_of_range := by
  have hcalc : wn.distance_calculation l1 l2 = .error .out_of_range := by
    simp only [WordNet.distance_calculation, WordNet.words_at, bind, Except.bind]
    simp only [WordNet.is_noun] at h
    cases h1 : wn.words.lookup l1 with
    | none => rfl
    | some ids1 =>
      cases h2 : wn.words.lookup l2 with
      | none => rfl
      | some ids2 => simp [h1, h2] at h
  simp [WordNet.distance, WordNet.sca, hcalc, bind, Except.bind]

theorem unknown_label_throws_witness :
    (WordNet.mk [] [(1, ['x'])] [(['a'], [1])] Digraph.empty).distance ['a'] ['b']
        = .error .out_of_range ∧
      (WordNet.mk [] [(1, ['x'])] [(['a'], [1])] Digraph.empty).sca ['a'] ['b']
        = .error .out_of_range :=
  unknown_label_throws (WordNet.mk [] [(1, ['x'])] [(['a'], [1])] Digraph.empty) ['a'] ['b']
    (Or.inr (by decide))

/-! ## ShortestCommonAncestor: the traversal loop -/

theorem val_ne_zero_lt (v : List Nat) (i : Nat) (h : val v i ≠ 0) : i < v.length := by
  by_contra hge
  apply h
  unfold val
  rw [List.getElem?_eq_none (Nat.le_of_not_lt hge)]
  rfl

theorem val_mem (v : List Nat) (i : Nat) (h : i < v.length) : val v i ∈ v := by
  unfold val
  rw [List.getElem?_eq_getElem h]
  exact List.getElem_mem h

theorem count_set_new (l : List Nat) : ∀ (i x : Nat), i < l.length → val l i ≠ x →
    (l.set i x).count x = l.count x + 1 := by
  induction l with
  | nil => intro i x h; simp at h
  | cons a l ih =>
    intro i x h hne
    cases i with
    | zero =>
      have ha : a ≠ x := by simpa [val] using hne
      simp [List.count_cons, ha]
    | succ i =>
      have h1 : i < l.length := by simpa using h
      have h2 : val l i ≠ x := by simpa [val] using hne
      simp only [List.set_cons_succ, List.count_cons, ih i x h1 h2]
      omega

theorem count_set_old (l : List Nat) : ∀ (i x : Nat), i < l.length → val l i ≠ x →
    (l.set i x).count (val l i) + 1 = l.count (val l i) := by
  induction l with
  | nil => intro i x h; simp at h
  | cons a l ih =>
    intro i x h hne
    cases i with
    | zero =>
      have ha : a ≠ x := by simpa [val] using hne
      have hv : val (a :: l) 0 = a := by simp [val]
      rw [hv]
      simp [List.count_cons, ha.symm]
    | succ i =>
      have h1 : i < l.length := by simpa using h
      have hv : val (a :: l) (i + 1) = val l i := by simp [val]
      rw [hv] at hne ⊢
      have := ih i x h1 hne
      simp only [List.set_cons_succ, List.count_cons]
      omega

theorem count_set_other (l : List Nat) : ∀ (i x z : Nat), z ≠ x → z ≠ val l i →
    (l.set i x).count z = l.count z := by
  induction l with
  | nil => intro i x z _ _; simp
  | cons a l ih =>
    intro i x z hx hz
    cases i with
    | zero =>
      have ha : z ≠ a := by simpa [val] using hz
      simp [List.count_cons, ha.symm, hx.symm]
    | succ i =>
      have hv : val (a :: l) (i + 1) = val l i := by simp [val]
      rw [hv] at hz
      simp only [List.set_cons_succ, List.count_cons, ih i x z hx hz]

theorem count_add_count_le (l : List Nat) (x y : Nat) (h : x ≠ y) :
    l.count x + l.count y ≤ l.length := by
  induction l with
  | nil => simp
  | cons a l ih =>
    simp only [List.count_cons, List.length_cons]
    by_cases hx : a = x
    · have hy : ¬ a = y := fun hy => h (hx.symm.trans hy)
      simp [hx, hy]
      have : ¬ x = y := h
      simp [this]
      omega
    · by_cases hy : a = y
      · simp [hx, hy]
        have : ¬ y = x := fun e => h e.symm
        simp [this]
        omega
      · simp [hx, hy]
        omega

theorem relax_mark (node it : Nat) (st : BfsState) (hit : it < st.marked.length)
    (hnode : node < st.marked.length) (hlen : st.distance.length = st.marked.length)
    (hz : val st.marked it = 0) :
    relax node st it = .ok { st with
      marked := st.marked.set it (val st.marked node)
      distance := st.distance.set it ((val st.distance node + 1) % two32)
      queue := st.queue ++ [it] } := by
  simp [relax, vec_read_eq _ _ hit, vec_read_eq _ _ hnode, vec_read_eq _ _ (hlen ▸ hnode),
    vec_write_eq _ _ _ hit, vec_write_eq _ _ _ (hlen ▸ hit), hz, bind, Except.bind, pure,
    Except.pure]

theorem relax_same (node it : Nat) (st : BfsState) (hit : it < st.marked.length)
    (hnode : node < st.marked.length)
    (hz : val st.marked it ≠ 0) (heq : val st.marked it = val st.marked node) :
    relax node st it = .ok st := by
  simp [relax, vec_read_eq _ _ hit, vec_read_eq _ _ hnode, hz, heq, bind, Except.bind, pure,
    Except.pure]
  intro h
  exact absurd (heq ▸ h) hz

theorem relax_cross (node it : Nat) (st : BfsState) (hit : it < st.marked.length)
    (hnode : node < st.marked.length) (hlen : st.distance.length = st.marked.length)
    (hz : val st.marked it ≠ 0) (hne : val st.marked it ≠ val st.marked node) :
    relax node st it = .ok
      (if (val st.distance it + val st.distance node + 1) % two32 < st.min_distance then
        { st with
          min_distance := (val st.distance it + val st.distance node + 1) % two32
          ancestor_id := it }
      else st) := by
  simp only [relax, vec_read_eq _ _ hit, vec_read_eq _ _ hnode, vec_read_eq _ _ (hlen ▸ hnode),
    vec_read_eq _ _ (hlen ▸ hit), bind, Except.bind, pure, Except.pure, if_neg hz, if_pos hne,
    ne_eq, not_false_eq_true]
  split <;> rfl

theorem Digraph.Reaches.step (g : Digraph) (k a u v : Nat) (h : g.Reaches k a u)
    (he : g.Edge u v) : g.Reaches (k + 1) a v := by
  obtain ⟨i, hi, hw⟩ := h
  exact ⟨i, hi, .succ k i u v hw he⟩

theorem Digraph.Inv.edge_lt (g : Digraph) (h : g.Inv) (u v : Nat) (he : g.Edge u v) :
    v < g.size := by
  obtain ⟨adj, hadj, hv⟩ := he
  rw [Digraph.size, h.graph_length]
  exact h.adjacent_lt adj (List.getElem?_mem hadj) v hv

theorem Settled.grows (g : Digraph) (st st1 : BfsState) (u : Nat) (h : Settled g st u)
    (hu : val st.marked u ≠ 0)
    (hm : ∀ j, val st.marked j ≠ 0 → val st1.marked j = val st.marked j)
    (hmin : st1.min_distance ≤ st.min_distance) : Settled g st1 u := by
  intro v he
  rcases h v he with heq | ⟨hv, hlt⟩
  · left
    have hv : val st.marked v ≠ 0 := heq ▸ hu
    rw [hm v hv, hm u hu, heq]
  · right
    exact ⟨by rw [hm v hv]; exact hv, Nat.lt_of_le_of_lt hmin hlt⟩

theorem grows_refl (st : BfsState) : Grows st st :=
  ⟨fun _ _ => rfl, Nat.le_refl _, ⟨[], by simp⟩, rfl⟩

theorem grows_trans (st st1 st2 : BfsState) (h1 : Grows st st1) (h2 : Grows st1 st2) :
    Grows st st2 := by
  refine ⟨?_, Nat.le_trans h2.min_le h1.min_le, ?_, h2.measure_eq.trans h1.measure_eq⟩
  · intro j hj
    have := h1.marked_eq j hj
    rw [h2.marked_eq j (this ▸ hj), this]
  · obtain ⟨e1, he1⟩ := h1.queue_ext
    obtain ⟨e2, he2⟩ := h2.queue_ext
    exact ⟨e1 ++ e2, by rw [he2, he1, List.append_assoc]⟩

/-- The distances of two vertices with different marks add up to less than the number of
vertices. -/
theorem BfsInv.cross_bound (g : Digraph) (A B : List Nat) (st : BfsState)
    (h : BfsInv g A B st) (u v : Nat) (hu : val st.marked u ≠ 0) (hv : val st.marked v ≠ 0)
    (hne : val st.marked v ≠ val st.marked u) :
    val st.distance v + val st.distance u + 2 ≤ g.size := by
  have h1 := h.depth u hu
  have h2 := h.depth v hv
  have h3 := count_add_count_le st.marked _ _ hne
  rw [h.marked_length] at h3
  omega

/-- The first branch of the loop body: an unmarked successor is marked and enqueued. -/
theorem relax_mark_spec (g : Digraph) (hg : g.Inv) (hsize : g.size ≤ 4294967290)
    (A B : List Nat) (st : BfsState) (node it : Nat) (h : BfsInv g A B st)
    (hnode : val st.marked node ≠ 0) (hedge : g.Edge node it) (hz : val st.marked it = 0) :
    ∃ st1, relax node st it = .ok st1 ∧ BfsInv g A B st1 ∧ Grows st st1 ∧
      val st1.marked it = val st1.marked node := by
  have hit : it < st.marked.length := by rw [h.marked_length]; exact hg.edge_lt g node it hedge
  have hnlt : node < st.marked.length := val_ne_zero_lt _ _ hnode
  have hlen : st.distance.length = st.marked.length := by
    rw [h.marked_length, h.distance_length]
  have hitd : it < st.distance.length := hlen ▸ hit
  have hne : node ≠ it := by
    intro e
    rw [e] at hnode
    exact hnode hz
  have hdepth := h.depth node hnode
  have hcount : st.marked.count (val st.marked node) ≤ g.size := by
    rw [← h.marked_length]; exact List.count_le_length _ _
  have hmod : (val st.distance node + 1) % two32 = val st.distance node + 1 := by
    apply Nat.mod_eq_of_lt
    simp only [two32]
    omega
  have hmk : ∀ j, val (st.marked.set it (val st.marked node)) j =
      if j = it then val st.marked node else val st.marked j :=
    fun j => val_set _ _ _ _ hit
  have hds : ∀ j, val (st.distance.set it (val st.distance node + 1)) j =
      if j = it then val st.distance node + 1 else val st.distance j :=
    fun j => val_set _ _ _ _ hitd
  have hfrozen : ∀ j, val st.marked j ≠ 0 →
      val (st.marked.set it (val st.marked node)) j = val st.marked j := by
    intro j hj
    have hji : ¬ j = it := by
      intro e
      rw [e] at hj
      exact hj hz
    rw [hmk j, if_neg hji]
  have hzne : val st.marked it ≠ val st.marked node := by
    intro e
    rw [← e] at hnode
    exact hnode hz
  have hcnew := count_set_new st.marked it (val st.marked node) hit hzne
  refine ⟨_, relax_mark node it st hit hnlt hlen hz, ?_, ?_, ?_⟩
  · rw [hmod]
    constructor
    · simpa using h.marked_length
    · simpa using h.distance_length
    · intro q hq
      simp only [List.mem_append, List.mem_singleton] at hq
      show val (st.marked.set it (val st.marked node)) q ≠ 0
      rw [hmk q]
      rcases hq with hq | rfl
      · split
        · exact hnode
        · exact h.queue_marked q hq
      · simpa using hnode
    · intro j
      show val (st.marked.set it (val st.marked node)) j ≤ 2
      rw [hmk j]
      split
      · exact h.marks node
      · exact h.marks j
    · intro j hj
      change val (st.marked.set it (val st.marked node)) j = 1 at hj
      show ∃ a ∈ A, g.Reaches (val (st.distance.set it (val st.distance node + 1)) j) a j
      rw [hmk j] at hj
      rw [hds j]
      by_cases hji : j = it
      · subst hji
        simp only [if_true] at hj ⊢
        obtain ⟨a, ha, hr⟩ := h.from_a node hj
        exact ⟨a, ha, hr.step g _ a node j hedge⟩
      · simp only [if_neg hji] at hj ⊢
        exact h.from_a j hj
    · intro j hj
      change val (st.marked.set it (val st.marked node)) j = 2 at hj
      show ∃ b ∈ B, g.Reaches (val (st.distance.set it (val st.distance node + 1)) j) b j
      rw [hmk j] at hj
      rw [hds j]
      by_cases hji : j = it
      · subst hji
        simp only [if_true] at hj ⊢
        obtain ⟨b, hb, hr⟩ := h.from_b node hj
        exact ⟨b, hb, hr.step g _ b node j hedge⟩
      · simp only [if_neg hji] at hj ⊢
        exact h.from_b j hj
    · intro j hj
      change val (st.marked.set it (val st.marked node)) j ≠ 0 at hj
      show val (st.distance.set it (val st.distance node + 1)) j + 1 ≤
        (st.marked.set it (val st.marked node)).count
          (val (st.marked.set it (val st.marked node)) j)
      rw [hmk j] at hj ⊢
      rw [hds j]
      by_cases hji : j = it
      · simp only [if_pos hji]
        rw [hcnew]
        omega
      · simp only [if_neg hji] at hj ⊢
        have hd := h.depth j hj
        by_cases hs : val st.marked j = val st.marked node
        · rw [hs, hcnew]
          rw [hs] at hd
          omega
        · rw [count_set_other st.marked it (val st.marked node) (val st.marked j) hs
            (by rw [hz]; exact hj)]
          exact hd
    · intro j hj
      show val (st.marked.set it (val st.marked node)) j = 1
      rw [hfrozen j (by rw [h.seeds_a j hj]; decide)]
      exact h.seeds_a j hj
    · intro j hj
      show val (st.marked.set it (val st.marked node)) j = 2
      rw [hfrozen j (by rw [h.seeds_b j hj]; decide)]
      exact h.seeds_b j hj
    · exact h.min_le
    · exact h.crossing
    · exact h.ancestor_lt
    · intro u hu
      change val (st.marked.set it (val st.marked node)) u ≠ 0 at hu
      show u ∈ st.queue ++ [it] ∨ _
      by_cases hui : u = it
      · left; simp [hui]
      · rw [hmk u, if_neg hui] at hu
        rcases h.closed u hu with hq | hs
        · left; exact List.mem_append_left _ hq
        · right
          exact hs.grows g st _ u hu hfrozen (Nat.le_refl _)
  · rw [hmod]
    refine ⟨hfrozen, Nat.le_refl _, ⟨[it], rfl⟩, ?_⟩
    have hold := count_set_old st.marked it (val st.marked node) hit hzne
    rw [hz] at hold
    simp only [List.length_append, List.length_singleton]
    omega
  · rw [hmod]
    show val (st.marked.set it (val st.marked node)) it =
      val (st.marked.set it (val st.marked node)) node
    rw [hmk it, hmk node, if_pos rfl, if_neg hne]

/-- The second branch of the loop body: a successor with the other mark is a crossing, whose
total is below the sentinel and is realised by walks from both sides. -/
theorem relax_cross_spec (g : Digraph) (hsize : g.size ≤ 4294967290)
    (A B : List Nat) (st : BfsState) (node it : Nat) (h : BfsInv g A B st)
    (hnode : val st.marked node ≠ 0) (hedge : g.Edge node it) (hz : val st.marked it ≠ 0)
    (hne : val st.marked it ≠ val st.marked node) :
    ∃ st1, relax node st it = .ok st1 ∧ BfsInv g A B st1 ∧ Grows st st1 ∧
      val st1.marked it ≠ 0 ∧ st1.min_distance < sentinel := by
  have hit : it < st.marked.length := val_ne_zero_lt _ _ hz
  have hnlt : node < st.marked.length := val_ne_zero_lt _ _ hnode
  have hlen : st.distance.length = st.marked.length := by
    rw [h.marked_length, h.distance_length]
  have hbound := h.cross_bound g A B st node it hnode hz hne
  have hmod : (val st.distance it + val st.distance node + 1) % two32 =
      val st.distance it + val st.distance node + 1 := by
    apply Nat.mod_eq_of_lt
    simp only [two32]
    omega
  have hcand : val st.distance it + val st.distance node + 1 < sentinel := by
    simp only [sentinel]
    omega
  have hwalks : ∃ a ∈ A, ∃ b ∈ B, ∃ p q, g.Reaches p a it ∧ g.Reaches q b it ∧
      p + q = val st.distance it + val st.distance node + 1 := by
    have hm1 := h.marks it
    have hm2 := h.marks node
    have hcases : (val st.marked node = 1 ∧ val st.marked it = 2) ∨
        (val st.marked node = 2 ∧ val st.marked it = 1) := by omega
    rcases hcases with ⟨hn, hi⟩ | ⟨hn, hi⟩
    · obtain ⟨a, ha, hra⟩ := h.from_a node hn
      obtain ⟨b, hb, hrb⟩ := h.from_b it hi
      exact ⟨a, ha, b, hb, _, _, hra.step g _ a node it hedge, hrb, by omega⟩
    · obtain ⟨a, ha, hra⟩ := h.from_a it hi
      obtain ⟨b, hb, hrb⟩ := h.from_b node hn
      exact ⟨a, ha, b, hb, _, _, hra, hrb.step g _ b node it hedge, by omega⟩
  refine ⟨_, relax_cross node it st hit hnlt hlen hz hne, ?_⟩
  rw [hmod]
  by_cases hlt : val st.distance it + val st.distance node + 1 < st.min_distance
  · rw [if_pos hlt]
    refine ⟨?_, ?_, hz, hcand⟩
    · constructor
      · exact h.marked_length
      · exact h.distance_length
      · exact h.queue_marked
      · exact h.marks
      · exact h.from_a
      · exact h.from_b
      · exact h.depth
      · exact h.seeds_a
      · exact h.seeds_b
      · exact Nat.le_of_lt hcand
      · intro _
        exact hwalks
      · show it < g.size
        rw [← h.marked_length]; exact hit
      · intro u hu
        rcases h.closed u hu with hq | hs
        · left; exact hq
        · right
          exact hs.grows g st _ u hu (fun _ _ => rfl) (Nat.le_of_lt hlt)
    · exact ⟨fun _ _ => rfl, Nat.le_of_lt hlt, ⟨[], by simp⟩, rfl⟩
  · rw [if_neg hlt]
    exact ⟨h, grows_refl st, hz, by omega⟩

/-- One pass of the loop body keeps the invariant and settles the edge it looks at. -/
theorem relax_spec (g : Digraph) (hg : g.Inv) (hsize : g.size ≤ 4294967290)
    (A B : List Nat) (st : BfsState) (node it : Nat) (h : BfsInv g A B st)
    (hnode : val st.marked node ≠ 0) (hedge : g.Edge node it) :
    ∃ st1, relax node st it = .ok st1 ∧ BfsInv g A B st1 ∧ Grows st st1 ∧
      (val st1.marked it = val st1.marked node ∨
        (val st1.marked it ≠ 0 ∧ st1.min_distance < sentinel)) := by
  by_cases hz : val st.marked it = 0
  · obtain ⟨st1, hr, hinv, hgr, heq⟩ :=
      relax_mark_spec g hg hsize A B st node it h hnode hedge hz
    exact ⟨st1, hr, hinv, hgr, Or.inl heq⟩
  · by_cases hne : val st.marked it = val st.marked node
    · exact ⟨st, relax_same node it st (val_ne_zero_lt _ _ hz) (val_ne_zero_lt _ _ hnode) hz hne,
        h, grows_refl st, Or.inl hne⟩
    · obtain ⟨st1, hr, hinv, hgr, hm, hlt⟩ :=
        relax_cross_spec g hsize A B st node it h hnode hedge hz hne
      exact ⟨st1, hr, hinv, hgr, Or.inr ⟨hm, hlt⟩⟩

/-- The loop over the successors of `node` keeps the invariant and settles every edge. -/
theorem visit_spec (g : Digraph) (hg : g.Inv) (hsize : g.size ≤ 4294967290)
    (A B : List Nat) (node : Nat) (adj : List Nat) :
    ∀ st : BfsState, BfsInv g A B st → val st.marked node ≠ 0 →
      (∀ it ∈ adj, g.Edge node it) →
      ∃ st1, visit node adj st = .ok st1 ∧ BfsInv g A B st1 ∧ Grows st st1 ∧
        ∀ it ∈ adj, val st1.marked it = val st1.marked node ∨
          (val st1.marked it ≠ 0 ∧ st1.min_distance < sentinel) := by
  induction adj with
  | nil =>
    intro st h _ _
    exact ⟨st, rfl, h, grows_refl st, by simp⟩
  | cons it rest ih =>
    intro st h hnode hedges
    obtain ⟨st1, hr, hinv1, hgr1, hprop1⟩ :=
      relax_spec g hg hsize A B st node it h hnode (hedges it (List.mem_cons_self _ _))
    have hnode1 : val st1.marked node ≠ 0 := by
      rw [hgr1.marked_eq node hnode]; exact hnode
    obtain ⟨st2, hv, hinv2, hgr2, hprop2⟩ :=
      ih st1 hinv1 hnode1 (fun x hx => hedges x (List.mem_cons_of_mem _ hx))
    refine ⟨st2, ?_, hinv2, grows_trans st st1 st2 hgr1 hgr2, ?_⟩
    · simp only [visit, hr]
      exact hv
    · intro x hx
      rcases List.mem_cons.1 hx with rfl | hx
      · have hn2 : val st2.marked node = val st1.marked node := hgr2.marked_eq node hnode1
        rcases hprop1 with heq | ⟨hm, hlt⟩
        · left
          have hx1 : val st1.marked x ≠ 0 := by rw [heq]; exact hnode1
          rw [hgr2.marked_eq x hx1, hn2, heq]
        · right
          exact ⟨by rw [hgr2.marked_eq x hm]; exact hm, Nat.lt_of_le_of_lt hgr2.min_le hlt⟩
      · exact hprop2 x hx

/-- The traversal loop ends within `queue.size()` plus the number of unmarked vertices
passes, with an empty queue and the invariant. -/
theorem drain_spec (g : Digraph) (hg : g.Inv) (hsize : g.size ≤ 4294967290)
    (A B : List Nat) :
    ∀ (fuel : Nat) (st : BfsState), BfsInv g A B st →
      st.queue.length + st.marked.count 0 ≤ fuel →
      ∃ st1, drain g fuel st = .ok st1 ∧ BfsInv g A B st1 ∧ st1.queue = [] := by
  intro fuel
  induction fuel with
  | zero =>
    intro st h hm
    have hq : st.queue = [] := by
      apply List.eq_nil_of_length_eq_zero
      omega
    refine ⟨st, ?_, h, hq⟩
    unfold drain
    rw [hq]
  | succ fuel ih =>
    intro st h hm
    cases hq : st.queue with
    | nil =>
      refine ⟨st, ?_, h, hq⟩
      unfold drain
      rw [hq]
    | cons node rest =>
      have hnode : val st.marked node ≠ 0 := h.queue_marked node (by rw [hq]; simp)
      have hnlt : node < g.graph.length := by
        have := val_ne_zero_lt _ _ hnode
        rw [h.marked_length] at this
        exact this
      have hadj : g.graph[node]? = some g.graph[node] := List.getElem?_eq_getElem hnlt
      obtain ⟨st1, hv, hinv1, hgr1, hprop⟩ :=
        visit_spec g hg hsize A B node g.graph[node] st h hnode
          (fun it hit => ⟨g.graph[node], hadj, hit⟩)
      obtain ⟨ext, hext⟩ := hgr1.queue_ext
      have hq1 : st1.queue = node :: (rest ++ ext) := by rw [hext, hq]; rfl
      have hsettled : Settled g st1 node := by
        intro v ⟨adj, hadj', hvadj⟩
        rw [hadj] at hadj'
        cases hadj'
        exact hprop v hvadj
      have hinv2 : BfsInv g A B { st1 with queue := st1.queue.tail } := by
        constructor
        · exact hinv1.marked_length
        · exact hinv1.distance_length
        · intro q hq'
          exact hinv1.queue_marked q (List.mem_of_mem_tail hq')
        · exact hinv1.marks
        · exact hinv1.from_a
        · exact hinv1.from_b
        · exact hinv1.depth
        · exact hinv1.seeds_a
        · exact hinv1.seeds_b
        · exact hinv1.min_le
        · exact hinv1.crossing
        · exact hinv1.ancestor_lt
        · intro u hu
          rcases hinv1.closed u hu with hmem | hs
          · rw [hq1] at hmem
            rcases List.mem_cons.1 hmem with rfl | hmem
            · right; exact hsettled
            · left
              show u ∈ st1.queue.tail
              rw [hq1]; exact hmem
          · right; exact hs
      have hmeasure : ({ st1 with queue := st1.queue.tail } : BfsState).queue.length +
          ({ st1 with queue := st1.queue.tail } : BfsState).marked.count 0 ≤ fuel := by
        have hm1 := hgr1.measure_eq
        show st1.queue.tail.length + st1.marked.count 0 ≤ fuel
        rw [hq1] at hm1 ⊢
        simp only [List.length_cons, List.tail_cons] at hm1 ⊢
        omega
      obtain ⟨st2, hd, hinv3, hq3⟩ := ih _ hinv2 hmeasure
      refine ⟨st2, ?_, hinv3, hq3⟩
      unfold drain
      simp only [hq, hadj, hv]
      exact hd

/-- The state that the seeding loops hand to the traversal loop satisfies the invariant. -/
theorem bfs_inv_init (g : Digraph) (hg : g.Inv) (A B : List Nat) (hA : A ≠ [])
    (hAv : ∀ a ∈ A, a ∈ g.node_map) (hdisj : ∀ j, j ∈ g.nodes A → j ∉ g.nodes B)
    (m : List Nat) (hlen : m.length = g.size)
    (hval : ∀ j, val m j = if j ∈ g.nodes B then 2 else if j ∈ g.nodes A then 1 else 0) :
    BfsInv g A B ⟨List.replicate g.size 0, m, g.nodes A ++ g.nodes B, sentinel, 0⟩ := by
  have hmarked : ∀ j, val m j ≠ 0 → j ∈ g.nodes A ∨ j ∈ g.nodes B := by
    intro j hj
    rw [hval j] at hj
    by_cases hb : j ∈ g.nodes B
    · exact Or.inr hb
    · by_cases ha : j ∈ g.nodes A
      · exact Or.inl ha
      · simp [hb, ha] at hj
  constructor
  · exact hlen
  · simp
  · intro q hq
    show val m q ≠ 0
    rw [hval q]
    rcases List.mem_append.1 hq with ha | hb
    · simp [hdisj q ha, ha]
    · simp [hb]
  · intro j
    show val m j ≤ 2
    rw [hval j]
    split
    · exact Nat.le_refl _
    · split <;> omega
  · intro j hj
    change val m j = 1 at hj
    show ∃ a ∈ A, g.Reaches (val (List.replicate g.size 0) j) a j
    rw [val_replicate]
    have hjA : j ∈ g.nodes A := by
      rw [hval j] at hj
      by_cases hb : j ∈ g.nodes B
      · simp [hb] at hj
      · by_cases ha : j ∈ g.nodes A
        · exact ha
        · simp [hb, ha] at hj
    obtain ⟨a, ha, hi⟩ := (Digraph.mem_nodes g A j).1 hjA
    exact ⟨a, ha, j, hi, .zero j (Digraph.nodes_lt g hg A j hjA)⟩
  · intro j hj
    change val m j = 2 at hj
    show ∃ b ∈ B, g.Reaches (val (List.replicate g.size 0) j) b j
    rw [val_replicate]
    have hjB : j ∈ g.nodes B := by
      rw [hval j] at hj
      by_cases hb : j ∈ g.nodes B
      · exact hb
      · by_cases ha : j ∈ g.nodes A
        · simp [hb, ha] at hj
        · simp [hb, ha] at hj
    obtain ⟨b, hb, hi⟩ := (Digraph.mem_nodes g B j).1 hjB
    exact ⟨b, hb, j, hi, .zero j (Digraph.nodes_lt g hg B j hjB)⟩
  · intro j hj
    change val m j ≠ 0 at hj
    show val (List.replicate g.size 0) j + 1 ≤ m.count (val m j)
    rw [val_replicate]
    have := List.count_pos_iff.2 (val_mem m j (val_ne_zero_lt m j hj))
    omega
  · intro j hj
    show val m j = 1
    rw [hval j]
    simp [hdisj j hj, hj]
  · intro j hj
    show val m j = 2
    rw [hval j]
    simp [hj]
  · exact Nat.le_refl _
  · intro hlt
    exact absurd hlt (Nat.lt_irrefl _)
  · show 0 < g.size
    obtain ⟨a, ha⟩ := List.exists_mem_of_ne_nil A hA
    obtain ⟨i, _, hi⟩ := hg.internal_of_mem g a (hAv a ha)
    omega
  · intro u hu
    left
    show u ∈ g.nodes A ++ g.nodes B
    exact List.mem_append.2 (hmarked u hu)

/-- What `bfs` does when no member of `B` is in `A`: the traversal loop ends with an empty
queue and the invariant, and the pair returned is read off its final state. -/
theorem bfs_traversal (g : Digraph) (hg : g.Inv) (hsize : g.size ≤ 4294967290)
    (A B : List Nat) (hA : A ≠ []) (hAv : ∀ a ∈ A, a ∈ g.node_map)
    (hBv : ∀ b ∈ B, b ∈ g.node_map) (hBn : B.Nodup)
    (hnone : B.find? (fun b => decide (b ∈ A)) = none) :
    ∃ st z, BfsInv g A B st ∧ st.queue = [] ∧ g.node_map[st.ancestor_id]? = some z ∧
      bfs g A B = .ok (z, st.min_distance) := by
  obtain ⟨m, hm, -, -, hb⟩ := seeding_spec g hg A B hAv hBv hBn
  rw [hnone] at hb
  obtain ⟨m1, hm1, hm1len, hm1val⟩ := hb
  have hdisj : ∀ j, j ∈ g.nodes A → j ∉ g.nodes B := by
    intro j hjA hjB
    obtain ⟨a, ha, hai⟩ := (Digraph.mem_nodes g A j).1 hjA
    obtain ⟨b, hb, hbi⟩ := (Digraph.mem_nodes g B j).1 hjB
    have hab := hg.internal_inj g a b j hai hbi
    have := (List.find?_eq_none.1 hnone) b hb
    simp at this
    exact this (hab ▸ ha)
  have hinv0 := bfs_inv_init g hg A B hA hAv hdisj m1 hm1len hm1val
  have hfuel : (g.nodes A ++ g.nodes B).length + m1.count 0 ≤
      (g.nodes A ++ g.nodes B).length + g.size := by
    have := List.count_le_length 0 m1
    omega
  obtain ⟨st, hd, hinv, hq⟩ := drain_spec g hg hsize A B _ _ hinv0 hfuel
  have hanc : st.ancestor_id < g.node_map.length := by
    rw [← hg.graph_length]; exact hinv.ancestor_lt
  refine ⟨st, g.node_map[st.ancestor_id], hinv, hq, List.getElem?_eq_getElem hanc, ?_⟩
  simp only [bfs, hm, hm1, hd, vec_read, List.getElem?_eq_getElem hanc]

/-- With an empty queue and no crossing recorded, a mark spreads along every walk. -/
theorem BfsInv.mark_along_walk (g : Digraph) (A B : List Nat) (st : BfsState)
    (h : BfsInv g A B st) (hq : st.queue = []) (hmin : st.min_distance = sentinel)
    (k i x : Nat) (hw : g.Walk k i x) (hi : val st.marked i ≠ 0) :
    val st.marked x = val st.marked i := by
  induction hw with
  | zero u _ => rfl
  | succ k u v w _ he ih =>
    have hv : val st.marked v ≠ 0 := by rw [ih hi]; exact hi
    rcases h.closed v hv with hmem | hs
    · rw [hq] at hmem; cases hmem
    · rcases hs w he with heq | ⟨_, hlt⟩
      · rw [heq, ih hi]
      · rw [hmin] at hlt; exact absurd hlt (Nat.lt_irrefl _)

/-- C6. On a graph of fewer than 2^31 vertices, for sequences `A` (non-empty) and `B`
(duplicate-free) of vertex ids, `bfs(A, B)` returns a pair whose distance is the sentinel
4294967290 exactly when no vertex is reached from both a member of `A` and a member of `B`;
when there is such a vertex the distance is below the sentinel. -/
theorem bfs_sentinel_iff_no_common_ancestor (g : Digraph) (A B : List Nat) (hg : g.Inv)
    (hsize : g.size < 2147483648) (hA : A ≠ []) (hAv : ∀ a ∈ A, a ∈ g.node_map)
    (hBv : ∀ b ∈ B, b ∈ g.node_map) (hBn : B.Nodup) :
    ∃ z d, bfs g A B = .ok (z, d) ∧ (d = sentinel ↔ ¬ g.CommonAncestor A B) ∧
      (g.CommonAncestor A B → d < sentinel) := by
  replace hsize : g.size ≤ 4294967290 := by omega
  cases hf : B.find? (fun b => decide (b ∈ A)) with
  | some z =>
    obtain ⟨m, hm, -, -, hb⟩ := seeding_spec g hg A B hAv hBv hBn
    rw [hf] at hb
    have hzB : z ∈ B := List.mem_of_find?_eq_some hf
    have hzA : z ∈ A := by simpa using List.find?_some hf
    obtain ⟨i, hi, hlt⟩ := hg.internal_of_mem g z (hAv z hzA)
    have hca : g.CommonAncestor A B :=
      ⟨z, hzA, z, hzB, i, 0, 0, ⟨i, hi, .zero i hlt⟩, ⟨i, hi, .zero i hlt⟩⟩
    refine ⟨z, 0, by simp only [bfs, hm, hb], ?_, fun _ => by decide⟩
    constructor
    · intro h0; exact absurd h0 (by decide)
    · intro hn; exact absurd hca hn
  | none =>
    obtain ⟨st, z, hinv, hq, -, hbfs⟩ := bfs_traversal g hg hsize A B hA hAv hBv hBn hf
    have hno : st.min_distance = sentinel → ¬ g.CommonAncestor A B := by
      rintro hmin ⟨a, ha, b, hb, x, p, q, ⟨i, hi, hwi⟩, ⟨j, hj, hwj⟩⟩
      have hia : val st.marked i = 1 := hinv.seeds_a i ((Digraph.mem_nodes g A i).2 ⟨a, ha, hi⟩)
      have hjb : val st.marked j = 2 := hinv.seeds_b j ((Digraph.mem_nodes g B j).2 ⟨b, hb, hj⟩)
      have h1 := hinv.mark_along_walk g A B st hq hmin p i x hwi (by rw [hia]; decide)
      have h2 := hinv.mark_along_walk g A B st hq hmin q j x hwj (by rw [hjb]; decide)
      rw [hia] at h1
      rw [hjb, h1] at h2
      exact absurd h2 (by decide)
    have hyes : st.min_distance < sentinel → g.CommonAncestor A B := by
      intro hlt
      obtain ⟨a, ha, b, hb, p, q, hra, hrb, _⟩ := hinv.crossing hlt
      exact ⟨a, ha, b, hb, st.ancestor_id, p, q, hra, hrb⟩
    refine ⟨z, st.min_distance, hbfs, ⟨hno, ?_⟩, ?_⟩
    · intro hn
      by_contra hne
      exact hn (hyes (Nat.lt_of_le_of_ne hinv.min_le hne))
    · intro hca
      by_contra hge
      have : st.min_distance = sentinel := Nat.le_antisymm hinv.min_le (Nat.le_of_not_lt hge)
      exact hno this hca

theorem bfs_sentinel_iff_no_common_ancestor_witness :
    ∃ z d, bfs (Digraph.mk [[1], [], [3], []] [(1, 0), (2, 1), (3, 2), (4, 3)] [1, 2, 3, 4] 4)
        [1] [3] = .ok (z, d) ∧
      (d = sentinel ↔ ¬ (Digraph.mk [[1], [], [3], []] [(1, 0), (2, 1), (3, 2), (4, 3)]
        [1, 2, 3, 4] 4).CommonAncestor [1] [3]) ∧
      ((Digraph.mk [[1], [], [3], []] [(1, 0), (2, 1), (3, 2), (4, 3)]
        [1, 2, 3, 4] 4).CommonAncestor [1] [3] → d < sentinel) :=
  bfs_sentinel_iff_no_common_ancestor
    (Digraph.mk [[1], [], [3], []] [(1, 0), (2, 1), (3, 2), (4, 3)] [1, 2, 3, 4] 4) [1] [3]
    (of_edges_inv 4 [(1, 2), (3, 4)] _ (by decide!) (by decide)) (by decide) (by decide)
    (by decide) (by decide) (by decide)

/-! ## Outcast -/

theorem add_at_eq (distances : List Nat) (i x : Nat) (h : i < distances.length) :
    add_at distances i x = .ok (distances.set i ((val distances i + x) % two32)) := by
  simp [add_at, val, List.getElem?_eq_getElem h]

theorem drop_eq_cons (L : List Str) (j : Nat) (y : Str) (rest : List Str)
    (h : y :: rest = L.drop j) :
    j < L.length ∧ y = L.getD j [] ∧ rest = L.drop (j + 1) := by
  have hj : j < L.length := by
    by_contra hge
    rw [List.drop_eq_nil_of_le (Nat.le_of_not_lt hge)] at h
    cases h
  rw [List.drop_eq_getElem_cons hj] at h
  injection h with h1 h2
  refine ⟨hj, ?_, h2⟩
  rw [h1]
  simp [List.getD, List.getElem?_eq_getElem hj]

/-- The inner loop adds the distance of each pair `(i, k)`, `j ≤ k`, to both positions. -/
theorem outcast_inner_spec (wn : WordNet) (L : List Str) (d : Nat → Nat → Nat)
    (hd : ∀ i j, i < j → j < L.length →
      wn.distance (L.getD i []) (L.getD j []) = .ok (d i j))
    (i : Nat) :
    ∀ (rest : List Str) (j : Nat) (D : List Nat), rest = L.drop j → i < j → j ≤ L.length →
      D.length = L.length →
      val D i + ∑ m ∈ Finset.Ico j L.length, d i m < two32 →
      (∀ k, j ≤ k → k < L.length → val D k + d i k < two32) →
      ∃ D1, outcast_inner wn (L.getD i []) i rest j D = .ok D1 ∧ D1.length = L.length ∧
        ∀ k, val D1 k =
          if k = i then val D i + ∑ m ∈ Finset.Ico j L.length, d i m
          else if j ≤ k ∧ k < L.length then val D k + d i k else val D k := by
  intro rest
  induction rest with
  | nil =>
    intro j D hrest hij hjn hlen _ _
    have hj : j = L.length := by
      have := congrArg List.length hrest
      simp at this
      omega
    refine ⟨D, rfl, hlen, ?_⟩
    intro k
    subst hj
    by_cases hk : k = i
    · simp [hk]
    · rw [if_neg hk, if_neg (by omega)]
  | cons y rest ih =>
    intro j D hrest hij hjn hlen hbi hbk
    obtain ⟨hj, hy, hrest'⟩ := drop_eq_cons L j y rest hrest
    have hi : i < D.length := by omega
    have hsum : ∑ m ∈ Finset.Ico j L.length, d i m =
        d i j + ∑ m ∈ Finset.Ico (j + 1) L.length, d i m :=
      Finset.sum_eq_sum_Ico_succ_bot hj _
    have hmod1 : (val D i + d i j) % two32 = val D i + d i j := by
      apply Nat.mod_eq_of_lt
      omega
    have hjD1 : j < (D.set i (val D i + d i j)).length := by simp; omega
    have hvj : val (D.set i (val D i + d i j)) j = val D j := by
      rw [val_set _ _ _ _ hi, if_neg (by omega)]
    have hmod2 : (val D j + d i j) % two32 = val D j + d i j :=
      Nat.mod_eq_of_lt (hbk j (Nat.le_refl _) hj)
    have hval2 : ∀ k, val ((D.set i (val D i + d i j)).set j (val D j + d i j)) k =
        if k = j then val D j + d i j else if k = i then val D i + d i j else val D k := by
      intro k
      rw [val_set _ _ _ _ hjD1, val_set _ _ _ _ hi]
    obtain ⟨D1, hD1, hlen1, hval1⟩ := ih (j + 1)
      ((D.set i (val D i + d i j)).set j (val D j + d i j)) hrest' (by omega) (by omega)
      (by simp; exact hlen)
      (by
        rw [hval2 i, if_neg (by omega), if_pos rfl]
        omega)
      (by
        intro k hk hkn
        rw [hval2 k, if_neg (by omega), if_neg (by omega)]
        exact hbk k (by omega) hkn)
    refine ⟨D1, ?_, hlen1, ?_⟩
    · subst hy
      simp only [outcast_inner, hd i j hij hj, add_at_eq _ _ _ hi, hmod1,
        add_at_eq _ _ _ hjD1, hvj, hmod2]
      exact hD1
    · intro k
      rw [hval1 k, hval2 k, hval2 i, if_neg (show ¬ i = j by omega), if_pos rfl]
      by_cases hki : k = i
      · simp only [if_pos hki]
        omega
      · simp only [if_neg hki]
        by_cases hkj : k = j
        · subst hkj
          simp [hj]
        · simp only [if_neg hkj]
          by_cases hc : j + 1 ≤ k ∧ k < L.length
          · rw [if_pos hc, if_pos ⟨by omega, hc.2⟩]
          · rw [if_neg hc, if_neg (by omega)]

theorem partial_le_pair_total (d : Nat → Nat → Nat) (n i k : Nat) (hik : i ≤ k) :
    ∑ m ∈ Finset.range i, d m k ≤ pair_total d n k := by
  have h1 : ∑ m ∈ Finset.range i, d m k ≤ ∑ m ∈ Finset.range k, d m k :=
    Finset.sum_le_sum_of_subset (Finset.range_mono hik)
  unfold pair_total
  omega

/-- The outer loop ends with the totals of all nouns, the position of a greatest total, the
noun at that position, and the flag that tells whether another noun has the same total. -/
theorem outcast_outer_spec (wn : WordNet) (L : List Str) (d : Nat → Nat → Nat)
    (hd : ∀ i j, i < j → j < L.length →
      wn.distance (L.getD i []) (L.getD j []) = .ok (d i j))
    (hbound : ∀ k, k < L.length → pair_total d L.length k < two32) :
    ∀ (rest : List Str) (i : Nat) (st : OutcastState), rest = L.drop i → i ≤ L.length →
      OutcastInv L d i st →
      ∃ st1, outcast_outer wn rest i st = .ok st1 ∧ OutcastInv L d L.length st1 := by
  intro rest
  induction rest with
  | nil =>
    intro i st hrest hin hinv
    have hi : i = L.length := by
      have := congrArg List.length hrest
      simp at this
      omega
    subst hi
    exact ⟨st, rfl, hinv⟩
  | cons x rest ih =>
    intro i st hrest hin hinv
    obtain ⟨hi, hx, hrest'⟩ := drop_eq_cons L i x rest hrest
    subst hx
    have hpi : val st.distances i = ∑ m ∈ Finset.range i, d m i :=
      hinv.partial_sum i (Nat.le_refl _) hi
    obtain ⟨D1, hD1, hlen1, hval1⟩ := outcast_inner_spec wn L d hd i rest (i + 1)
      st.distances hrest' (Nat.lt_succ_self _) hi hinv.length_eq
      (by
        rw [hpi]
        exact hbound i hi)
      (by
        intro k hk hkn
        rw [hinv.partial_sum k (by omega) hkn, ← Finset.sum_range_succ]
        exact Nat.lt_of_le_of_lt (partial_le_pair_total d L.length (i + 1) k hk)
          (hbound k hkn))
    have hvi : val D1 i = pair_total d L.length i := by
      rw [hval1 i, if_pos rfl, hpi]
      rfl
    have hvlt : ∀ k, k < i → val D1 k = pair_total d L.length k := by
      intro k hk
      rw [hval1 k, if_neg (by omega), if_neg (by omega)]
      exact hinv.done k hk
    have hvgt : ∀ k, i + 1 ≤ k → k < L.length →
        val D1 k = ∑ m ∈ Finset.range (i + 1), d m k := by
      intro k hk hkn
      rw [hval1 k, if_neg (by omega), if_pos ⟨hk, hkn⟩, hinv.partial_sum k (by omega) hkn,
        Finset.sum_range_succ]
    have hdone1 : ∀ k, k < i + 1 → val D1 k = pair_total d L.length k := by
      intro k hk
      rcases Nat.lt_or_ge k i with hlt | hge
      · exact hvlt k hlt
      · have : k = i := by omega
        rw [this]; exact hvi
    have hread_i : vec_read D1 i = .ok (pair_total d L.length i) := by
      rw [vec_read_eq _ _ (by omega), hvi]
    have hread_ans : vec_read D1 st.ans = .ok (val D1 st.ans) :=
      vec_read_eq _ _ (by rw [hlen1]; exact hinv.ans_lt)
    by_cases hbranch : pair_total d L.length i > val D1 st.ans ∨ i = 0
    · have hnew : OutcastInv L d (i + 1)
          { distances := D1, ans := i, it := some (L.getD i []), confirmed := false } := by
        have hstrict : ∀ k, k < i → pair_total d L.length k < pair_total d L.length i := by
          intro k hk
          have hpos : 0 < i := by omega
          have hans := hinv.ans_lt_pos hpos
          rcases hbranch with hgt | h0
          · rw [hvlt st.ans hans] at hgt
            exact Nat.lt_of_le_of_lt (hinv.ans_max k hk) hgt
          · omega
        constructor
        · exact hlen1
        · exact hdone1
        · exact hvgt
        · exact hi
        · intro _; exact Nat.lt_succ_self _
        · intro _; rfl
        · intro k hk
          rcases Nat.lt_or_ge k i with hlt | hge
          · exact Nat.le_of_lt (hstrict k hlt)
          · have : k = i := by omega
            rw [this]
        · intro _
          constructor
          · intro h; cases h
          · rintro ⟨k, hk, hne, heq⟩
            have hki : k < i := by
              have : k ≠ i := hne
              omega
            have := hstrict k hki
            have heq' : pair_total d L.length k = pair_total d L.length i := heq
            omega
      obtain ⟨st1, hst1, hinv1⟩ := ih (i + 1) _ hrest' hi hnew
      refine ⟨st1, ?_, hinv1⟩
      simp only [outcast_outer, hD1, hread_i, hread_ans, if_pos hbranch]
      exact hst1
    · have hpos : 0 < i := by
        rcases Nat.eq_zero_or_pos i with h0 | hp
        · exact absurd (Or.inr h0) hbranch
        · exact hp
      have hans := hinv.ans_lt_pos hpos
      have hle : pair_total d L.length i ≤ pair_total d L.length st.ans := by
        have : ¬ pair_total d L.length i > val D1 st.ans := fun h => hbranch (Or.inl h)
        rw [hvlt st.ans hans] at this
        omega
      have hnew : OutcastInv L d (i + 1)
          { st with distances := D1,
                    confirmed := decide (pair_total d L.length i = val D1 st.ans) ||
                      st.confirmed } := by
        constructor
        · exact hlen1
        · exact hdone1
        · exact hvgt
        · exact hinv.ans_lt
        · intro _; exact Nat.lt_succ_of_lt hans
        · intro _; exact hinv.it_eq hpos
        · intro k hk
          rcases Nat.lt_or_ge k i with hlt | hge
          · exact hinv.ans_max k hlt
          · have : k = i := by omega
            rw [this]; exact hle
        · intro _
          show (decide (pair_total d L.length i = val D1 st.ans) || st.confirmed) = true ↔ _
          rw [hvlt st.ans hans, Bool.or_eq_true, decide_eq_true_iff, hinv.confirmed_iff hpos]
          constructor
          · rintro (heq | ⟨k, hk, hne, heq⟩)
            · exact ⟨i, Nat.lt_succ_self _, Nat.ne_of_gt hans, heq⟩
            · exact ⟨k, Nat.lt_succ_of_lt hk, hne, heq⟩
          · rintro ⟨k, hk, hne, heq⟩
            rcases Nat.lt_or_ge k i with hlt | hge
            · exact Or.inr ⟨k, hlt, hne, heq⟩
            · have : k = i := by omega
              rw [this] at heq
              exact Or.inl heq
      obtain ⟨st1, hst1, hinv1⟩ := ih (i + 1) _ hrest' hi hnew
      refine ⟨st1, ?_, hinv1⟩
      simp only [outcast_outer, hD1, hread_i, hread_ans, if_neg hbranch]
      exact hst1

/-- C4. `outcast` returns the empty string for a set of 2 or fewer nouns.  For a larger set
whose pairwise distance queries all return a value and whose totals all fit 32 bits, it
returns the noun whose total is strictly greater than every other total when there is one,
and the empty string when the greatest total belongs to more than one noun. -/
theorem outcast_spec (wn : WordNet) (nouns : List Str) :
    (nouns.length ≤ 2 → outcast wn nouns = .ok []) ∧
    ∀ d : Nat → Nat → Nat,
      (∀ i j, i < j → j < nouns.length →
        wn.distance (nouns.getD i []) (nouns.getD j []) = .ok (d i j)) →
      (∀ k, k < nouns.length → pair_total d nouns.length k < two32) →
      2 < nouns.length →
      (∀ i, i < nouns.length →
        (∀ j, j < nouns.length → j ≠ i →
          pair_total d nouns.length j < pair_total d nouns.length i) →
        outcast wn nouns = .ok (nouns.getD i [])) ∧
      ((∃ i j, i < nouns.length ∧ j < nouns.length ∧ i ≠ j ∧
          pair_total d nouns.length i = pair_total d nouns.length j ∧
          ∀ k, k < nouns.length → pair_total d nouns.length k ≤ pair_total d nouns.length i) →
        outcast wn nouns = .ok []) := by
  constructor
  · intro h
    simp [outcast, h]
  · intro d hd hbound hn
    have hinit : OutcastInv nouns d 0 ⟨List.replicate nouns.length 0, 0, none, false⟩ := by
      constructor
      · simp
      · intro k hk; omega
      · intro k _ _
        show val (List.replicate nouns.length 0) k = _
        rw [val_replicate]; simp
      · show 0 < nouns.length
        omega
      · intro h; omega
      · intro h; omega
      · intro k hk; omega
      · intro h; omega
    obtain ⟨st, hst, hinv⟩ := outcast_outer_spec wn nouns d hd hbound nouns 0 _ (by simp)
      (Nat.zero_le _) hinit
    have hpos : 0 < nouns.length := by omega
    have hout : outcast wn nouns =
        if st.confirmed then .ok [] else .ok (nouns.getD st.ans []) := by
      simp only [outcast, if_neg (show ¬ nouns.length ≤ 2 by omega), hst, hinv.it_eq hpos]
    constructor
    · intro i hi hmax
      have hans : st.ans = i := by
        by_contra hne
        have h1 := hmax st.ans hinv.ans_lt hne
        have h2 := hinv.ans_max i hi
        omega
      have hconf : st.confirmed = false := by
        cases hc : st.confirmed with
        | false => rfl
        | true =>
          obtain ⟨k, hk, hne, heq⟩ := (hinv.confirmed_iff hpos).1 hc
          rw [hans] at hne heq
          have := hmax k hk hne
          omega
      rw [hout, hconf, hans]
      rfl
    · rintro ⟨i, j, hi, hj, hij, heq, hmax⟩
      have h1 := hmax st.ans hinv.ans_lt
      have h2 := hinv.ans_max i hi
      have hconf : st.confirmed = true := by
        apply (hinv.confirmed_iff hpos).2
        by_cases hia : i = st.ans
        · exact ⟨j, hj, by omega, by rw [← heq, hia]⟩
        · exact ⟨i, hi, hia, by omega⟩
      rw [hout, hconf]
      rfl

theorem outcast_spec_witness :
    outcast three_nouns [['a'], ['b'], ['c']] = .ok ['b'] :=
  ((outcast_spec three_nouns [['a'], ['b'], ['c']]).2 three_nouns_distance
    (by
      intro i j hij hj
      have hj3 : j < 3 := hj
      interval_cases j <;> interval_cases i <;> decide!)
    (by
      intro k hk
      have hk3 : k < 3 := hk
      interval_cases k <;> decide)
    (by decide)).1 1 (by decide)
    (by
      intro j hj hne
      have hj3 : j < 3 := hj
      interval_cases j
      · decide
      · exact absurd rfl hne
      · decide)

/-! ## WordNet: the concept lines -/

theorem find_aux_skip (c : Char) (p : Str) : ∀ (q : Str) (k : Nat), c ∉ p →
    find_aux c (p ++ q) k = find_aux c q (k + p.length) := by
  induction p with
  | nil => intro q k _; rfl
  | cons x p ih =>
    intro q k hc
    have hx : x ≠ c := fun e => hc (e ▸ List.mem_cons_self _ _)
    have hp : c ∉ p := fun h => hc (List.mem_cons_of_mem _ h)
    show (if x = c then k else find_aux c (p ++ q) (k + 1)) = _
    rw [if_neg hx, ih q (k + 1) hp, List.length_cons,
      show k + 1 + p.length = k + (p.length + 1) by omega]

theorem find_aux_found (c : Char) (p q : Str) (k : Nat) (hc : c ∉ p) :
    find_aux c (p ++ c :: q) k = k + p.length := by
  rw [find_aux_skip c p _ k hc]
  simp [find_aux]

theorem find_aux_ge (c : Char) (l : Str) : ∀ k, find_aux c l k = npos ∨ k ≤ find_aux c l k := by
  induction l with
  | nil => intro k; left; rfl
  | cons x l ih =>
    intro k
    simp only [find_aux]
    split
    · right; exact Nat.le_refl _
    · rcases ih (k + 1) with h | h
      · left; exact h
      · right; omega

theorem find_from_append (p q : Str) (c : Char) :
    find_from (p ++ q) c p.length = find_aux c q p.length := by
  simp [find_from]

theorem char_range_append (p s r : Str) :
    char_range (p ++ (s ++ r)) p.length s.length = .ok s := by
  simp [char_range]

theorem char_range_zero (s r : Str) : char_range (s ++ r) 0 s.length = .ok s := by
  simp [char_range]

theorem char_range_rest (p r : Str) :
    char_range (p ++ r) p.length r.length = .ok r := by
  simp [char_range]

theorem isDigit_ne_comma (c : Char) (h : c.isDigit = true) : c ≠ ',' := by
  intro e
  subst e
  simp [Char.isDigit] at h

theorem takeWhile_all (p : Char → Bool) (l : Str) (h : ∀ c ∈ l, p c = true) :
    l.takeWhile p = l := by
  induction l with
  | nil => rfl
  | cons x l ih =>
    simp only [List.takeWhile_cons, h x (List.mem_cons_self _ _), if_true]
    rw [ih (fun c hc => h c (List.mem_cons_of_mem _ hc))]

theorem string_view_to_unsigned_digits (ds : Str) (hne : ds ≠ [])
    (hd : ∀ c ∈ ds, c.isDigit = true) (hfit : digits_value ds < two32) :
    string_view_to_unsigned ds = .ok (digits_value ds) := by
  simp only [string_view_to_unsigned, takeWhile_all _ ds hd, if_neg hne, if_pos hfit]

theorem join_spaces_no_comma (syns : List Str) (h : ∀ s ∈ syns, ',' ∉ s) :
    ',' ∉ join_spaces syns := by
  induction syns with
  | nil => simp [join_spaces]
  | cons s rest ih =>
    cases rest with
    | nil => simpa [join_spaces] using h s (List.mem_cons_self _ _)
    | cons t rest =>
      simp only [join_spaces, List.mem_append, List.mem_cons, not_or]
      refine ⟨h s (List.mem_cons_self _ _), by decide, ?_⟩
      exact ih (fun x hx => h x (List.mem_cons_of_mem _ hx))

theorem synonyms_loop_exit (line : Str) (id gs fuel sp : Nat) (words : List (Str × List Nat))
    (h : ¬ find_from line ' ' sp < gs) :
    synonyms_loop line id gs fuel sp words = .ok (words, sp) := by
  unfold synonyms_loop
  simp only [if_neg h]

theorem synonyms_loop_step (line : Str) (id gs fuel sp : Nat) (words : List (Str × List Nat))
    (key : Str) (h : find_from line ' ' sp < gs)
    (hkey : char_range line sp ((find_from line ' ' sp + two64 - sp) % two64) = .ok key) :
    synonyms_loop line id gs (fuel + 1) sp words =
      synonyms_loop line id gs fuel ((find_from line ' ' sp + 1) % two64)
        (words_push words key id) := by
  rw [synonyms_loop]
  simp only [if_pos h, hkey]

/-- The loop over the synonyms and the statement after it push every synonym of a
well-formed field, in order. -/
theorem synonyms_loop_spec (line : Str) (id gs : Nat) (gloss : Str) :
    ∀ (syns : List Str) (s pfx : Str) (words : List (Str × List Nat)) (fuel : Nat),
      line = pfx ++ (join_spaces (s :: syns) ++ ',' :: gloss) →
      gs = pfx.length + (join_spaces (s :: syns)).length + 1 →
      (∀ t ∈ s :: syns, ' ' ∉ t) → line.length < npos → syns.length ≤ fuel →
      ∃ w sp key, synonyms_loop line id gs fuel pfx.length words = .ok (w, sp) ∧
        char_range line sp ((gs + two64 - 1 + two64 - sp) % two64) = .ok key ∧
        words_push w key id = (s :: syns).foldl (fun w t => words_push w t id) words := by
  intro syns
  induction syns with
  | nil =>
    intro s pfx words fuel hline hgs hsp hlen _
    simp only [join_spaces] at hline hgs
    have hs : ' ' ∉ s := hsp s (List.mem_cons_self _ _)
    have hlen' : pfx.length + (s.length + (gloss.length + 1)) < npos := by
      have := hlen
      rw [hline] at this
      simpa using this
    have hfind : find_from line ' ' pfx.length = find_aux ' ' gloss gs := by
      rw [hline, find_from_append, find_aux_skip ' ' s _ _ hs]
      show (if ',' = ' ' then _ else find_aux ' ' gloss (pfx.length + s.length + 1)) = _
      rw [if_neg (by decide), hgs]
    have hexit : ¬ find_from line ' ' pfx.length < gs := by
      rw [hfind]
      rcases find_aux_ge ' ' gloss gs with h | h
      · rw [h]
        simp only [npos] at hlen' ⊢
        omega
      · omega
    refine ⟨words, pfx.length, s, synonyms_loop_exit line id gs fuel _ words hexit, ?_, rfl⟩
    have hmod : (gs + two64 - 1 + two64 - pfx.length) % two64 = s.length := by
      simp only [npos] at hlen'
      simp only [two64]
      omega
    rw [hmod, hline]
    exact char_range_append pfx s _
  | cons t rest ih =>
    intro s pfx words fuel hline hgs hsp hlen hfuel
    simp only [join_spaces] at hline hgs
    have hs : ' ' ∉ s := hsp s (List.mem_cons_self _ _)
    have hlen' : pfx.length + (s.length + ((join_spaces (t :: rest)).length +
        (gloss.length + 1) + 1)) < npos := by
      have := hlen
      rw [hline] at this
      simpa using this
    have hfind : find_from line ' ' pfx.length = pfx.length + s.length := by
      rw [hline, find_from_append]
      have : s ++ ' ' :: join_spaces (t :: rest) ++ ',' :: gloss =
          s ++ ' ' :: (join_spaces (t :: rest) ++ ',' :: gloss) := by simp
      rw [this, find_aux_found ' ' s _ _ hs]
    have hlt : find_from line ' ' pfx.length < gs := by
      rw [hfind, hgs]
      simp
      omega
    have hkey : char_range line pfx.length
        ((find_from line ' ' pfx.length + two64 - pfx.length) % two64) = .ok s := by
      have hmod : (pfx.length + s.length + two64 - pfx.length) % two64 = s.length := by
        simp only [npos] at hlen'
        simp only [two64]
        omega
      rw [hfind, hmod, hline]
      have : s ++ ' ' :: join_spaces (t :: rest) ++ ',' :: gloss =
          s ++ (' ' :: join_spaces (t :: rest) ++ ',' :: gloss) := by simp
      rw [this]
      exact char_range_append pfx s _
    obtain ⟨fuel1, rfl⟩ : ∃ f, fuel = f + 1 := by
      simp only [List.length_cons] at hfuel
      exact ⟨fuel - 1, by omega⟩
    have hnext : (find_from line ' ' pfx.length + 1) % two64 = (pfx ++ s ++ [' ']).length := by
      rw [hfind]
      simp only [npos] at hlen'
      simp only [List.length_append, List.length_singleton, two64]
      omega
    obtain ⟨w, sp, key, hloop, hk, hpush⟩ := ih t (pfx ++ s ++ [' ']) (words_push words s id)
      fuel1 (by rw [hline]; simp) (by rw [hgs]; simp; omega)
      (fun x hx => hsp x (List.mem_cons_of_mem _ hx)) hlen
      (by simp only [List.length_cons] at hfuel; omega)
    refine ⟨w, sp, key, ?_, hk, ?_⟩
    · rw [synonyms_loop_step line id gs fuel1 pfx.length words s hlt hkey, hnext]
      exact hloop
    · rw [hpush]
      rfl

theorem length_le_join_spaces (syns : List Str) (h : ∀ s ∈ syns, s ≠ []) :
    syns.length ≤ (join_spaces syns).length + 1 := by
  induction syns with
  | nil => simp
  | cons s rest ih =>
    cases rest with
    | nil => simp
    | cons t rest =>
      have hs : 0 < s.length := List.length_pos.2 (h s (List.mem_cons_self _ _))
      have := ih (fun x hx => h x (List.mem_cons_of_mem _ hx))
      simp only [join_spaces, List.length_cons, List.length_append] at this ⊢
      omega

/-- What the constructor does with one well-formed concept line: every synonym is pushed,
in order, with the id of the line, and the gloss of the id is assigned. -/
theorem synset_line_spec (idtext : Str) (syns : List Str) (gloss : Str)
    (h : ConceptFields idtext syns gloss) (tables : List (Str × List Nat) × List (Nat × Str)) :
    synset_line tables (concept_line idtext syns gloss) =
      .ok (syns.foldl (fun w s => words_push w s (digits_value idtext)) tables.1,
        glosses_assign tables.2 (digits_value idtext) gloss) := by
  obtain ⟨s, rest, rfl⟩ : ∃ s rest, syns = s :: rest := by
    cases syns with
    | nil => exact absurd rfl h.syns_nonempty
    | cons s rest => exact ⟨s, rest, rfl⟩
  have hcomma : ',' ∉ idtext := fun hc => isDigit_ne_comma ',' (h.id_digits ',' hc) rfl
  have hlen := h.length_lt
  have hlen' : idtext.length + ((join_spaces (s :: rest)).length + (gloss.length + 1) + 1)
      < npos := by
    have := hlen
    simpa [concept_line] using this
  have hfind1 : find_from (concept_line idtext (s :: rest) gloss) ',' 0 = idtext.length := by
    simp only [find_from, List.drop_zero, concept_line]
    rw [find_aux_found ',' idtext _ 0 hcomma]
    omega
  have hident : char_range (concept_line idtext (s :: rest) gloss) 0 idtext.length =
      .ok idtext := char_range_zero idtext _
  have hline2 : concept_line idtext (s :: rest) gloss =
      (idtext ++ [',']) ++ (join_spaces (s :: rest) ++ ',' :: gloss) := by
    simp [concept_line]
  have hfind2 : find_from (concept_line idtext (s :: rest) gloss) ',' (idtext.length + 1) =
      idtext.length + 1 + (join_spaces (s :: rest)).length := by
    have hp : idtext.length + 1 = (idtext ++ [',']).length := by simp
    rw [hline2, hp, find_from_append,
      find_aux_found ',' _ _ _ (join_spaces_no_comma _ h.syn_no_comma)]
  have hgs : (idtext.length + 1 + (join_spaces (s :: rest)).length + 1) % two64 =
      (idtext ++ [',']).length + (join_spaces (s :: rest)).length + 1 := by
    simp only [npos] at hlen'
    simp only [List.length_append, List.length_singleton, two64]
    omega
  have hfuel : rest.length ≤ (concept_line idtext (s :: rest) gloss).length := by
    have := length_le_join_spaces (s :: rest) h.syn_nonempty
    simp only [concept_line, List.length_append, List.length_cons] at this ⊢
    omega
  obtain ⟨w, sp, key, hloop, hkey, hpush⟩ :=
    synonyms_loop_spec (concept_line idtext (s :: rest) gloss) (digits_value idtext)
      ((idtext ++ [',']).length + (join_spaces (s :: rest)).length + 1) gloss rest s
      (idtext ++ [',']) tables.1 (concept_line idtext (s :: rest) gloss).length hline2 rfl
      h.syn_no_space hlen hfuel
  have hline3 : concept_line idtext (s :: rest) gloss =
      (idtext ++ ',' :: join_spaces (s :: rest) ++ [',']) ++ gloss := by
    simp [concept_line]
  have hgloss : char_range (concept_line idtext (s :: rest) gloss)
      ((idtext ++ [',']).length + (join_spaces (s :: rest)).length + 1)
      (((concept_line idtext (s :: rest) gloss).length + two64 -
        ((idtext ++ [',']).length + (join_spaces (s :: rest)).length + 1)) % two64) =
      .ok gloss := by
    have hmod : ((concept_line idtext (s :: rest) gloss).length + two64 -
        ((idtext ++ [',']).length + (join_spaces (s :: rest)).length + 1)) % two64 =
        gloss.length := by
      simp only [npos] at hlen'
      simp only [concept_line, List.length_append, List.length_cons, List.length_singleton,
        List.length_nil, two64]
      omega
    have hpl : (idtext ++ [',']).length + (join_spaces (s :: rest)).length + 1 =
        (idtext ++ ',' :: join_spaces (s :: rest) ++ [',']).length := by
      simp
      omega
    rw [hmod, hpl, hline3]
    exact char_range_rest _ gloss
  have hid := string_view_to_unsigned_digits idtext h.id_nonempty h.id_digits h.id_fits
  simp only [synset_line, hfind1, hident, hid, hfind2, hgs, hloop, hkey, hgloss, hpush, bind,
    Except.bind, pure, Except.pure, List.length_append, List.length_singleton]
  simp only [List.length_append, List.length_singleton] at hloop hkey hgloss
  simp only [hloop, hkey, hgloss, hpush]

theorem lookup_map_update {α β : Type} [DecidableEq α] [BEq α] [LawfulBEq α]
    (m : List (α × β)) (key : α) (f : β → β) (l : α) :
    (m.map (fun p => if p.1 = key then (p.1, f p.2) else p)).lookup l =
      if l = key then (m.lookup l).map f else m.lookup l := by
  induction m with
  | nil => simp
  | cons p m ih =>
    obtain ⟨k, b⟩ := p
    by_cases hl : l = k
    · subst hl
      by_cases hk : l = key <;> simp [hk, List.lookup_cons]
    · have hlk : (l == k) = false := by simpa using hl
      have hstep : (List.map (fun p => if p.1 = key then (p.1, f p.2) else p)
          ((k, b) :: m)).lookup l =
          (List.map (fun p => if p.1 = key then (p.1, f p.2) else p) m).lookup l := by
        by_cases hk : k = key
        · subst hk
          simp [List.lookup_cons, hlk]
        · simp [hk, List.lookup_cons, hlk]
      rw [hstep, ih]
      simp [List.lookup_cons, hlk]

theorem lookup_words_push (words : List (Str × List Nat)) (key : Str) (id : Nat) (l : Str) :
    (words_push words key id).lookup l =
      if l = key then some ((words.lookup key).getD [] ++ [id]) else words.lookup l := by
  unfold words_push
  cases hk : words.lookup key with
  | some ids =>
    simp only [lookup_map_update words key (fun v => v ++ [id]) l]
    by_cases hl : l = key
    · subst hl
      simp [hk]
    · simp [hl]
  | none =>
    simp only [List.lookup_append]
    by_cases hl : l = key
    · subst hl
      simp [hk]
    · have : (l == key) = false := by simpa using hl
      simp [hl, List.lookup_cons, this]

theorem lookup_glosses_assign (glosses : List (Nat × Str)) (id : Nat) (text : Str) (k : Nat) :
    (glosses_assign glosses id text).lookup k =
      if k = id then some text else glosses.lookup k := by
  unfold glosses_assign
  cases hk : glosses.lookup id with
  | some old =>
    simp only [lookup_map_update glosses id (fun _ => text) k]
    by_cases hl : k = id
    · subst hl
      simp [hk]
    · simp [hl]
  | none =>
    simp only [List.lookup_append]
    by_cases hl : k = id
    · subst hl
      simp [hk]
    · have : (k == id) = false := by simpa using hl
      simp [hl, List.lookup_cons, this]

theorem words_grow_refl (words : List (Str × List Nat)) : WordsGrow words words :=
  fun _ ids h => ⟨ids, h, fun _ hx => hx⟩

theorem words_grow_trans (w1 w2 w3 : List (Str × List Nat)) (h12 : WordsGrow w1 w2)
    (h23 : WordsGrow w2 w3) : WordsGrow w1 w3 := by
  intro s ids h
  obtain ⟨ids2, h2, hsub2⟩ := h12 s ids h
  obtain ⟨ids3, h3, hsub3⟩ := h23 s ids2 h2
  exact ⟨ids3, h3, fun x hx => hsub3 x (hsub2 x hx)⟩

theorem words_push_grows (words : List (Str × List Nat)) (key : Str) (id : Nat) :
    WordsGrow words (words_push words key id) := by
  intro s ids h
  rw [lookup_words_push]
  by_cases hs : s = key
  · subst hs
    exact ⟨ids ++ [id], by simp [h], fun x hx => List.mem_append_left _ hx⟩
  · exact ⟨ids, by simp [hs, h], fun _ hx => hx⟩

theorem foldl_words_push_grows (id : Nat) (syns : List Str) :
    ∀ words, WordsGrow words (syns.foldl (fun w s => words_push w s id) words) := by
  induction syns with
  | nil => intro words; exact words_grow_refl words
  | cons s rest ih =>
    intro words
    exact words_grow_trans _ _ _ (words_push_grows words s id) (ih _)

theorem foldl_words_push_other (id : Nat) (syns : List Str) (l : Str) (hl : l ∉ syns) :
    ∀ words, (syns.foldl (fun w s => words_push w s id) words).lookup l = words.lookup l := by
  induction syns with
  | nil => intro words; rfl
  | cons s rest ih =>
    intro words
    have h1 : l ≠ s := fun e => hl (e ▸ List.mem_cons_self _ _)
    have h2 : l ∉ rest := fun h => hl (List.mem_cons_of_mem _ h)
    simp only [List.foldl_cons]
    rw [ih h2, lookup_words_push, if_neg h1]

theorem foldl_words_push_mem (id : Nat) (syns : List Str) (s : Str) (hs : s ∈ syns) :
    ∀ words, ∃ ids, (syns.foldl (fun w t => words_push w t id) words).lookup s = some ids ∧
      id ∈ ids := by
  induction syns with
  | nil => cases hs
  | cons t rest ih =>
    intro words
    simp only [List.foldl_cons]
    rcases List.mem_cons.1 hs with rfl | hrest
    · have hpush : (words_push words s id).lookup s =
          some ((words.lookup s).getD [] ++ [id]) := by
        rw [lookup_words_push, if_pos rfl]
      obtain ⟨ids1, h1, hsub⟩ := foldl_words_push_grows id rest (words_push words s id) s _ hpush
      exact ⟨ids1, h1, hsub id (by simp)⟩
    · exact ih hrest _

theorem synonyms_loop_grows (line : Str) (id gs : Nat) :
    ∀ (fuel sp : Nat) (words : List (Str × List Nat)) (r : List (Str × List Nat) × Nat),
      synonyms_loop line id gs fuel sp words = .ok r → WordsGrow words r.1 := by
  intro fuel
  induction fuel with
  | zero =>
    intro sp words r h
    unfold synonyms_loop at h
    simp only at h
    split at h
    · cases h
    · cases h
      exact words_grow_refl words
  | succ fuel ih =>
    intro sp words r h
    unfold synonyms_loop at h
    simp only at h
    split at h
    · split at h
      · cases h
      · exact words_grow_trans _ _ _ (words_push_grows words _ id) (ih _ _ r h)
    · cases h
      exact words_grow_refl words

/-- What the constructor does with any concept line that it accepts: the table of words
only gains ids, and one gloss is assigned, to the id that the line starts with. -/
theorem synset_line_effect (tables tables1 : List (Str × List Nat) × List (Nat × Str))
    (line : Str) (h : synset_line tables line = .ok tables1) :
    WordsGrow tables.1 tables1.1 ∧
      ∃ id text, concept_id line = .ok id ∧ tables1.2 = glosses_assign tables.2 id text := by
  simp only [synset_line, bind, Except.bind, pure, Except.pure] at h
  split at h
  · cases h
  · rename_i identifier hident
    split at h
    · cases h
    · rename_i id hid
      split at h
      · cases h
      · rename_i r hloop
        obtain ⟨words1, sp⟩ := r
        simp only at h
        split at h
        · cases h
        · rename_i key hkey
          split at h
          · cases h
          · rename_i gloss hgloss
            cases h
            refine ⟨?_, id, gloss, ?_, rfl⟩
            · exact words_grow_trans _ _ _ (synonyms_loop_grows line id _ _ _ _ _ hloop)
                (words_push_grows words1 key id)
            · simp only [concept_id, hident, hid]

theorem synsets_fold_effect (lines : List Str) :
    ∀ (tables tables1 : List (Str × List Nat) × List (Nat × Str)),
      lines.foldlM synset_line tables = .ok tables1 →
      WordsGrow tables.1 tables1.1 ∧
        ∀ id, (∀ l ∈ lines, concept_id l ≠ .ok id) →
          tables1.2.lookup id = tables.2.lookup id := by
  induction lines with
  | nil =>
    intro tables tables1 h
    cases h
    exact ⟨words_grow_refl _, fun _ _ => rfl⟩
  | cons line rest ih =>
    intro tables tables1 h
    simp only [List.foldlM_cons, bind, Except.bind] at h
    split at h
    · cases h
    · rename_i t2 hline
      obtain ⟨hgrow, id1, text, hid1, hgl⟩ := synset_line_effect tables t2 line hline
      obtain ⟨hgrow2, hkeep⟩ := ih t2 tables1 h
      refine ⟨words_grow_trans _ _ _ hgrow hgrow2, ?_⟩
      intro id hne
      rw [hkeep id (fun l hl => hne l (List.mem_cons_of_mem _ hl)), hgl, lookup_glosses_assign]
      have : id ≠ id1 := by
        intro e
        subst e
        exact hne line (List.mem_cons_self _ _) hid1
      rw [if_neg this]

theorem ctor_tables (synsets hypernyms : List Str) (wn : WordNet)
    (h : WordNet.ctor synsets hypernyms = .ok wn) :
    (synsets.filter (fun line => line ≠ [])).foldlM synset_line ([], []) =
      .ok (wn.words, wn.glosses) := by
  simp only [WordNet.ctor, bind, Except.bind, pure, Except.pure] at h
  split at h
  · cases h
  · rename_i tables htables
    obtain ⟨words, glosses⟩ := tables
    simp only at h
    split at h
    · cases h
    · cases h
      exact htables

theorem concept_line_ne_nil (idtext : Str) (syns : List Str) (gloss : Str) :
    concept_line idtext syns gloss ≠ [] := by
  simp [concept_line]

/-- The state of the tables around one well-formed concept line of the concept source. -/
theorem ctor_around_line (idtext : Str) (syns : List Str) (gloss : Str)
    (h : ConceptFields idtext syns gloss) (pre post hypernyms : List Str) (wn : WordNet)
    (hctor : WordNet.ctor (pre ++ concept_line idtext syns gloss :: post) hypernyms = .ok wn) :
    ∃ tables : List (Str × List Nat) × List (Nat × Str),
      (post.filter (fun line => line ≠ [])).foldlM synset_line
        (syns.foldl (fun w s => words_push w s (digits_value idtext)) tables.1,
          glosses_assign tables.2 (digits_value idtext) gloss) = .ok (wn.words, wn.glosses) := by
  have hfold := ctor_tables _ _ _ hctor
  have hfilter : (concept_line idtext syns gloss :: post).filter (fun line => line ≠ []) =
      concept_line idtext syns gloss :: post.filter (fun line => line ≠ []) := by
    rw [List.filter_cons]
    simp [concept_line_ne_nil]
  rw [List.filter_append, hfilter, List.foldlM_append] at hfold
  simp only [bind, Except.bind] at hfold
  split at hfold
  · cases hfold
  · rename_i t1 _
    refine ⟨t1, ?_⟩
    simp only [List.foldlM_cons, synset_line_spec idtext syns gloss h t1, bind, Except.bind]
      at hfold
    exact hfold

/-- C10 (amended). For a concept line `id,s1 ... sk,gloss` with a decimal `unsigned` id and
synonyms that are non-empty and free of spaces and commas: the constructor pushes the id to
every synonym, in order, and to no other word, and assigns the text after the second comma
as the gloss of the id; in every `WordNet` that construction returns each synonym is a noun
whose id list holds the id, and the gloss of the id is that text when no later concept line
starts with the same id; an empty line changes nothing. -/
theorem concept_line_spec (idtext : Str) (syns : List Str) (gloss : Str)
    (h : ConceptFields idtext syns gloss) :
    (∀ tables : List (Str × List Nat) × List (Nat × Str),
      synset_line tables (concept_line idtext syns gloss) =
        .ok (syns.foldl (fun w s => words_push w s (digits_value idtext)) tables.1,
          glosses_assign tables.2 (digits_value idtext) gloss) ∧
      ∀ l, l ∉ syns →
        (syns.foldl (fun w s => words_push w s (digits_value idtext)) tables.1).lookup l =
          tables.1.lookup l) ∧
    (∀ (pre post hypernyms : List Str) (wn : WordNet),
      WordNet.ctor (pre ++ concept_line idtext syns gloss :: post) hypernyms = .ok wn →
      (∀ s ∈ syns, wn.is_noun s = true ∧
        ∃ ids, wn.words.lookup s = some ids ∧ digits_value idtext ∈ ids) ∧
      ((∀ l ∈ post, concept_id l ≠ .ok (digits_value idtext)) →
        wn.glosses.lookup (digits_value idtext) = some gloss)) ∧
    (∀ pre post hypernyms : List Str,
      WordNet.ctor (pre ++ [] :: post) hypernyms = WordNet.ctor (pre ++ post) hypernyms) := by
  refine ⟨?_, ?_, ?_⟩
  · intro tables
    exact ⟨synset_line_spec idtext syns gloss h tables,
      fun l hl => foldl_words_push_other _ syns l hl _⟩
  · intro pre post hypernyms wn hctor
    obtain ⟨t1, hfold⟩ := ctor_around_line idtext syns gloss h pre post hypernyms wn hctor
    obtain ⟨hgrow, hkeep⟩ := synsets_fold_effect _ _ _ hfold
    constructor
    · intro s hs
      obtain ⟨ids, hids, hmem⟩ := foldl_words_push_mem (digits_value idtext) syns s hs t1.1
      obtain ⟨ids1, hids1, hsub⟩ := hgrow s ids hids
      exact ⟨by simp only [WordNet.is_noun]; rw [hids1]; rfl, ids1, hids1, hsub _ hmem⟩
    · intro hpost
      have := hkeep (digits_value idtext)
        (fun l hl => hpost l (List.mem_of_mem_filter hl))
      simp only at this
      rw [this, lookup_glosses_assign, if_pos rfl]
  · intro pre post hypernyms
    simp [WordNet.ctor, List.filter_append]

theorem concept_line_spec_witness :
    (∀ tables : List (Str × List Nat) × List (Nat × Str),
      synset_line tables (concept_line ['7'] [['a'], ['b', 'c']] ['g', ',', ' ', 'h']) =
        .ok ([['a'], ['b', 'c']].foldl (fun w s => words_push w s (digits_value ['7'])) tables.1,
          glosses_assign tables.2 (digits_value ['7']) ['g', ',', ' ', 'h']) ∧
      ∀ l, l ∉ [['a'], ['b', 'c']] →
        ([['a'], ['b', 'c']].foldl (fun w s => words_push w s (digits_value ['7']))
          tables.1).lookup l = tables.1.lookup l) ∧
    (∀ (pre post hypernyms : List Str) (wn : WordNet),
      WordNet.ctor (pre ++ concept_line ['7'] [['a'], ['b', 'c']] ['g', ',', ' ', 'h'] :: post)
        hypernyms = .ok wn →
      (∀ s ∈ [['a'], ['b', 'c']], wn.is_noun s = true ∧
        ∃ ids, wn.words.lookup s = some ids ∧ digits_value ['7'] ∈ ids) ∧
      ((∀ l ∈ post, concept_id l ≠ .ok (digits_value ['7'])) →
        wn.glosses.lookup (digits_value ['7']) = some ['g', ',', ' ', 'h'])) ∧
    (∀ pre post hypernyms : List Str,
      WordNet.ctor (pre ++ [] :: post) hypernyms = WordNet.ctor (pre ++ post) hypernyms) :=
  concept_line_spec ['7'] [['a'], ['b', 'c']] ['g', ',', ' ', 'h']
    ⟨by decide, by decide, by decide, by decide, by decide, by decide, by decide, by decide⟩

/-- C10 (as stated, refuted). The concept lines `1,a,x` and `1,b,y` are both of the form the
claim describes and carry the same id; after construction the gloss stored for the id 1 is
`y`, the text of the second line, not the text `x` after the second comma of the first. -/
theorem concept_gloss_replaced :
    ConceptFields ['1'] [['a']] ['x'] ∧ ConceptFields ['1'] [['b']] ['y'] ∧
    digits_value ['1'] = 1 ∧
    ∃ wn, WordNet.ctor [concept_line ['1'] [['a']] ['x'], concept_line ['1'] [['b']] ['y']] []
        = .ok wn ∧
      wn.glosses.lookup 1 = some ['y'] ∧ wn.glosses.lookup 1 ≠ some ['x'] :=
  ⟨⟨by decide, by decide, by decide, by decide, by decide, by decide, by decide, by decide⟩,
    ⟨by decide, by decide, by decide, by decide, by decide, by decide, by decide, by decide⟩,
    by decide,
    ⟨[['1', ',', 'a', ',', 'x'], ['1', ',', 'b', ',', 'y']], [(1, ['y'])],
      [(['a'], [1]), (['b'], [1])], Digraph.empty.extend 2⟩,
    by decide!, by decide, by decide⟩

/-! ## WordNet: the generalization lines -/

theorem find_aux_none (c : Char) (l : Str) : ∀ k, c ∉ l → find_aux c l k = npos := by
  induction l with
  | nil => intro k _; rfl
  | cons x l ih =>
    intro k hc
    have hx : x ≠ c := fun e => hc (e ▸ List.mem_cons_self _ _)
    show (if x = c then k else find_aux c l (k + 1)) = npos
    rw [if_neg hx]
    exact ih (k + 1) (fun h => hc (List.mem_cons_of_mem _ h))

theorem DecimalUnsigned.no_comma (s : Str) (h : DecimalUnsigned s) : ',' ∉ s :=
  fun hc => isDigit_ne_comma ',' (h.digits ',' hc) rfl

theorem DecimalUnsigned.parse (s : Str) (h : DecimalUnsigned s) :
    string_view_to_unsigned s = .ok (digits_value s) :=
  string_view_to_unsigned_digits s h.nonempty h.digits h.fits

theorem targets_loop_exit (line : Str) (id fuel sp : Nat) (g : Digraph)
    (h : ¬ find_from line ',' sp < line.length) :
    targets_loop line id fuel sp g = .ok (g, sp) := by
  unfold targets_loop
  simp only [if_neg h]

theorem targets_loop_step (line : Str) (id fuel sp target : Nat) (g g1 : Digraph) (field : Str)
    (h : find_from line ',' sp < line.length)
    (hfield : char_range line sp ((find_from line ',' sp + two64 - sp) % two64) = .ok field)
    (htarget : string_view_to_unsigned field = .ok target)
    (hadd : g.add_edge id target = .ok g1) :
    targets_loop line id (fuel + 1) sp g =
      targets_loop line id fuel ((find_from line ',' sp + 1) % two64) g1 := by
  rw [targets_loop]
  simp only [if_pos h, hfield, htarget, hadd]

theorem foldlM_add_edge_cons (g g1 : Digraph) (e : Nat × Nat) (es : List (Nat × Nat))
    (h : g.add_edge e.1 e.2 = .ok g1) :
    (e :: es).foldlM (fun g e => g.add_edge e.1 e.2) g =
      es.foldlM (fun g e => g.add_edge e.1 e.2) g1 := by
  simp only [List.foldlM_cons, h, bind, Except.bind]

theorem targets_loop_step_error (line : Str) (id fuel sp target : Nat) (g : Digraph)
    (field : Str) (e : Error) (h : find_from line ',' sp < line.length)
    (hfield : char_range line sp ((find_from line ',' sp + two64 - sp) % two64) = .ok field)
    (htarget : string_view_to_unsigned field = .ok target)
    (hadd : g.add_edge id target = .error e) :
    targets_loop line id (fuel + 1) sp g = .error e := by
  rw [targets_loop]
  simp only [if_pos h, hfield, htarget, hadd]

theorem foldlM_add_edge_cons_error (g : Digraph) (e : Nat × Nat) (es : List (Nat × Nat))
    (err : Error) (h : g.add_edge e.1 e.2 = .error err) :
    (e :: es).foldlM (fun g e => g.add_edge e.1 e.2) g = .error err := by
  simp only [List.foldlM_cons, h, bind, Except.bind]

/-- The loop over the targets and the statement after it make one `add_edge` call for each
field of a well-formed line, in order, and stop at the first call that is undefined. -/
theorem targets_loop_spec (line : Str) (idtext : Str) :
    ∀ (targets : List Str) (t pfx : Str) (g : Digraph) (fuel : Nat),
      line = pfx ++ join_commas (t :: targets) →
      (∀ x ∈ t :: targets, DecimalUnsigned x) → line.length < npos →
      targets.length ≤ fuel →
      (∃ e, targets_loop line (digits_value idtext) fuel pfx.length g = .error e ∧
        (line_edges idtext (t :: targets)).foldlM (fun g e => g.add_edge e.1 e.2) g =
          .error e) ∨
      ∃ g1 sp field target,
        targets_loop line (digits_value idtext) fuel pfx.length g = .ok (g1, sp) ∧
        char_range line sp ((line.length + two64 - sp) % two64) = .ok field ∧
        string_view_to_unsigned field = .ok target ∧
        g1.add_edge (digits_value idtext) target =
          (line_edges idtext (t :: targets)).foldlM (fun g e => g.add_edge e.1 e.2) g := by
  intro targets
  induction targets with
  | nil =>
    intro t pfx g fuel hline hok hlen _
    right
    simp only [join_commas] at hline
    have ht := hok t (List.mem_cons_self _ _)
    have hlen' : pfx.length + t.length < npos := by
      have := hlen
      rw [hline] at this
      simpa using this
    have hfind : find_from line ',' pfx.length = npos := by
      rw [hline, find_from_append, find_aux_none ',' t _ ht.no_comma]
    have hexit : ¬ find_from line ',' pfx.length < line.length := by
      rw [hfind]
      omega
    have hmod : (line.length + two64 - pfx.length) % two64 = t.length := by
      rw [hline]
      simp only [npos] at hlen'
      simp only [List.length_append, two64]
      omega
    refine ⟨g, pfx.length, t, digits_value t,
      targets_loop_exit line _ fuel _ g hexit, ?_, ht.parse, ?_⟩
    · rw [hmod, hline]
      exact char_range_rest pfx t
    · show _ = (g.add_edge (digits_value idtext) (digits_value t) >>= fun g1 => pure g1)
      cases g.add_edge (digits_value idtext) (digits_value t) <;> rfl
  | cons t1 rest ih =>
    intro t pfx g fuel hline hok hlen hfuel
    simp only [join_commas] at hline
    have ht := hok t (List.mem_cons_self _ _)
    have hlen' : pfx.length + (t.length + ((join_commas (t1 :: rest)).length + 1)) < npos := by
      have := hlen
      rw [hline] at this
      simpa using this
    have hfind : find_from line ',' pfx.length = pfx.length + t.length := by
      rw [hline, find_from_append, find_aux_found ',' t _ _ ht.no_comma]
    have hlt : find_from line ',' pfx.length < line.length := by
      rw [hfind, hline]
      simp
    have hfield : char_range line pfx.length
        ((find_from line ',' pfx.length + two64 - pfx.length) % two64) = .ok t := by
      have hmod : (pfx.length + t.length + two64 - pfx.length) % two64 = t.length := by
        simp only [npos] at hlen'
        simp only [two64]
        omega
      rw [hfind, hmod, hline]
      exact char_range_append pfx t _
    obtain ⟨fuel1, rfl⟩ : ∃ f, fuel = f + 1 := by
      simp only [List.length_cons] at hfuel
      exact ⟨fuel - 1, by omega⟩
    have hnext : (find_from line ',' pfx.length + 1) % two64 = (pfx ++ t ++ [',']).length := by
      rw [hfind]
      simp only [npos] at hlen'
      simp only [List.length_append, List.length_singleton, two64]
      omega
    have hcons : line_edges idtext (t :: t1 :: rest) =
        (digits_value idtext, digits_value t) :: line_edges idtext (t1 :: rest) := rfl
    cases hadd : g.add_edge (digits_value idtext) (digits_value t) with
    | error e =>
      left
      refine ⟨e, targets_loop_step_error line _ fuel1 pfx.length (digits_value t) g t e hlt
        hfield ht.parse hadd, ?_⟩
      rw [hcons]
      exact foldlM_add_edge_cons_error g _ _ e hadd
    | ok g1 =>
      have hstep := targets_loop_step line _ fuel1 pfx.length (digits_value t) g g1 t hlt
        hfield ht.parse hadd
      rw [hnext] at hstep
      rcases ih t1 (pfx ++ t ++ [',']) g1 fuel1
        (by rw [hline]; simp) (fun x hx => hok x (List.mem_cons_of_mem _ hx)) hlen
        (by simp only [List.length_cons] at hfuel; omega) with
        ⟨e, hloop, hfold⟩ | ⟨g2, sp, field, target, hloop, hf, hp, hlast⟩
      · left
        refine ⟨e, by rw [hstep]; exact hloop, ?_⟩
        rw [hcons, foldlM_add_edge_cons g g1 _ _ hadd]
        exact hfold
      · right
        refine ⟨g2, sp, field, target, by rw [hstep]; exact hloop, hf, hp, ?_⟩
        rw [hlast, hcons, foldlM_add_edge_cons g g1 _ _ hadd]

theorem length_le_join_commas (targets : List Str) (h : ∀ s ∈ targets, s ≠ []) :
    targets.length ≤ (join_commas targets).length + 1 := by
  induction targets with
  | nil => simp
  | cons s rest ih =>
    cases rest with
    | nil => simp
    | cons t rest =>
      have hs : 0 < s.length := List.length_pos.2 (h s (List.mem_cons_self _ _))
      have := ih (fun x hx => h x (List.mem_cons_of_mem _ hx))
      simp only [join_commas, List.length_cons, List.length_append] at this ⊢
      omega

/-- What the constructor does with one well-formed generalization line: the `add_edge` calls
of its edges, in order, up to the first one that is undefined. -/
theorem hypernym_line_spec (idtext : Str) (targets : List Str)
    (h : GeneralizationFields idtext targets) (g : Digraph) :
    hypernym_line g (generalization_line idtext targets) =
      (line_edges idtext targets).foldlM (fun g e => g.add_edge e.1 e.2) g := by
  obtain ⟨t, rest, rfl⟩ : ∃ t rest, targets = t :: rest := by
    cases targets with
    | nil => exact absurd rfl h.targets_nonempty
    | cons t rest => exact ⟨t, rest, rfl⟩
  have hlen := h.length_lt
  have hlen' : idtext.length + ((join_commas (t :: rest)).length + 1) < npos := by
    have := hlen
    simpa [generalization_line] using this
  have hne : generalization_line idtext (t :: rest) ≠ [] := by
    simp [generalization_line]
  have hfind1 : find_from (generalization_line idtext (t :: rest)) ',' 0 = idtext.length := by
    simp only [find_from, List.drop_zero, generalization_line]
    rw [find_aux_found ',' idtext _ 0 h.id_ok.no_comma]
    omega
  have hlt : idtext.length < (generalization_line idtext (t :: rest)).length := by
    simp [generalization_line]
  have hident : char_range (generalization_line idtext (t :: rest)) 0 idtext.length =
      .ok idtext := char_range_zero idtext _
  have hline2 : generalization_line idtext (t :: rest) =
      (idtext ++ [',']) ++ join_commas (t :: rest) := by
    simp [generalization_line]
  have hfuel : rest.length ≤ (generalization_line idtext (t :: rest)).length := by
    have := length_le_join_commas (t :: rest) (fun s hs => (h.targets_ok s hs).nonempty)
    simp only [generalization_line, List.length_append, List.length_cons] at this ⊢
    omega
  have hpl : (idtext ++ [',']).length = idtext.length + 1 := by simp
  rcases targets_loop_spec (generalization_line idtext (t :: rest)) idtext rest t
      (idtext ++ [',']) g (generalization_line idtext (t :: rest)).length hline2
      h.targets_ok hlen hfuel with
    ⟨e, hloop, hfold⟩ | ⟨g1, sp, field, target, hloop, hfield, hparse, hlast⟩
  · rw [hpl] at hloop
    simp only [hypernym_line, if_neg hne, hfind1, if_pos hlt, hident, h.id_ok.parse, hloop,
      bind, Except.bind]
    exact hfold.symm
  · rw [hpl] at hloop
    simp only [hypernym_line, if_neg hne, hfind1, if_pos hlt, hident, h.id_ok.parse, hloop,
      hfield, hparse, bind, Except.bind]
    exact hlast

theorem hypernym_line_no_comma (line : Str) (g : Digraph) (h : ',' ∉ line)
    (hlen : line.length < npos) : hypernym_line g line = .ok g := by
  unfold hypernym_line
  split
  · rfl
  · have hfind : find_from line ',' 0 = npos := by
      simp only [find_from, List.drop_zero]
      exact find_aux_none ',' line 0 h
    simp only [hfind]
    rw [if_neg (by omega)]

/-- What is known of a graph that `add_edge` returns, in terms of adjacency lists. -/
theorem add_edge_adj (g g1 : Digraph) (h : g.Inv) (v w : Nat) (hv : v < two32)
    (hw : w < two32) (hok : g.add_edge v w = .ok g1) :
    ∃ iv iw, g1.Inv ∧ g1.internal v = some iv ∧ g1.internal w = some iw ∧
      g1.adj iv = g.adj iv ++ [iw] ∧ (∀ j, j ≠ iv → g1.adj j = g.adj j) ∧
      (∀ e i, g.internal e = some i → g1.internal e = some i) ∧
      (∀ e, e ∈ g1.node_map ↔ e ∈ g.node_map ∨ e = v ∨ e = w) ∧
      g.capacity ≤ g1.capacity := by
  obtain ⟨iv, iw, k, hinv, hlv, hlw, hgraph, hlt, hkeep, hmem, hcap⟩ :=
    Digraph.add_edge_of_ok g g1 h v w hv hw hok
  refine ⟨iv, iw, hinv, hlv, hlw, ?_, ?_, hkeep, hmem, hcap⟩
  · simp only [Digraph.adj]
    rw [hgraph, List.getElem?_set_self hlt]
    rfl
  · intro j hj
    simp only [Digraph.adj]
    rw [hgraph, List.getElem?_set_ne (Ne.symm hj)]
    rcases Nat.lt_or_ge j (g.graph ++ List.replicate k []).length with hjl | hjl
    · rw [Digraph.getElem?_append_replicate_nil g.graph k j hjl]
      rfl
    · rw [List.getElem?_eq_none hjl, List.getElem?_eq_none]
      simp only [List.length_append] at hjl
      omega

/-- What a run of `add_edge` calls from one vertex does: the indices of the targets are
appended to the adjacency list of that vertex, in order, and nothing else changes. -/
theorem fold_from_spec (v : Nat) (hv : v < two32) (ws : List Nat) :
    ∀ (g g1 : Digraph) (iv : Nat), g.Inv → (∀ w ∈ ws, w < two32) →
      g.internal v = some iv → ws.foldlM (fun g w => g.add_edge v w) g = .ok g1 →
      g1.Inv ∧ (∀ e i, g.internal e = some i → g1.internal e = some i) ∧
      (∀ e, e ∈ g1.node_map ↔ e ∈ g.node_map ∨ e ∈ ws) ∧
      ∃ iws, ws.map g1.internal = iws.map some ∧ g1.adj iv = g.adj iv ++ iws ∧
        ∀ j, j ≠ iv → g1.adj j = g.adj j := by
  induction ws with
  | nil =>
    intro g g1 iv h _ _ hfold
    cases hfold
    exact ⟨h, fun _ _ he => he, by simp, [], rfl, by simp, fun _ _ => rfl⟩
  | cons w rest ih =>
    intro g g1 iv h hb hiv hfold
    simp only [List.foldlM_cons, bind, Except.bind] at hfold
    cases hadd : g.add_edge v w with
    | error err =>
      rw [hadd] at hfold
      cases hfold
    | ok g2 =>
      rw [hadd] at hfold
      obtain ⟨iv2, iw, hinv2, hlv, hlw, hadj, hother, hkeep, hmem, -⟩ :=
        add_edge_adj g g2 h v w hv (hb w (List.mem_cons_self _ _)) hadd
      have hiv2 : iv2 = iv := by
        have := hkeep v iv hiv
        rw [hlv] at this
        exact Option.some.inj this
      subst hiv2
      obtain ⟨hinv1, hkeep1, hmem1, iws, hmap, hadj1, hother1⟩ :=
        ih g2 g1 iv2 hinv2 (fun x hx => hb x (List.mem_cons_of_mem _ hx)) hlv hfold
      have hvm : v ∈ g.node_map := (h.mem_node_map g v).2 ⟨iv2, hiv⟩
      refine ⟨hinv1, fun e i he => hkeep1 e i (hkeep e i he), ?_, iw :: iws, ?_, ?_, ?_⟩
      · intro e
        rw [hmem1, hmem]
        simp only [List.mem_cons]
        constructor
        · rintro ((he | rfl | rfl) | he)
          · exact Or.inl he
          · exact Or.inl hvm
          · exact Or.inr (Or.inl rfl)
          · exact Or.inr (Or.inr he)
        · rintro (he | rfl | he)
          · exact Or.inl (Or.inl he)
          · exact Or.inl (Or.inr (Or.inr rfl))
          · exact Or.inr he
      · simp only [List.map_cons, hmap, hkeep1 w iw hlw]
      · rw [hadj1, hadj, List.append_assoc]
        rfl
      · intro j hj
        rw [hother1 j hj, hother j hj]

theorem foldlM_line_edges (idtext : Str) (targets : List Str) (g : Digraph) :
    (line_edges idtext targets).foldlM (fun g e => g.add_edge e.1 e.2) g =
      (targets.map digits_value).foldlM (fun g w => g.add_edge (digits_value idtext) w) g := by
  induction targets generalizing g with
  | nil => rfl
  | cons t rest ih =>
    show ((digits_value idtext, digits_value t) :: line_edges idtext rest).foldlM _ g = _
    simp only [List.map_cons, List.foldlM_cons]
    congr 1
    funext g1
    exact ih g1

theorem run_add_edges (es : List (Nat × Nat)) : ∀ g : Digraph,
    g.run (es.map (fun e => Call.add_edge e.1 e.2)) =
      es.foldlM (fun g e => g.add_edge e.1 e.2) g := by
  induction es with
  | nil => intro g; rfl
  | cons e rest ih =>
    intro g
    simp only [List.map_cons, Digraph.run, Digraph.call, List.foldlM_cons, bind, Except.bind]
    cases g.add_edge e.1 e.2 with
    | error err => rfl
    | ok g1 => exact ih g1

/-- What a well-formed generalization line has done to the hierarchy when the constructor
gets past it. -/
theorem hypernym_line_content (idtext : Str) (targets : List Str)
    (h : GeneralizationFields idtext targets) (g g1 : Digraph) (hg : g.Inv)
    (hok : hypernym_line g (generalization_line idtext targets) = .ok g1) :
    g1.Inv ∧ (∀ e i, g.internal e = some i → g1.internal e = some i) ∧
    (∀ e, e ∈ g1.node_map ↔
      e ∈ g.node_map ∨ e = digits_value idtext ∨ e ∈ targets.map digits_value) ∧
    ∃ iv iws, g1.internal (digits_value idtext) = some iv ∧
      (targets.map digits_value).map g1.internal = iws.map some ∧
      g1.adj iv = g.adj iv ++ iws ∧ ∀ j, j ≠ iv → g1.adj j = g.adj j := by
  rw [hypernym_line_spec idtext targets h g, foldlM_line_edges] at hok
  obtain ⟨t, rest, rfl⟩ : ∃ t rest, targets = t :: rest := by
    cases targets with
    | nil => exact absurd rfl h.targets_nonempty
    | cons t rest => exact ⟨t, rest, rfl⟩
  have hv := h.id_ok.fits
  have hb : ∀ w ∈ (t :: rest).map digits_value, w < two32 := by
    intro w hw
    obtain ⟨x, hx, rfl⟩ := List.mem_map.1 hw
    exact (h.targets_ok x hx).fits
  simp only [List.map_cons, List.foldlM_cons, bind, Except.bind] at hok
  cases hadd : g.add_edge (digits_value idtext) (digits_value t) with
  | error err =>
    rw [hadd] at hok
    cases hok
  | ok g2 =>
    rw [hadd] at hok
    obtain ⟨iv, iw, hinv2, hlv, hlw, hadj, hother, hkeep, hmem, -⟩ :=
      add_edge_adj g g2 hg _ _ hv (hb _ (by simp)) hadd
    obtain ⟨hinv1, hkeep1, hmem1, iws, hmap, hadj1, hother1⟩ :=
      fold_from_spec _ hv (rest.map digits_value) g2 g1 iv hinv2
        (fun w hw => hb w (by simp only [List.map_cons]; exact List.mem_cons_of_mem _ hw))
        hlv hok
    refine ⟨hinv1, fun e i he => hkeep1 e i (hkeep e i he), ?_, iv, iw :: iws,
      hkeep1 _ iv hlv, ?_, ?_, ?_⟩
    · intro e
      rw [hmem1, hmem]
      simp only [List.map_cons, List.mem_cons]
      tauto
    · simp only [List.map_cons, hmap, hkeep1 _ iw hlw]
    · rw [hadj1, hadj, List.append_assoc]
      rfl
    · intro j hj
      rw [hother1 j hj, hother j hj]

/-- A well-formed generalization line is defined when the vertices of the hierarchy and the
ids of the line, counted once each, fit the capacity of `graph`. -/
theorem hypernym_line_defined (idtext : Str) (targets : List Str)
    (h : GeneralizationFields idtext targets) (g : Digraph) (hg : g.Inv)
    (hroom : (g.node_map.toFinset ∪
      (digits_value idtext :: targets.map digits_value).toFinset).card ≤ g.capacity) :
    ∃ g1, hypernym_line g (generalization_line idtext targets) = .ok g1 := by
  rw [hypernym_line_spec idtext targets h g, ← run_add_edges]
  apply run_defined _ g hg
  · intro c hc e he
    obtain ⟨p, hp, rfl⟩ := List.mem_map.1 hc
    obtain ⟨t, ht, rfl⟩ := List.mem_map.1 hp
    simp only [Call.ids, List.mem_cons, List.mem_singleton, List.not_mem_nil, or_false] at he
    rcases he with rfl | rfl
    · exact h.id_ok.fits
    · exact (h.targets_ok t ht).fits
  · refine Nat.le_trans (Finset.card_le_card ?_) hroom
    intro x hx
    simp only [Finset.mem_union, List.mem_toFinset, List.mem_flatten, List.mem_map,
      line_edges] at hx
    simp only [Finset.mem_union, List.mem_toFinset, List.mem_cons, List.mem_map]
    rcases hx with hx | ⟨l, ⟨c, ⟨p, ⟨t, ht, rfl⟩, rfl⟩, rfl⟩, hxl⟩
    · exact Or.inl hx
    · simp only [Call.ids, List.mem_cons, List.mem_singleton, List.not_mem_nil,
        or_false] at hxl
      rcases hxl with rfl | rfl
      · exact Or.inr (Or.inl rfl)
      · exact Or.inr (Or.inr ⟨t, ht, rfl⟩)

/-- C11. With the concept line `1,a,x` the constructor reserves one vertex, and the
generalization line `1,2` is undefined: `build(2)` moves the elements of `graph` after the
reference `graph[0]` was formed, so construction returns no `WordNet`.  On a hierarchy
with room for three vertices the line `5,6,7,6` adds the edges from 5 to 6, to 7 and to 6
again.  A generalization
line `id,t1,...,tm` of decimal `unsigned` fields, m >= 1, makes the constructor call
`add_edge(id, t1)`, ..., `add_edge(id, tm)`, in that order and nothing else.  The calls
return when the ids fit the capacity; when they return, the hierarchy has gained the ids of
the line as vertices, the indices of `t1`, ..., `tm` are appended in that order to the
adjacency list of `id`, and no other adjacency list and no index has changed.  A line
without comma (only an id) and an empty line leave the hierarchy as it is. -/
theorem generalization_line_undefined_without_room :
    WordNet.ctor lone_synsets lone_hypernyms = .error .undefined ∧
    hypernym_line (Digraph.empty.extend 3) (generalization_line ['5'] [['6'], ['7'], ['6']]) =
      .ok ⟨[[1, 2, 1], [], []], [(5, 0), (6, 1), (7, 2)], [5, 6, 7], 3⟩ ∧
    (∀ (idtext : Str) (targets : List Str) (g : Digraph),
      GeneralizationFields idtext targets →
      hypernym_line g (generalization_line idtext targets) =
        (line_edges idtext targets).foldlM (fun g e => g.add_edge e.1 e.2) g) ∧
    (∀ (idtext : Str) (targets : List Str) (g : Digraph),
      GeneralizationFields idtext targets → g.Inv →
      (g.node_map.toFinset ∪
        (digits_value idtext :: targets.map digits_value).toFinset).card ≤ g.capacity →
      ∃ g1, hypernym_line g (generalization_line idtext targets) = .ok g1) ∧
    (∀ (idtext : Str) (targets : List Str) (g g1 : Digraph),
      GeneralizationFields idtext targets → g.Inv →
      hypernym_line g (generalization_line idtext targets) = .ok g1 →
      g1.Inv ∧ (∀ e i, g.internal e = some i → g1.internal e = some i) ∧
      (∀ e, e ∈ g1.node_map ↔
        e ∈ g.node_map ∨ e = digits_value idtext ∨ e ∈ targets.map digits_value) ∧
      ∃ iv iws, g1.internal (digits_value idtext) = some iv ∧
        (targets.map digits_value).map g1.internal = iws.map some ∧
        g1.adj iv = g.adj iv ++ iws ∧ ∀ j, j ≠ iv → g1.adj j = g.adj j) ∧
    (∀ (line : Str) (g : Digraph), ',' ∉ line → line.length < npos →
      hypernym_line g line = .ok g) ∧
    (∀ g : Digraph, hypernym_line g [] = .ok g) := by
  refine ⟨by decide!, by decide!, ?_, ?_, ?_, hypernym_line_no_comma, fun g => rfl⟩
  · intro idtext targets g h
    exact hypernym_line_spec idtext targets h g
  · intro idtext targets g h hg hroom
    exact hypernym_line_defined idtext targets h g hg hroom
  · intro idtext targets g g1 h hg hok
    exact hypernym_line_content idtext targets h g g1 hg hok

/-! ## WordNet: what construction establishes -/

theorem string_view_to_unsigned_lt (sv : Str) (n : Nat)
    (h : string_view_to_unsigned sv = .ok n) : n < two32 := by
  unfold string_view_to_unsigned at h
  simp only at h
  split at h
  · cases h
  · split at h
    · cases h
      assumption
    · cases h

theorem add_edge_inv (g g1 : Digraph) (v w : Nat) (hg : g.Inv) (hv : v < two32)
    (hw : w < two32) (h : g.add_edge v w = .ok g1) : g1.Inv := by
  obtain ⟨_, _, _, hinv, _⟩ := Digraph.add_edge_of_ok g g1 hg v w hv hw h
  exact hinv

theorem targets_loop_inv (line : Str) (id : Nat) (hid : id < two32) :
    ∀ (fuel sp : Nat) (g : Digraph) (r : Digraph × Nat), g.Inv →
      targets_loop line id fuel sp g = .ok r → r.1.Inv := by
  intro fuel
  induction fuel with
  | zero =>
    intro sp g r hg h
    unfold targets_loop at h
    simp only at h
    split at h
    · cases h
    · cases h
      exact hg
  | succ fuel ih =>
    intro sp g r hg h
    unfold targets_loop at h
    simp only at h
    split at h
    · split at h
      · cases h
      · split at h
        · cases h
        · rename_i target htarget
          split at h
          · cases h
          · rename_i g1 hadd
            exact ih _ g1 r
              (add_edge_inv g g1 id target hg hid (string_view_to_unsigned_lt _ _ htarget) hadd)
              h
    · cases h
      exact hg

/-- Every generalization line that the constructor accepts keeps the invariant of the
hierarchy. -/
theorem hypernym_line_inv (g g1 : Digraph) (line : Str) (hg : g.Inv)
    (h : hypernym_line g line = .ok g1) : g1.Inv := by
  unfold hypernym_line at h
  split at h
  · cases h
    exact hg
  · simp only [bind, Except.bind] at h
    split at h
    · split at h
      · cases h
      · rename_i identifier _
        split at h
        · cases h
        · rename_i id hid
          have hidlt := string_view_to_unsigned_lt _ _ hid
          split at h
          · cases h
          · rename_i r hloop
            obtain ⟨g2, sp⟩ := r
            have hg2 : g2.Inv := targets_loop_inv line id hidlt _ _ g (g2, sp) hg hloop
            simp only at h
            split at h
            · cases h
            · split at h
              · cases h
              · rename_i target htarget
                exact add_edge_inv g2 g1 id target hg2 hidlt
                  (string_view_to_unsigned_lt _ _ htarget) h
    · cases h
      exact hg

theorem hypernyms_fold_inv (lines : List Str) :
    ∀ (g g1 : Digraph), g.Inv → lines.foldlM hypernym_line g = .ok g1 → g1.Inv := by
  induction lines with
  | nil =>
    intro g g1 hg h
    cases h
    exact hg
  | cons line rest ih =>
    intro g g1 hg h
    simp only [List.foldlM_cons, bind, Except.bind] at h
    split at h
    · cases h
    · rename_i g2 hline
      exact ih g2 g1 (hypernym_line_inv g g2 line hg hline) h

/-- The hierarchy of every `WordNet` that construction returns satisfies the invariant of
`Digraph`. -/
theorem ctor_digraph_inv (synsets hypernyms : List Str) (wn : WordNet)
    (h : WordNet.ctor synsets hypernyms = .ok wn) : wn.digraph.Inv := by
  simp only [WordNet.ctor, bind, Except.bind, pure, Except.pure] at h
  split at h
  · cases h
  · rename_i tables _
    obtain ⟨words, glosses⟩ := tables
    simp only at h
    split at h
    · cases h
    · rename_i g hfold
      cases h
      exact hypernyms_fold_inv hypernyms _ g (Digraph.extend_inv _ _ Digraph.empty_inv) hfold

theorem concept_id_nil : concept_id [] = .error .undefined := by decide

theorem synsets_fold_keys (lines : List Str) :
    ∀ (tables tables1 : List (Str × List Nat) × List (Nat × Str)),
      lines.foldlM synset_line tables = .ok tables1 →
      ∀ c, (∃ text, tables1.2.lookup c = some text) ↔
        ((∃ text, tables.2.lookup c = some text) ∨ ∃ line ∈ lines, concept_id line = .ok c) := by
  induction lines with
  | nil =>
    intro tables tables1 h c
    cases h
    simp
  | cons line rest ih =>
    intro tables tables1 h c
    simp only [List.foldlM_cons, bind, Except.bind] at h
    split at h
    · cases h
    · rename_i t2 hline
      obtain ⟨_, id1, text1, hid1, hgl⟩ := synset_line_effect tables t2 line hline
      rw [ih t2 tables1 h c, hgl]
      simp only [lookup_glosses_assign, List.mem_cons, exists_eq_or_imp]
      by_cases hc : c = id1
      · subst hc
        simp [hid1]
      · have hne : concept_id line ≠ .ok c := by
          rw [hid1]
          intro e
          cases e
          exact hc rfl
        simp [hc, hne]

/-- The ids with a gloss are the ids of the concept lines. -/
theorem ctor_gloss_keys (synsets hypernyms : List Str) (wn : WordNet)
    (h : WordNet.ctor synsets hypernyms = .ok wn) (c : Nat) :
    (∃ text, wn.glosses.lookup c = some text) ↔ ∃ line ∈ synsets, concept_id line = .ok c := by
  have hkeys := synsets_fold_keys _ _ _ (ctor_tables synsets hypernyms wn h) c
  rw [hkeys]
  constructor
  · rintro (⟨text, ht⟩ | ⟨line, hl, hid⟩)
    · cases ht
    · exact ⟨line, List.mem_of_mem_filter hl, hid⟩
  · rintro ⟨line, hl, hid⟩
    refine Or.inr ⟨line, List.mem_filter.2 ⟨hl, ?_⟩, hid⟩
    have : line ≠ [] := by
      intro e
      rw [e, concept_id_nil] at hid
      cases hid
    simpa using this

/-! ## ShortestCommonAncestor: the seeding loops on arbitrary sequences -/

theorem seed_b_marked (g : Digraph) (b i : Nat) (rest marked queue : List Nat)
    (hi : g.internal b = some i) (hm : val marked i ≠ 0) :
    seed_b g (b :: rest) marked queue = .ok (.returned (b, 0)) := by
  have hlt : i < marked.length := val_ne_zero_lt _ _ hm
  simp [seed_b, map_at_eq _ _ _ hi, vec_read_eq _ _ hlt, hm]

theorem seed_b_unmarked (g : Digraph) (b i : Nat) (rest marked queue : List Nat)
    (hi : g.internal b = some i) (hlt : i < marked.length) (hm : val marked i = 0) :
    seed_b g (b :: rest) marked queue = seed_b g rest (marked.set i 2) (queue ++ [i]) := by
  simp [seed_b, map_at_eq _ _ _ hi, vec_read_eq _ _ hlt, hm, vec_write_eq _ _ _ hlt]

/-- When the first member of `B` is a member of `A`, `bfs` returns it with distance 0. -/
theorem bfs_first_shared (g : Digraph) (hg : g.Inv) (A rest : List Nat) (b : Nat)
    (hA : ∀ a ∈ A, a ∈ g.node_map) (hb : b ∈ A) : bfs g A (b :: rest) = .ok (b, 0) := by
  obtain ⟨m, hm, -, hval⟩ := seed_a_spec g hg A (List.replicate g.size 0) [] hA (by simp)
  obtain ⟨i, hi, -⟩ := hg.internal_of_mem g b (hA b hb)
  have hmi : val m i ≠ 0 := by
    rw [hval i, if_pos ((Digraph.mem_nodes g A i).2 ⟨b, hb, hi⟩)]
    decide
  simp only [bfs, hm, seed_b_marked g b i rest m _ hi hmi]

/-- The second loop on any sequence of vertex ids: it returns one of them with distance 0,
or it runs to the end; then no vertex of `B` was marked before, none occurs twice, and all
are marked 2 and queued. -/
theorem seed_b_total (g : Digraph) (hg : g.Inv) (B : List Nat) :
    ∀ (marked queue : List Nat), (∀ b ∈ B, b ∈ g.node_map) → marked.length = g.size →
      (∃ b ∈ B, seed_b g B marked queue = .ok (.returned (b, 0))) ∨
      ∃ m, seed_b g B marked queue = .ok (.seeded m (queue ++ g.nodes B)) ∧
        m.length = g.size ∧ (∀ j, val m j = if j ∈ g.nodes B then 2 else val marked j) ∧
        ∀ j ∈ g.nodes B, val marked j = 0 := by
  induction B with
  | nil =>
    intro marked queue _ hlen
    right
    exact ⟨marked, by simp [seed_b, Digraph.nodes], hlen, by simp [Digraph.nodes],
      by simp [Digraph.nodes]⟩
  | cons b rest ih =>
    intro marked queue hv hlen
    obtain ⟨i, hi, hlt⟩ := hg.internal_of_mem g b (hv b (List.mem_cons_self _ _))
    have hlt' : i < marked.length := hlen ▸ hlt
    by_cases hm : val marked i = 0
    · rw [seed_b_unmarked g b i rest marked queue hi hlt' hm]
      rcases ih (marked.set i 2) (queue ++ [i])
        (fun e he => hv e (List.mem_cons_of_mem _ he)) (by simpa using hlen) with
        ⟨b1, hb1, hret⟩ | ⟨m, hm1, hmlen, hmval, hzero⟩
      · left
        exact ⟨b1, List.mem_cons_of_mem _ hb1, hret⟩
      · right
        have hirest : i ∉ g.nodes rest := by
          intro hmem
          have := hzero i hmem
          rw [val_set _ _ _ _ hlt', if_pos rfl] at this
          exact absurd this (by decide)
        refine ⟨m, ?_, hmlen, ?_, ?_⟩
        · rw [hm1, Digraph.nodes_cons g b i rest hi]
          simp
        · intro j
          rw [hmval j, Digraph.nodes_cons g b i rest hi, val_set _ _ _ _ hlt']
          by_cases hj : j ∈ g.nodes rest
          · simp [hj]
          · by_cases hji : j = i
            · simp [hji]
            · simp [hj, hji]
        · intro j hj
          rw [Digraph.nodes_cons g b i rest hi] at hj
          rcases List.mem_cons.1 hj with rfl | hj
          · exact hm
          · have := hzero j hj
            rw [val_set _ _ _ _ hlt'] at this
            by_cases hji : j = i
            · rw [hji]; exact hm
            · rw [if_neg hji] at this
              exact this
    · left
      exact ⟨b, List.mem_cons_self _ _, seed_b_marked g b i rest marked queue hi hm⟩

/-- The first loop throws when a member of `A` is not a vertex. -/
theorem seed_a_missing (g : Digraph) (hg : g.Inv) (A : List Nat) :
    ∀ (marked queue : List Nat), marked.length = g.size → (∃ a ∈ A, a ∉ g.node_map) →
      seed_a g A marked queue = .error .out_of_range := by
  induction A with
  | nil =>
    intro marked queue _ ⟨a, ha, _⟩
    cases ha
  | cons a rest ih =>
    intro marked queue hlen hmiss
    by_cases ha : a ∈ g.node_map
    · obtain ⟨i, hi, hlt⟩ := hg.internal_of_mem g a ha
      have hlt' : i < marked.length := hlen ▸ hlt
      have hrest : ∃ x ∈ rest, x ∉ g.node_map := by
        obtain ⟨x, hx, hxm⟩ := hmiss
        rcases List.mem_cons.1 hx with rfl | hx
        · exact absurd ha hxm
        · exact ⟨x, hx, hxm⟩
      simp only [seed_a, map_at_eq _ _ _ hi, vec_write_eq _ _ _ hlt']
      exact ih _ _ (by simpa using hlen) hrest
    · have hnone : g.id_map.lookup a = none := by
        cases hl : g.id_map.lookup a with
        | none => rfl
        | some i => exact absurd ((hg.mem_node_map g a).2 ⟨i, hl⟩) ha
      simp [seed_a, map_at, hnone]

/-- The second loop throws at a member of `B` that is not a vertex when the members before
it are vertices that are unmarked and pairwise distinct. -/
theorem seed_b_missing (g : Digraph) (hg : g.Inv) (x : Nat) (post : List Nat)
    (hx : x ∉ g.node_map) (pre : List Nat) :
    ∀ (marked queue : List Nat), marked.length = g.size → (∀ b ∈ pre, b ∈ g.node_map) →
      pre.Nodup → (∀ b ∈ pre, ∀ i, g.internal b = some i → val marked i = 0) →
      seed_b g (pre ++ x :: post) marked queue = .error .out_of_range := by
  induction pre with
  | nil =>
    intro marked queue _ _ _ _
    have hnone : g.id_map.lookup x = none := by
      cases hl : g.id_map.lookup x with
      | none => rfl
      | some i => exact absurd ((hg.mem_node_map g x).2 ⟨i, hl⟩) hx
    simp [seed_b, map_at, hnone]
  | cons b rest ih =>
    intro marked queue hlen hv hnd hz
    obtain ⟨i, hi, hlt⟩ := hg.internal_of_mem g b (hv b (List.mem_cons_self _ _))
    have hlt' : i < marked.length := hlen ▸ hlt
    have hnd' := List.nodup_cons.1 hnd
    rw [List.cons_append,
      seed_b_unmarked g b i _ marked queue hi hlt' (hz b (List.mem_cons_self _ _) i hi)]
    apply ih _ _ (by simpa using hlen) (fun e he => hv e (List.mem_cons_of_mem _ he)) hnd'.2
    intro b1 hb1 i1 hi1
    have hne : i1 ≠ i := by
      intro heq
      subst heq
      have := hg.internal_inj g b1 b i1 hi1 hi
      subst this
      exact hnd'.1 hb1
    rw [val_set _ _ _ _ hlt', if_neg hne]
    exact hz b1 (List.mem_cons_of_mem _ hb1) i1 hi1

/-! ## WordNet: the queries on a constructed `WordNet` -/

theorem sca_of_calculation (wn : WordNet) (l1 l2 : Str) (r : Nat × Nat)
    (h : wn.distance_calculation l1 l2 = .ok r) : wn.sca l1 l2 = wn.glosses_at r.1 := by
  simp only [WordNet.sca, h, bind, Except.bind]

theorem distance_of_calculation (wn : WordNet) (l1 l2 : Str) (r : Nat × Nat)
    (h : wn.distance_calculation l1 l2 = .ok r) : wn.distance l1 l2 = .ok r.2 := by
  simp only [WordNet.distance, h, bind, Except.bind, pure, Except.pure]

theorem calculation_of_lookup (wn : WordNet) (l1 l2 : Str) (A B : List Nat)
    (h1 : wn.words.lookup l1 = some A) (h2 : wn.words.lookup l2 = some B) :
    wn.distance_calculation l1 l2 = bfs wn.digraph A B := by
  simp only [WordNet.distance_calculation, WordNet.words_at, h1, h2, bind, Except.bind]

theorem queries_of_error (wn : WordNet) (l1 l2 : Str) (e : Error)
    (h : wn.distance_calculation l1 l2 = .error e) :
    wn.distance l1 l2 = .error e ∧ wn.sca l1 l2 = .error e := by
  simp only [WordNet.distance, WordNet.sca, h, bind, Except.bind, and_self]

/-- C13 (amended). In every `WordNet` that construction returns, a vertex of the hierarchy
has an entry in the gloss table exactly when it is the id of a concept line; `sca` returns
the gloss of the ancestor that `bfs` returns when it has one, and throws
`std::out_of_range` when it has none. -/
theorem vertex_gloss_iff_concept_line (synsets hypernyms : List Str) (wn : WordNet)
    (hctor : WordNet.ctor synsets hypernyms = .ok wn) :
    (∀ c, c ∈ wn.digraph.node_map →
      ((∃ text, wn.glosses.lookup c = some text) ↔
        ∃ line ∈ synsets, concept_id line = .ok c)) ∧
    (∀ l1 l2 r text, wn.distance_calculation l1 l2 = .ok r →
      wn.glosses.lookup r.1 = some text → wn.sca l1 l2 = .ok text) ∧
    (∀ l1 l2 r, wn.distance_calculation l1 l2 = .ok r →
      wn.glosses.lookup r.1 = none → wn.sca l1 l2 = .error .out_of_range) := by
  refine ⟨fun c _ => ctor_gloss_keys synsets hypernyms wn hctor c, ?_, ?_⟩
  · intro l1 l2 r text h hgl
    rw [sca_of_calculation wn l1 l2 r h]
    simp [WordNet.glosses_at, hgl]
  · intro l1 l2 r h hgl
    rw [sca_of_calculation wn l1 l2 r h]
    simp [WordNet.glosses_at, hgl]

/-- The `WordNet` of two sibling concepts whose parent, the id 3, has no concept line. -/
theorem vertex_gloss_iff_concept_line_witness :
    (∀ c, c ∈ orphan_wordnet.digraph.node_map →
      ((∃ text, orphan_wordnet.glosses.lookup c = some text) ↔
        ∃ line ∈ orphan_synsets, concept_id line = .ok c)) ∧
    (∀ l1 l2 r text, orphan_wordnet.distance_calculation l1 l2 = .ok r →
      orphan_wordnet.glosses.lookup r.1 = some text → orphan_wordnet.sca l1 l2 = .ok text) ∧
    (∀ l1 l2 r, orphan_wordnet.distance_calculation l1 l2 = .ok r →
      orphan_wordnet.glosses.lookup r.1 = none →
      orphan_wordnet.sca l1 l2 = .error .out_of_range) :=
  vertex_gloss_iff_concept_line orphan_synsets orphan_hypernyms orphan_wordnet (by decide!)

/-- C13 (as stated, refuted). The `WordNet` built from the concept lines `1,a,x`, `2,b,y`,
`4,c,z` and the generalization lines `1,3`, `2,3` has the edges from the vertices of the
ids 1 and 2 to the vertex of id 3, and the id 3 has no entry in the gloss table: the query
of `a` and `b` has the ancestor 3, and `sca("a", "b")` throws `std::out_of_range`. -/
theorem edge_endpoint_without_gloss :
    WordNet.ctor orphan_synsets orphan_hypernyms = .ok orphan_wordnet ∧
    orphan_wordnet.digraph.node_map = [1, 3, 2] ∧
    orphan_wordnet.digraph.Edge 0 1 ∧ orphan_wordnet.digraph.Edge 2 1 ∧
    orphan_wordnet.glosses.lookup 3 = none ∧
    orphan_wordnet.distance_calculation ['a'] ['b'] = .ok (3, 2) ∧
    orphan_wordnet.sca ['a'] ['b'] = .error .out_of_range :=
  ⟨by decide!, rfl, ⟨[1], rfl, by decide⟩, ⟨[1], rfl, by decide⟩, rfl, by decide!,
    by decide!⟩

/-- C19 (amended). In every `WordNet` that construction returns, `distance(l1, l2)` and
`sca(l1, l2)` throw `std::out_of_range` when the id list of `l1` holds an id that is not a
vertex of the hierarchy, and when the id list of `l2` holds one and the ids before it in
that list are vertices, pairwise distinct and not in the list of `l1`. -/
theorem missing_vertex_throws (synsets hypernyms : List Str) (wn : WordNet)
    (hctor : WordNet.ctor synsets hypernyms = .ok wn) (l1 l2 : Str) (A B : List Nat)
    (h1 : wn.words.lookup l1 = some A) (h2 : wn.words.lookup l2 = some B) :
    ((∃ a ∈ A, a ∉ wn.digraph.node_map) →
      wn.distance l1 l2 = .error .out_of_range ∧ wn.sca l1 l2 = .error .out_of_range) ∧
    ((∀ a ∈ A, a ∈ wn.digraph.node_map) →
      ∀ pre x post, B = pre ++ x :: post → x ∉ wn.digraph.node_map →
        (∀ b ∈ pre, b ∈ wn.digraph.node_map ∧ b ∉ A) → pre.Nodup →
        wn.distance l1 l2 = .error .out_of_range ∧ wn.sca l1 l2 = .error .out_of_range) := by
  have hg := ctor_digraph_inv synsets hypernyms wn hctor
  have hcalc := calculation_of_lookup wn l1 l2 A B h1 h2
  constructor
  · intro hmiss
    apply queries_of_error
    rw [hcalc]
    have hseed := seed_a_missing wn.digraph hg A (List.replicate wn.digraph.size 0) []
      (by simp) hmiss
    simp only [bfs, hseed]
  · intro hA pre x post hB hx hpre hnd
    apply queries_of_error
    rw [hcalc, hB]
    obtain ⟨m, hm, hmlen, hval⟩ :=
      seed_a_spec wn.digraph hg A (List.replicate wn.digraph.size 0) [] hA (by simp)
    have hzero : ∀ b ∈ pre, ∀ i, wn.digraph.internal b = some i → val m i = 0 := by
      intro b hb i hi
      rw [hval i, val_replicate]
      have hni : i ∉ wn.digraph.nodes A := by
        intro hmem
        obtain ⟨a, ha, hai⟩ := (Digraph.mem_nodes wn.digraph A i).1 hmem
        have := hg.internal_inj wn.digraph a b i hai hi
        exact (hpre b hb).2 (this ▸ ha)
      rw [if_neg hni]
    have hseed := seed_b_missing wn.digraph hg x post hx pre m (wn.digraph.nodes A) hmlen
      (fun b hb => (hpre b hb).1) hnd hzero
    simp only [List.nil_append] at hm
    simp only [bfs, hm, hseed]

theorem missing_vertex_throws_witness :
    ((∃ a ∈ [1, 2], a ∉ (WordNet.mk shared_synsets [(1, ['x']), (2, ['y'])]
        [(['a'], [1]), (['b'], [1, 2])]
        (Digraph.mk [[1], []] [(1, 0), (3, 1)] [1, 3] 2)).digraph.node_map) →
      (WordNet.mk shared_synsets [(1, ['x']), (2, ['y'])] [(['a'], [1]), (['b'], [1, 2])]
        (Digraph.mk [[1], []] [(1, 0), (3, 1)] [1, 3] 2)).distance ['b'] ['a'] =
          .error .out_of_range ∧
      (WordNet.mk shared_synsets [(1, ['x']), (2, ['y'])] [(['a'], [1]), (['b'], [1, 2])]
        (Digraph.mk [[1], []] [(1, 0), (3, 1)] [1, 3] 2)).sca ['b'] ['a'] =
          .error .out_of_range) ∧
    ((∀ a ∈ [1, 2], a ∈ (WordNet.mk shared_synsets [(1, ['x']), (2, ['y'])]
        [(['a'], [1]), (['b'], [1, 2])]
        (Digraph.mk [[1], []] [(1, 0), (3, 1)] [1, 3] 2)).digraph.node_map) →
      ∀ pre x post, [1] = pre ++ x :: post →
        x ∉ (WordNet.mk shared_synsets [(1, ['x']), (2, ['y'])]
          [(['a'], [1]), (['b'], [1, 2])]
          (Digraph.mk [[1], []] [(1, 0), (3, 1)] [1, 3] 2)).digraph.node_map →
        (∀ b ∈ pre, b ∈ (WordNet.mk shared_synsets [(1, ['x']), (2, ['y'])]
          [(['a'], [1]), (['b'], [1, 2])]
          (Digraph.mk [[1], []] [(1, 0), (3, 1)] [1, 3] 2)).digraph.node_map ∧ b ∉ [1, 2]) →
        pre.Nodup →
        (WordNet.mk shared_synsets [(1, ['x']), (2, ['y'])] [(['a'], [1]), (['b'], [1, 2])]
          (Digraph.mk [[1], []] [(1, 0), (3, 1)] [1, 3] 2)).distance ['b'] ['a'] =
            .error .out_of_range ∧
        (WordNet.mk shared_synsets [(1, ['x']), (2, ['y'])] [(['a'], [1]), (['b'], [1, 2])]
          (Digraph.mk [[1], []] [(1, 0), (3, 1)] [1, 3] 2)).sca ['b'] ['a'] =
            .error .out_of_range) :=
  missing_vertex_throws shared_synsets shared_hypernyms
    (WordNet.mk shared_synsets [(1, ['x']), (2, ['y'])] [(['a'], [1]), (['b'], [1, 2])]
      (Digraph.mk [[1], []] [(1, 0), (3, 1)] [1, 3] 2))
    (by decide!) ['b'] ['a'] [1, 2] [1] (by decide) (by decide)

/-- C19 (as stated, refuted). In the `WordNet` built from the concept lines `1,a b,x`,
`2,b,y` and the generalization line `1,3`, the stored label `b` has the id 2, which is not
a vertex of the hierarchy, and yet `distance("a", "b")` returns 0 and `sca("a", "b")`
returns a gloss: the second loop returns at the shared id 1 before it reads the id 2. -/
theorem missing_vertex_not_reached :
    ∃ wn, WordNet.ctor shared_synsets shared_hypernyms = .ok wn ∧
      wn.words.lookup ['a'] = some [1] ∧ wn.words.lookup ['b'] = some [1, 2] ∧
      2 ∉ wn.digraph.node_map ∧
      wn.distance ['a'] ['b'] = .ok 0 ∧ wn.sca ['a'] ['b'] = .ok ['x'] :=
  ⟨⟨shared_synsets, [(1, ['x']), (2, ['y'])], [(['a'], [1]), (['b'], [1, 2])],
      ⟨[[1], []], [(1, 0), (3, 1)], [1, 3], 2⟩⟩,
    by decide!, by decide, by decide, by decide, by decide!, by decide!⟩

/-- C14. In the `WordNet` built from the concept lines `1,a a,x`, `2,b,y` and the
generalization line `1,2`, the noun `a` has the id list `[1, 1]` and the noun `b` the list
`[2]`; no id is in both, and `bfs({2}, {1, 1})` returns `(1, 0)`, so `distance("b", "a")`
is 0: the second occurrence of the id 1 finds the mark that the first one set. -/
theorem repeated_id_gives_zero :
    ∃ wn, WordNet.ctor repeated_synsets lone_hypernyms = .ok wn ∧
      wn.words.lookup ['a'] = some [1, 1] ∧ wn.words.lookup ['b'] = some [2] ∧
      (∀ x, x ∈ [2] → x ∉ [1, 1]) ∧
      bfs wn.digraph [2] [1, 1] = .ok (1, 0) ∧ wn.distance ['b'] ['a'] = .ok 0 ∧
      bfs wn.digraph [2] [1] = .ok (2, 1) :=
  ⟨⟨repeated_synsets, [(1, ['x']), (2, ['y'])], [(['a'], [1, 1]), (['b'], [2])],
      ⟨[[1], []], [(1, 0), (2, 1)], [1, 2], 2⟩⟩,
    by decide!, by decide, by decide, by decide, by decide!, by decide!, by decide!⟩

/-- C18. In the `WordNet` built from `apart_synsets` and `apart_hypernyms`, which has a
concept line for each id, the distances of the pairs of `a`, `b`, `c` are 4294967290,
4294967290 and 1, so the exact total of `a`, 8589934580, is strictly the greatest; the
32-bit total of `a` wraps to 4294967284, below the total 4294967291 of `b` and of `c`, and
`outcast` returns the empty string. -/
theorem outcast_total_wraps :
    ∃ wn, WordNet.ctor apart_synsets apart_hypernyms = .ok wn ∧
      wn.distance ['a'] ['b'] = .ok (apart_distance 0 1) ∧
      wn.distance ['a'] ['c'] = .ok (apart_distance 0 2) ∧
      wn.distance ['b'] ['c'] = .ok (apart_distance 1 2) ∧
      pair_total apart_distance 3 0 = 8589934580 ∧
      pair_total apart_distance 3 1 = 4294967291 ∧
      pair_total apart_distance 3 2 = 4294967291 ∧
      outcast wn [['a'], ['b'], ['c']] = .ok [] :=
  ⟨⟨apart_synsets, [(1, ['x']), (2, ['y']), (3, ['z']), (10, ['w'])],
      [(['a'], [1]), (['b'], [2]), (['c'], [3]), (['d'], [10])],
      ⟨[[1], [], [3], []], [(1, 0), (10, 1), (2, 2), (3, 3)], [1, 10, 2, 3], 4⟩⟩,
    by decide!, by decide!, by decide!, by decide!, by decide, by decide, by decide,
    by decide!⟩

/-! ## ShortestCommonAncestor: the traversal loop ends and stays in bounds -/

theorem enqueues_refl (st : BfsState) : Enqueues st st [] :=
  ⟨by simp, List.nodup_nil, fun _ h => (by cases h), fun _ _ => rfl, rfl⟩

theorem enqueues_trans (st st1 st2 : BfsState) (e1 e2 : List Nat) (h1 : Enqueues st st1 e1)
    (h2 : Enqueues st1 st2 e2) : Enqueues st st2 (e1 ++ e2) := by
  constructor
  · rw [h2.queue_eq, h1.queue_eq, List.append_assoc]
  · rw [List.nodup_append]
    refine ⟨h1.nodup, h2.nodup, ?_⟩
    intro x hx1 hx2
    exact (h1.fresh x hx1).2 (h2.fresh x hx2).1
  · intro x hx
    rcases List.mem_append.1 hx with hx | hx
    · have := h1.fresh x hx
      exact ⟨this.1, by rw [h2.kept x this.2]; exact this.2⟩
    · have := h2.fresh x hx
      refine ⟨?_, this.2⟩
      by_contra hne
      have := h1.kept x hne
      omega
  · intro j hj
    have := h1.kept j hj
    rw [h2.kept j (this ▸ hj), this]
  · exact h2.measure_eq.trans h1.measure_eq

/-- One pass of the loop body on any graph that satisfies the invariant: it returns, every
index it uses is in bounds, and it appends the successor to the queue exactly when it marks
it. -/
theorem relax_total (g : Digraph) (hg : g.Inv) (st : BfsState) (node it : Nat)
    (h : TermInv g st) (hnode : val st.marked node ≠ 0) (hedge : g.Edge node it) :
    ∃ st1 ext, relax node st it = .ok st1 ∧ TermInv g st1 ∧ Enqueues st st1 ext ∧
      (ext = [] ∨ ext = [it]) := by
  have hit : it < st.marked.length := by rw [h.marked_length]; exact hg.edge_lt g node it hedge
  have hnlt : node < st.marked.length := val_ne_zero_lt _ _ hnode
  have hlen : st.distance.length = st.marked.length := by
    rw [h.marked_length, h.distance_length]
  by_cases hz : val st.marked it = 0
  · have hmk : ∀ j, val (st.marked.set it (val st.marked node)) j =
        if j = it then val st.marked node else val st.marked j :=
      fun j => val_set _ _ _ _ hit
    have hzne : val st.marked it ≠ val st.marked node := by
      intro e
      rw [← e] at hnode
      exact hnode hz
    refine ⟨_, [it], relax_mark node it st hit hnlt hlen hz, ?_, ?_, Or.inr rfl⟩
    · constructor
      · simpa using h.marked_length
      · simpa using h.distance_length
      · intro q hq
        simp only [List.mem_append, List.mem_singleton] at hq
        show val (st.marked.set it (val st.marked node)) q ≠ 0
        rw [hmk q]
        rcases hq with hq | rfl
        · split
          · exact hnode
          · exact h.queue_marked q hq
        · simpa using hnode
      · exact h.ancestor_ok
      · exact h.min_le
      · exact h.ancestor_zero
    · constructor
      · rfl
      · simp
      · intro x hx
        simp only [List.mem_singleton] at hx
        subst hx
        refine ⟨hz, ?_⟩
        show val (st.marked.set x (val st.marked node)) x ≠ 0
        rw [hmk x, if_pos rfl]
        exact hnode
      · intro j hj
        show val (st.marked.set it (val st.marked node)) j = val st.marked j
        have hji : ¬ j = it := by
          intro e
          rw [e] at hj
          exact hj hz
        rw [hmk j, if_neg hji]
      · have hold := count_set_old st.marked it (val st.marked node) hit hzne
        rw [hz] at hold
        show (st.queue ++ [it]).length + (st.marked.set it (val st.marked node)).count 0 = _
        simp only [List.length_append, List.length_singleton]
        omega
  · by_cases hne : val st.marked it = val st.marked node
    · exact ⟨st, [], relax_same node it st hit hnlt hz hne, h, enqueues_refl st, Or.inl rfl⟩
    · refine ⟨_, [], relax_cross node it st hit hnlt hlen hz hne, ?_, ?_, Or.inl rfl⟩
      · split
        · rename_i hlt
          have hle := h.min_le
          refine ⟨h.marked_length, h.distance_length, h.queue_marked,
            Or.inr (by rw [← h.marked_length]; exact hit), ?_, ?_⟩
          · show (val st.distance it + val st.distance node + 1) % two32 ≤ sentinel
            omega
          · intro he
            change (val st.distance it + val st.distance node + 1) % two32 = sentinel at he
            omega
        · exact h
      · split
        · exact ⟨by simp, List.nodup_nil, fun _ hx => (by cases hx), fun _ _ => rfl, rfl⟩
        · exact enqueues_refl st

/-- The loop over the successors of a marked vertex returns and stays in bounds. -/
theorem visit_total (g : Digraph) (hg : g.Inv) (node : Nat) (adj : List Nat) :
    ∀ st : BfsState, TermInv g st → val st.marked node ≠ 0 → (∀ it ∈ adj, g.Edge node it) →
      ∃ st1 ext, visit node adj st = .ok st1 ∧ TermInv g st1 ∧ Enqueues st st1 ext := by
  induction adj with
  | nil =>
    intro st h _ _
    exact ⟨st, [], rfl, h, enqueues_refl st⟩
  | cons it rest ih =>
    intro st h hnode hedges
    obtain ⟨st1, e1, hr, hinv1, henq1, _⟩ :=
      relax_total g hg st node it h hnode (hedges it (List.mem_cons_self _ _))
    have hnode1 : val st1.marked node ≠ 0 := by
      rw [henq1.kept node hnode]; exact hnode
    obtain ⟨st2, e2, hv, hinv2, henq2⟩ :=
      ih st1 hinv1 hnode1 (fun x hx => hedges x (List.mem_cons_of_mem _ hx))
    refine ⟨st2, e1 ++ e2, ?_, hinv2, enqueues_trans st st1 st2 e1 e2 henq1 henq2⟩
    simp only [visit, hr]
    exact hv

/-- The traversal loop on any graph that satisfies the invariant: within `queue.size()` plus
the number of unmarked vertices passes it ends with an empty queue; the vertices it
appended to the queue are pairwise distinct, each was unmarked at the start and is marked
at the end. -/
theorem drain_total (g : Digraph) (hg : g.Inv) :
    ∀ (fuel : Nat) (st : BfsState), TermInv g st →
      st.queue.length + st.marked.count 0 ≤ fuel →
      ∃ st1 log, drain_log g fuel st = .ok (st1, log) ∧ drain g fuel st = .ok st1 ∧
        TermInv g st1 ∧ st1.queue = [] ∧ log.Nodup ∧
        (∀ x ∈ log, val st.marked x = 0 ∧ val st1.marked x ≠ 0) ∧
        (∀ j, val st.marked j ≠ 0 → val st1.marked j = val st.marked j) := by
  intro fuel
  induction fuel with
  | zero =>
    intro st h hm
    have hq : st.queue = [] := by
      apply List.eq_nil_of_length_eq_zero
      omega
    refine ⟨st, [], ?_, ?_, h, hq, List.nodup_nil, fun _ hx => (by cases hx), fun _ _ => rfl⟩
    · unfold drain_log
      rw [hq]
    · unfold drain
      rw [hq]
  | succ fuel ih =>
    intro st h hm
    cases hq : st.queue with
    | nil =>
      refine ⟨st, [], ?_, ?_, h, hq, List.nodup_nil, fun _ hx => (by cases hx),
        fun _ _ => rfl⟩
      · unfold drain_log
        rw [hq]
      · unfold drain
        rw [hq]
    | cons node rest =>
      have hnode : val st.marked node ≠ 0 := h.queue_marked node (by rw [hq]; simp)
      have hnlt : node < g.graph.length := by
        have := val_ne_zero_lt _ _ hnode
        rw [h.marked_length] at this
        exact this
      have hadj : g.graph[node]? = some g.graph[node] := List.getElem?_eq_getElem hnlt
      obtain ⟨st1, ext, hv, hinv1, henq⟩ :=
        visit_total g hg node g.graph[node] st h hnode
          (fun it hit => ⟨g.graph[node], hadj, hit⟩)
      have hq1 : st1.queue = node :: (rest ++ ext) := by rw [henq.queue_eq, hq]; rfl
      have hinv2 : TermInv g { st1 with queue := st1.queue.tail } :=
        ⟨hinv1.marked_length, hinv1.distance_length,
          fun q hq' => hinv1.queue_marked q (List.mem_of_mem_tail hq'), hinv1.ancestor_ok,
          hinv1.min_le, hinv1.ancestor_zero⟩
      have hmeasure : (st1.queue.tail).length + st1.marked.count 0 ≤ fuel := by
        have := henq.measure_eq
        rw [hq1, hq] at this
        rw [hq1]
        rw [hq] at hm
        simp only [List.tail_cons, List.length_cons] at this hm ⊢
        omega
      obtain ⟨st2, log, hdl, hd, hinv3, hq3, hnd, hfresh, hkept⟩ :=
        ih { st1 with queue := st1.queue.tail } hinv2 hmeasure
      have hdrop : st1.queue.drop (node :: rest).length = ext := by
        rw [henq.queue_eq, hq]
        exact List.drop_left _ _
      refine ⟨st2, ext ++ log, ?_, ?_, hinv3, hq3, ?_, ?_, ?_⟩
      · unfold drain_log
        rw [hq]
        simp only [hadj, hv, hdl, hdrop]
      · unfold drain
        rw [hq]
        simp only [hadj, hv]
        exact hd
      · rw [List.nodup_append]
        refine ⟨henq.nodup, hnd, ?_⟩
        intro x hx1 hx2
        exact (henq.fresh x hx1).2 (hfresh x hx2).1
      · intro x hx
        rcases List.mem_append.1 hx with hx | hx
        · have := henq.fresh x hx
          refine ⟨this.1, ?_⟩
          have hk := hkept x this.2
          show val st2.marked x ≠ 0
          rw [hk]
          exact this.2
        · have := hfresh x hx
          refine ⟨?_, this.2⟩
          by_contra hne
          have hk := henq.kept x hne
          have h0 : val st1.marked x = 0 := this.1
          omega
      · intro j hj
        have hk := henq.kept j hj
        have hj1 : val st1.marked j ≠ 0 := by rw [hk]; exact hj
        have := hkept j hj1
        exact this.trans hk

/-- What the seeding loops of `bfs` do on any sequences of vertex ids: the second loop
returns a member of `B` with distance 0, or both run to the end and leave a state that
satisfies the bound-free invariant, with at most `queue.size() + size()` passes to go. -/
theorem seeding_total (g : Digraph) (hg : g.Inv) (A B : List Nat)
    (hA : ∀ a ∈ A, a ∈ g.node_map) (hB : ∀ b ∈ B, b ∈ g.node_map) :
    ∃ mA, seed_a g A (List.replicate g.size 0) [] = .ok (mA, g.nodes A) ∧
      ((∃ b ∈ B, seed_b g B mA (g.nodes A) = .ok (.returned (b, 0))) ∨
        ∃ m, seed_b g B mA (g.nodes A) = .ok (.seeded m (g.nodes A ++ g.nodes B)) ∧
          TermInv g ⟨List.replicate g.size 0, m, g.nodes A ++ g.nodes B, sentinel, 0⟩ ∧
          (g.nodes A ++ g.nodes B).length + m.count 0 ≤
            (g.nodes A ++ g.nodes B).length + g.size) := by
  obtain ⟨mA, hmA, hmAlen, hmAval⟩ :=
    seed_a_spec g hg A (List.replicate g.size 0) [] hA (by simp)
  simp only [List.nil_append, val_replicate] at hmA hmAval
  refine ⟨mA, hmA, ?_⟩
  rcases seed_b_total g hg B mA (g.nodes A) hB hmAlen with hret | ⟨m, hm, hmlen, hmval, -⟩
  · exact Or.inl hret
  · right
    refine ⟨m, hm, ?_, ?_⟩
    · refine ⟨hmlen, by simp, ?_, Or.inl rfl, Nat.le_refl _, fun _ => rfl⟩
      intro q hq
      show val m q ≠ 0
      rw [hmval q, hmAval q]
      rcases List.mem_append.1 hq with ha | hb
      · rw [if_pos ha]
        split <;> decide
      · rw [if_pos hb]; decide
    · have := List.count_le_length 0 m
      omega

/-- Claim C20: on a graph that satisfies the Digraph invariant and has at least one vertex,
`bfs(A, B)` on sequences of vertex ids returns a pair, so no index it uses is out of
bounds: in the model an access to `marked`, `distance`, `graph` or `node_map` outside the
vector ends the call with `Error.undefined`, and a failed `id_map.at` with
`Error.out_of_range`.  The id returned is read from `node_map`; when the distance is the
sentinel, `ancestor_id` has kept its initial value and the id is `node_map[0]`. -/
theorem bfs_in_bounds (g : Digraph) (hg : g.Inv) (hpos : 0 < g.size) (A B : List Nat)
    (hA : ∀ a ∈ A, a ∈ g.node_map) (hB : ∀ b ∈ B, b ∈ g.node_map) :
    ∃ z d, bfs g A B = .ok (z, d) ∧ z ∈ g.node_map ∧
      (d = sentinel → g.node_map[0]? = some z) := by
  obtain ⟨mA, hmA, hb⟩ := seeding_total g hg A B hA hB
  rcases hb with ⟨b, hbB, hret⟩ | ⟨m, hm, hinv0, hfuel⟩
  · refine ⟨b, 0, ?_, hB b hbB, fun h => absurd h (by decide)⟩
    simp only [bfs, hmA, hret]
  · obtain ⟨st, log, -, hd, hinv, -⟩ := drain_total g hg _ _ hinv0 hfuel
    have hanc : st.ancestor_id < g.node_map.length := by
      rw [← hg.graph_length]
      rcases hinv.ancestor_ok with h0 | hlt
      · rw [h0]; exact hpos
      · exact hlt
    refine ⟨g.node_map[st.ancestor_id], st.min_distance, ?_, List.getElem_mem _, ?_⟩
    · simp only [bfs, hmA, hm, hd, vec_read, List.getElem?_eq_getElem hanc]
    · intro hs
      have h0 := hinv.ancestor_zero hs
      rw [← List.getElem?_eq_getElem hanc, h0]

/-- A graph of two vertices with a self-loop and a repeated edge, queried with a repeated
id. -/
theorem bfs_in_bounds_witness :
    ∃ z d, bfs looped_graph [1, 1] [2, 2] = .ok (z, d) ∧ z ∈ looped_graph.node_map ∧
      (d = sentinel → looped_graph.node_map[0]? = some z) :=
  bfs_in_bounds looped_graph (of_edges_inv 2 [(1, 1), (1, 2), (1, 2)] _ (by decide!) (by decide))
    (by decide) [1, 1] [2, 2] (by decide) (by decide)

/-- Claim C17: on every graph that satisfies the Digraph invariant, cycles, self-loops and
repeated edges included, and for all sequences `A`, `B` of vertex ids, `bfs(A, B)` ends.
The call never exhausts the passes that the model grants to the traversal loop, and it
returns a pair when the graph has a vertex.  When both seeding loops run to the end, the
traversal loop ends with an empty queue, and the vertices that its passes appended to the
queue are pairwise distinct, each one unmarked after seeding and marked at the end.  A pass
of the loop body for an edge out of a marked vertex leaves the queue as it is, or appends
the successor, which was unmarked before the pass and is marked after it. -/
theorem traversal_enqueues_once (g : Digraph) (hg : g.Inv) (A B : List Nat)
    (hA : ∀ a ∈ A, a ∈ g.node_map) (hB : ∀ b ∈ B, b ∈ g.node_map) :
    bfs g A B ≠ .error .diverged ∧
    (0 < g.size → ∃ r, bfs g A B = .ok r) ∧
    (∀ mA qA m q, seed_a g A (List.replicate g.size 0) [] = .ok (mA, qA) →
      seed_b g B mA qA = .ok (.seeded m q) →
      ∃ st log,
        drain_log g (q.length + g.size) ⟨List.replicate g.size 0, m, q, sentinel, 0⟩ =
          .ok (st, log) ∧
        drain g (q.length + g.size) ⟨List.replicate g.size 0, m, q, sentinel, 0⟩ = .ok st ∧
        st.queue = [] ∧ log.Nodup ∧ ∀ x ∈ log, val m x = 0 ∧ val st.marked x ≠ 0) ∧
    (∀ (st : BfsState) (node it : Nat), TermInv g st → val st.marked node ≠ 0 →
      g.Edge node it →
      ∃ st1, relax node st it = .ok st1 ∧
        (st1.queue = st.queue ∨
          (st1.queue = st.queue ++ [it] ∧ val st.marked it = 0 ∧ val st1.marked it ≠ 0))) := by
  obtain ⟨mA, hmA, hb⟩ := seeding_total g hg A B hA hB
  refine ⟨?_, ?_, ?_, ?_⟩
  · rcases hb with ⟨b, -, hret⟩ | ⟨m, hm, hinv0, hfuel⟩
    · simp only [bfs, hmA, hret]
      intro h
      cases h
    · obtain ⟨st, log, -, hd, -⟩ := drain_total g hg _ _ hinv0 hfuel
      simp only [bfs, hmA, hm, hd, vec_read]
      cases g.node_map[st.ancestor_id]? with
      | none => intro h; cases h
      | some z => intro h; cases h
  · intro hpos
    rcases hb with ⟨b, -, hret⟩ | ⟨m, hm, hinv0, hfuel⟩
    · exact ⟨(b, 0), by simp only [bfs, hmA, hret]⟩
    · obtain ⟨st, log, -, hd, hinv, -⟩ := drain_total g hg _ _ hinv0 hfuel
      have hanc : st.ancestor_id < g.node_map.length := by
        rw [← hg.graph_length]
        rcases hinv.ancestor_ok with h0 | hlt
        · rw [h0]; exact hpos
        · exact hlt
      exact ⟨(g.node_map[st.ancestor_id], st.min_distance), by
        simp only [bfs, hmA, hm, hd, vec_read, List.getElem?_eq_getElem hanc]⟩
  · intro mA1 qA m q hsa hsb
    rw [hmA] at hsa
    cases hsa
    rcases hb with ⟨b, -, hret⟩ | ⟨m1, hm1, hinv0, hfuel⟩
    · rw [hret] at hsb
      cases hsb
    · rw [hm1] at hsb
      cases hsb
      obtain ⟨st, log, hdl, hd, -, hq, hnd, hfresh, -⟩ := drain_total g hg _ _ hinv0 hfuel
      exact ⟨st, log, hdl, hd, hq, hnd, hfresh⟩
  · intro st node it hinv hnode hedge
    obtain ⟨st1, ext, hr, -, henq, hext⟩ := relax_total g hg st node it hinv hnode hedge
    refine ⟨st1, hr, ?_⟩
    rcases hext with rfl | rfl
    · left
      simpa using henq.queue_eq
    · right
      exact ⟨henq.queue_eq, henq.fresh it (List.mem_singleton_self _)⟩

/-- The graph with a self-loop and a repeated edge, queried from its first vertex alone: the
traversal loop meets the second vertex twice and enqueues it once. -/
theorem traversal_enqueues_once_witness :
    bfs looped_graph [1] [] ≠ .error .diverged ∧
    (0 < looped_graph.size → ∃ r, bfs looped_graph [1] [] = .ok r) ∧
    (∀ mA qA m q,
      seed_a looped_graph [1] (List.replicate looped_graph.size 0) [] = .ok (mA, qA) →
      seed_b looped_graph [] mA qA = .ok (.seeded m q) →
      ∃ st log,
        drain_log looped_graph (q.length + looped_graph.size)
          ⟨List.replicate looped_graph.size 0, m, q, sentinel, 0⟩ = .ok (st, log) ∧
        drain looped_graph (q.length + looped_graph.size)
          ⟨List.replicate looped_graph.size 0, m, q, sentinel, 0⟩ = .ok st ∧
        st.queue = [] ∧ log.Nodup ∧ ∀ x ∈ log, val m x = 0 ∧ val st.marked x ≠ 0) ∧
    (∀ (st : BfsState) (node it : Nat), TermInv looped_graph st → val st.marked node ≠ 0 →
      looped_graph.Edge node it →
      ∃ st1, relax node st it = .ok st1 ∧
        (st1.queue = st.queue ∨
          (st1.queue = st.queue ++ [it] ∧ val st.marked it = 0 ∧ val st1.marked it ≠ 0))) :=
  traversal_enqueues_once looped_graph
    (of_edges_inv 2 [(1, 1), (1, 2), (1, 2)] _ (by decide!) (by decide)) [1] [] (by decide)
    (by decide)

/-! ## ShortestCommonAncestor: what a reported distance stands for -/

/-- The state after seeding satisfies the invariant of the traversal loop, on any graph with
a vertex. -/
theorem bfs_inv_start (g : Digraph) (hg : g.Inv) (A B : List Nat) (hpos : 0 < g.size)
    (hdisj : ∀ j, j ∈ g.nodes A → j ∉ g.nodes B)
    (m : List Nat) (hlen : m.length = g.size)
    (hval : ∀ j, val m j = if j ∈ g.nodes B then 2 else if j ∈ g.nodes A then 1 else 0) :
    BfsInv g A B ⟨List.replicate g.size 0, m, g.nodes A ++ g.nodes B, sentinel, 0⟩ := by
  have hmarked : ∀ j, val m j ≠ 0 → j ∈ g.nodes A ∨ j ∈ g.nodes B := by
    intro j hj
    rw [hval j] at hj
    by_cases hb : j ∈ g.nodes B
    · exact Or.inr hb
    · by_cases ha : j ∈ g.nodes A
      · exact Or.inl ha
      · simp [hb, ha] at hj
  constructor
  · exact hlen
  · simp
  · intro q hq
    show val m q ≠ 0
    rw [hval q]
    rcases List.mem_append.1 hq with ha | hb
    · simp [hdisj q ha, ha]
    · simp [hb]
  · intro j
    show val m j ≤ 2
    rw [hval j]
    split
    · exact Nat.le_refl _
    · split <;> omega
  · intro j hj
    change val m j = 1 at hj
    show ∃ a ∈ A, g.Reaches (val (List.replicate g.size 0) j) a j
    rw [val_replicate]
    have hjA : j ∈ g.nodes A := by
      rw [hval j] at hj
      by_cases hb : j ∈ g.nodes B
      · simp [hb] at hj
      · by_cases ha : j ∈ g.nodes A
        · exact ha
        · simp [hb, ha] at hj
    obtain ⟨a, ha, hi⟩ := (Digraph.mem_nodes g A j).1 hjA
    exact ⟨a, ha, j, hi, .zero j (Digraph.nodes_lt g hg A j hjA)⟩
  · intro j hj
    change val m j = 2 at hj
    show ∃ b ∈ B, g.Reaches (val (List.replicate g.size 0) j) b j
    rw [val_replicate]
    have hjB : j ∈ g.nodes B := by
      rw [hval j] at hj
      by_cases hb : j ∈ g.nodes B
      · exact hb
      · by_cases ha : j ∈ g.nodes A
        · simp [hb, ha] at hj
        · simp [hb, ha] at hj
    obtain ⟨b, hb, hi⟩ := (Digraph.mem_nodes g B j).1 hjB
    exact ⟨b, hb, j, hi, .zero j (Digraph.nodes_lt g hg B j hjB)⟩
  · intro j hj
    change val m j ≠ 0 at hj
    show val (List.replicate g.size 0) j + 1 ≤ m.count (val m j)
    rw [val_replicate]
    have := List.count_pos_iff.2 (val_mem m j (val_ne_zero_lt m j hj))
    omega
  · intro j hj
    show val m j = 1
    rw [hval j]
    simp [hdisj j hj, hj]
  · intro j hj
    show val m j = 2
    rw [hval j]
    simp [hj]
  · exact Nat.le_refl _
  · intro hlt
    exact absurd hlt (Nat.lt_irrefl _)
  · exact hpos
  · intro u hu
    left
    show u ∈ g.nodes A ++ g.nodes B
    exact List.mem_append.2 (hmarked u hu)


/-- What `bfs` does on sequences of vertex ids of a graph with at least one and at most
4294967290 vertices: it returns a member of `B` with distance 0, or the traversal loop ends
with an empty queue and the invariant, and the pair returned is read off its final
state. -/
theorem bfs_cases (g : Digraph) (hg : g.Inv) (hsize : g.size ≤ 4294967290)
    (hpos : 0 < g.size) (A B : List Nat) (hA : ∀ a ∈ A, a ∈ g.node_map)
    (hB : ∀ b ∈ B, b ∈ g.node_map) :
    (∃ b ∈ B, bfs g A B = .ok (b, 0)) ∨
    ∃ st z, BfsInv g A B st ∧ st.queue = [] ∧ g.node_map[st.ancestor_id]? = some z ∧
      bfs g A B = .ok (z, st.min_distance) := by
  obtain ⟨mA, hmA, hmAlen, hmAval⟩ :=
    seed_a_spec g hg A (List.replicate g.size 0) [] hA (by simp)
  simp only [List.nil_append, val_replicate] at hmA hmAval
  rcases seed_b_total g hg B mA (g.nodes A) hB hmAlen with
    ⟨b, hbB, hret⟩ | ⟨m, hm, hmlen, hmval, hfree⟩
  · left
    exact ⟨b, hbB, by simp only [bfs, hmA, hret]⟩
  · right
    have hdisj : ∀ j, j ∈ g.nodes A → j ∉ g.nodes B := by
      intro j hjA hjB
      have := hfree j hjB
      rw [hmAval j, if_pos hjA] at this
      cases this
    have hval : ∀ j, val m j =
        if j ∈ g.nodes B then 2 else if j ∈ g.nodes A then 1 else 0 := by
      intro j
      rw [hmval j, hmAval j]
    have hinv0 := bfs_inv_start g hg A B hpos hdisj m hmlen hval
    have hfuel : (g.nodes A ++ g.nodes B).length + m.count 0 ≤
        (g.nodes A ++ g.nodes B).length + g.size := by
      have := List.count_le_length 0 m
      omega
    obtain ⟨st, hd, hinv, hq⟩ := drain_spec g hg hsize A B _ _ hinv0 hfuel
    have hanc : st.ancestor_id < g.node_map.length := by
      rw [← hg.graph_length]; exact hinv.ancestor_lt
    refine ⟨st, g.node_map[st.ancestor_id], hinv, hq, List.getElem?_eq_getElem hanc, ?_⟩
    simp only [bfs, hmA, hm, hd, vec_read, List.getElem?_eq_getElem hanc]

/-- On the graph without vertices `bfs` returns nothing: its last lookup is out of
bounds. -/
theorem bfs_no_vertex (g : Digraph) (hg : g.Inv) (h0 : g.size = 0) (A B : List Nat)
    (hA : ∀ a ∈ A, a ∈ g.node_map) (hB : ∀ b ∈ B, b ∈ g.node_map) (r : Nat × Nat) :
    bfs g A B ≠ .ok r := by
  have hnm : g.node_map = [] := by
    apply List.eq_nil_of_length_eq_zero
    rw [← hg.graph_length]
    exact h0
  have hAe : A = [] := by
    cases A with
    | nil => rfl
    | cons a rest =>
      have := hA a (List.mem_cons_self _ _)
      rw [hnm] at this
      cases this
  have hBe : B = [] := by
    cases B with
    | nil => rfl
    | cons b rest =>
      have := hB b (List.mem_cons_self _ _)
      rw [hnm] at this
      cases this
  subst hAe hBe
  have hgr : g.graph = [] := List.eq_nil_of_length_eq_zero h0
  intro h
  simp [bfs, seed_a, seed_b, drain, Digraph.size, hgr, vec_read, hnm] at h

/-- Claim C16: on a graph with fewer than 2^31 vertices and sequences `A`, `B` of its
vertex ids, when `bfs(A, B)` returns `(z, d)` with `0 < d < 4294967290`, `z` is the external
id of a vertex that a member of `A` reaches by a directed walk of `p` edges and a member of
`B` by one of `q` edges, with `p + q = d`; so `d` is not below any lower bound of the
totals of such pairs of walks. -/
theorem reported_distance_is_realised (g : Digraph) (hg : g.Inv)
    (hsize : g.size < 2147483648) (A B : List Nat) (hA : ∀ a ∈ A, a ∈ g.node_map)
    (hB : ∀ b ∈ B, b ∈ g.node_map) (z d : Nat) (h : bfs g A B = .ok (z, d)) (hd0 : 0 < d)
    (hd : d < sentinel) :
    (∃ x, g.internal z = some x ∧ x < g.size ∧
      ∃ a ∈ A, ∃ b ∈ B, ∃ p q, g.Reaches p a x ∧ g.Reaches q b x ∧ p + q = d) ∧
    ∀ m, (∀ a ∈ A, ∀ b ∈ B, ∀ x p q, g.Reaches p a x → g.Reaches q b x → m ≤ p + q) →
      m ≤ d := by
  replace hsize : g.size ≤ 4294967290 := by omega
  suffices hmain : ∃ x, g.internal z = some x ∧ x < g.size ∧
      ∃ a ∈ A, ∃ b ∈ B, ∃ p q, g.Reaches p a x ∧ g.Reaches q b x ∧ p + q = d by
    refine ⟨hmain, ?_⟩
    intro m hm
    obtain ⟨x, -, -, a, ha, b, hb, p, q, hp, hq, hpq⟩ := hmain
    rw [← hpq]
    exact hm a ha b hb x p q hp hq
  by_cases hpos : 0 < g.size
  · rcases bfs_cases g hg hsize hpos A B hA hB with ⟨b, -, hret⟩ | ⟨st, z1, hinv, -, hz1, hret⟩
    · rw [hret] at h
      cases h
      exact absurd hd0 (Nat.lt_irrefl _)
    · rw [hret] at h
      cases h
      obtain ⟨a, ha, b, hb, p, q, hp, hq, hpq⟩ := hinv.crossing hd
      exact ⟨st.ancestor_id, hg.id_of_node _ _ hz1, hinv.ancestor_lt, a, ha, b, hb, p, q, hp,
        hq, hpq⟩
  · exact absurd h (bfs_no_vertex g hg (by omega) A B hA hB (z, d))

/-- The sibling leaves 1 and 2 under the parent 3: the pair returned is `(3, 2)`, one edge
from each side. -/
theorem reported_distance_is_realised_witness :
    (∃ x, sibling_graph.internal 3 = some x ∧ x < sibling_graph.size ∧
      ∃ a ∈ [1], ∃ b ∈ [2], ∃ p q, sibling_graph.Reaches p a x ∧
        sibling_graph.Reaches q b x ∧ p + q = 2) ∧
    ∀ m, (∀ a ∈ [1], ∀ b ∈ [2], ∀ x p q, sibling_graph.Reaches p a x →
      sibling_graph.Reaches q b x → m ≤ p + q) → m ≤ 2 :=
  reported_distance_is_realised sibling_graph
    (of_edges_inv 3 [(1, 3), (2, 3)] _ (by decide!) (by decide)) (by decide) [1] [2]
    (by decide) (by decide) 3 2 (by decide!) (by decide) (by decide)

/-! ## ShortestCommonAncestor: chains that meet -/

theorem keeps_refl (st : BfsState) : Keeps st st :=
  ⟨fun _ _ => rfl, fun _ _ => rfl, Nat.le_refl _⟩

theorem keeps_trans (st st1 st2 : BfsState) (h1 : Keeps st st1) (h2 : Keeps st1 st2) :
    Keeps st st2 := by
  refine ⟨?_, ?_, Nat.le_trans h2.min_le h1.min_le⟩
  · intro j hj
    have := h1.marked_eq j hj
    rw [h2.marked_eq j (this ▸ hj), this]
  · intro j hj
    have := h1.marked_eq j hj
    rw [h2.distance_eq j (this ▸ hj), h1.distance_eq j hj]

theorem crossed_edge_keeps (st st1 : BfsState) (u v : Nat) (hk : Keeps st st1)
    (hu : val st.marked u ≠ 0) (h : CrossedEdge st u v) : CrossedEdge st1 u v := by
  rcases h with heq | ⟨hv, hle⟩
  · left
    have hv : val st.marked v ≠ 0 := heq ▸ hu
    rw [hk.marked_eq v hv, hk.marked_eq u hu, heq]
  · right
    refine ⟨by rw [hk.marked_eq v hv]; exact hv, ?_⟩
    rw [hk.distance_eq v hv, hk.distance_eq u hu]
    exact Nat.le_trans hk.min_le hle

/-- One pass of the loop body keeps marks and distances, leaves the edge crossed, and puts
every vertex it marks in the queue. -/
theorem relax_keeps (g : Digraph) (hg : g.Inv) (A B : List Nat) (st st1 : BfsState)
    (node it : Nat) (h : BfsInv g A B st) (hnode : val st.marked node ≠ 0)
    (hedge : g.Edge node it) (hr : relax node st it = .ok st1) :
    Keeps st st1 ∧ CrossedEdge st1 node it ∧
      ∀ j, val st1.marked j ≠ 0 → val st.marked j ≠ 0 ∨ j ∈ st1.queue := by
  have hit : it < st.marked.length := by rw [h.marked_length]; exact hg.edge_lt g node it hedge
  have hnlt : node < st.marked.length := val_ne_zero_lt _ _ hnode
  have hlen : st.distance.length = st.marked.length := by
    rw [h.marked_length, h.distance_length]
  by_cases hz : val st.marked it = 0
  · rw [relax_mark node it st hit hnlt hlen hz] at hr
    cases hr
    have hmk : ∀ j, val (st.marked.set it (val st.marked node)) j =
        if j = it then val st.marked node else val st.marked j :=
      fun j => val_set _ _ _ _ hit
    have hds : ∀ j, val (st.distance.set it ((val st.distance node + 1) % two32)) j =
        if j = it then (val st.distance node + 1) % two32 else val st.distance j :=
      fun j => val_set _ _ _ _ (hlen ▸ hit)
    have hne : ¬ node = it := by
      intro e
      rw [e] at hnode
      exact hnode hz
    refine ⟨⟨?_, ?_, Nat.le_refl _⟩, ?_, ?_⟩
    · intro j hj
      have hji : ¬ j = it := by
        intro e
        rw [e] at hj
        exact hj hz
      show val (st.marked.set it (val st.marked node)) j = _
      rw [hmk j, if_neg hji]
    · intro j hj
      have hji : ¬ j = it := by
        intro e
        rw [e] at hj
        exact hj hz
      show val (st.distance.set it ((val st.distance node + 1) % two32)) j = _
      rw [hds j, if_neg hji]
    · left
      show val (st.marked.set it (val st.marked node)) it =
        val (st.marked.set it (val st.marked node)) node
      rw [hmk it, hmk node, if_pos rfl, if_neg hne]
    · intro j hj
      change val (st.marked.set it (val st.marked node)) j ≠ 0 at hj
      rw [hmk j] at hj
      by_cases hji : j = it
      · right
        show j ∈ st.queue ++ [it]
        simp [hji]
      · left
        rw [if_neg hji] at hj
        exact hj
  · by_cases hne : val st.marked it = val st.marked node
    · rw [relax_same node it st hit hnlt hz hne] at hr
      cases hr
      exact ⟨keeps_refl _, Or.inl hne, fun j hj => Or.inl hj⟩
    · rw [relax_cross node it st hit hnlt hlen hz hne] at hr
      by_cases hlt : (val st.distance it + val st.distance node + 1) % two32 < st.min_distance
      · rw [if_pos hlt] at hr
        cases hr
        refine ⟨⟨fun _ _ => rfl, fun _ _ => rfl, Nat.le_of_lt hlt⟩, Or.inr ⟨hz, ?_⟩,
          fun j hj => Or.inl hj⟩
        exact Nat.mod_le _ _
      · rw [if_neg hlt] at hr
        cases hr
        refine ⟨keeps_refl _, Or.inr ⟨hz, ?_⟩, fun j hj => Or.inl hj⟩
        have := Nat.mod_le (val st.distance it + val st.distance node + 1) two32
        omega

/-- The loop over the successors of a marked vertex keeps marks and distances, leaves each
of the edges crossed, and puts every vertex it marks in the queue. -/
theorem visit_keeps (g : Digraph) (hg : g.Inv) (hsize : g.size ≤ 4294967290)
    (A B : List Nat) (node : Nat) (adj : List Nat) :
    ∀ st : BfsState, BfsInv g A B st → val st.marked node ≠ 0 →
      (∀ it ∈ adj, g.Edge node it) → ∀ st1, visit node adj st = .ok st1 →
      Keeps st st1 ∧ (∀ it ∈ adj, CrossedEdge st1 node it) ∧
        ∀ j, val st1.marked j ≠ 0 → val st.marked j ≠ 0 ∨ j ∈ st1.queue := by
  induction adj with
  | nil =>
    intro st _ _ _ st1 hv
    cases hv
    exact ⟨keeps_refl _, by simp, fun j hj => Or.inl hj⟩
  | cons it rest ih =>
    intro st h hnode hedges st2 hv
    obtain ⟨st1, hr, hinv1, hgr1, -⟩ :=
      relax_spec g hg hsize A B st node it h hnode (hedges it (List.mem_cons_self _ _))
    obtain ⟨hk1, hc1, hn1⟩ :=
      relax_keeps g hg A B st st1 node it h hnode (hedges it (List.mem_cons_self _ _)) hr
    have hnode1 : val st1.marked node ≠ 0 := by
      rw [hgr1.marked_eq node hnode]; exact hnode
    simp only [visit, hr] at hv
    obtain ⟨st2', hv', -, hgr2, -⟩ := visit_spec g hg hsize A B node rest st1 hinv1 hnode1
      (fun x hx => hedges x (List.mem_cons_of_mem _ hx))
    obtain ⟨hk2, hc2, hn2⟩ := ih st1 hinv1 hnode1
      (fun x hx => hedges x (List.mem_cons_of_mem _ hx)) st2 hv
    rw [hv] at hv'
    cases hv'
    refine ⟨keeps_trans _ _ _ hk1 hk2, ?_, ?_⟩
    · intro x hx
      rcases List.mem_cons.1 hx with rfl | hx
      · exact crossed_edge_keeps st1 st2 node x hk2 hnode1 hc1
      · exact hc2 x hx
    · intro j hj
      rcases hn2 j hj with hj1 | hq
      · rcases hn1 j hj1 with hj0 | hq1
        · exact Or.inl hj0
        · right
          obtain ⟨ext, hext⟩ := hgr2.queue_ext
          rw [hext]
          exact List.mem_append_left _ hq1
      · exact Or.inr hq

/-- When the traversal loop ends, every marked vertex has had its successors looked at. -/
theorem drain_exact (g : Digraph) (hg : g.Inv) (hsize : g.size ≤ 4294967290)
    (A B : List Nat) :
    ∀ (fuel : Nat) (st : BfsState), BfsInv g A B st → AllCrossed g st →
      ∀ st1, drain g fuel st = .ok st1 → AllCrossed g st1 := by
  intro fuel
  induction fuel with
  | zero =>
    intro st _ hall st1 hd
    unfold drain at hd
    cases hq : st.queue with
    | nil =>
      rw [hq] at hd
      cases hd
      exact hall
    | cons node rest =>
      rw [hq] at hd
      cases hd
  | succ fuel ih =>
    intro st h hall st2 hd
    cases hq : st.queue with
    | nil =>
      unfold drain at hd
      rw [hq] at hd
      cases hd
      exact hall
    | cons node rest =>
      have hnode : val st.marked node ≠ 0 := h.queue_marked node (by rw [hq]; simp)
      have hnlt : node < g.graph.length := by
        have := val_ne_zero_lt _ _ hnode
        rw [h.marked_length] at this
        exact this
      have hadj : g.graph[node]? = some g.graph[node] := List.getElem?_eq_getElem hnlt
      have hedges : ∀ it ∈ g.graph[node], g.Edge node it :=
        fun it hit => ⟨g.graph[node], hadj, hit⟩
      obtain ⟨st1, hv, hinv1, hgr1, -⟩ :=
        visit_spec g hg hsize A B node g.graph[node] st h hnode hedges
      obtain ⟨hk, hc, hn⟩ :=
        visit_keeps g hg hsize A B node g.graph[node] st h hnode hedges st1 hv
      obtain ⟨ext, hext⟩ := hgr1.queue_ext
      have hq1 : st1.queue = node :: (rest ++ ext) := by rw [hext, hq]; rfl
      have hnode_crossed : Crossed g st1 node := by
        intro v ⟨adj, hadj', hvadj⟩
        rw [hadj] at hadj'
        cases hadj'
        exact hc v hvadj
      have hinv2 : BfsInv g A B { st1 with queue := st1.queue.tail } := by
        constructor
        · exact hinv1.marked_length
        · exact hinv1.distance_length
        · intro q hq'
          exact hinv1.queue_marked q (List.mem_of_mem_tail hq')
        · exact hinv1.marks
        · exact hinv1.from_a
        · exact hinv1.from_b
        · exact hinv1.depth
        · exact hinv1.seeds_a
        · exact hinv1.seeds_b
        · exact hinv1.min_le
        · exact hinv1.crossing
        · exact hinv1.ancestor_lt
        · intro u hu
          rcases hinv1.closed u hu with hmem | hs
          · rw [hq1] at hmem
            rcases List.mem_cons.1 hmem with rfl | hmem
            · right
              intro v ⟨adj, hadj', hvadj⟩
              rw [hadj] at hadj'
              cases hadj'
              rcases hc v hvadj with heq | ⟨hvm, hle⟩
              · exact Or.inl heq
              · by_cases heq : val st1.marked v = val st1.marked u
                · exact Or.inl heq
                · right
                  refine ⟨hvm, ?_⟩
                  have hb := hinv1.cross_bound g A B st1 u v hu hvm heq
                  simp only [sentinel]
                  omega
            · left
              show u ∈ st1.queue.tail
              rw [hq1]
              exact hmem
          · exact Or.inr hs
      have hall2 : AllCrossed g { st1 with queue := st1.queue.tail } := by
        intro u hu
        change val st1.marked u ≠ 0 at hu
        show u ∈ st1.queue.tail ∨ Crossed g st1 u
        rw [hq1, List.tail_cons]
        by_cases hu0 : val st.marked u = 0
        · rcases hn u hu with hne | hmem
          · exact absurd hu0 hne
          · rw [hq1] at hmem
            rcases List.mem_cons.1 hmem with rfl | hmem
            · exact absurd hu0 hnode
            · exact Or.inl hmem
        · rcases hall u hu0 with hmem | hcr
          · rw [hq] at hmem
            rcases List.mem_cons.1 hmem with rfl | hmem
            · exact Or.inr hnode_crossed
            · exact Or.inl (List.mem_append_left _ hmem)
          · right
            intro v he
            exact crossed_edge_keeps st st1 u v hk hu0 (hcr v he)
      unfold drain at hd
      rw [hq] at hd
      simp only [hadj, hv] at hd
      exact ih _ hinv2 hall2 st2 hd

/-- What `bfs` does when no member of `B` is in `A`, with the exact form of the closure: the
traversal loop ends with an empty queue, the invariant, and every marked vertex crossed. -/
theorem bfs_traversal_exact (g : Digraph) (hg : g.Inv) (hsize : g.size ≤ 4294967290)
    (A B : List Nat) (hA : A ≠ []) (hAv : ∀ a ∈ A, a ∈ g.node_map)
    (hBv : ∀ b ∈ B, b ∈ g.node_map) (hBn : B.Nodup)
    (hnone : B.find? (fun b => decide (b ∈ A)) = none) :
    ∃ st z, BfsInv g A B st ∧ (∀ u, val st.marked u ≠ 0 → Crossed g st u) ∧
      g.node_map[st.ancestor_id]? = some z ∧ bfs g A B = .ok (z, st.min_distance) := by
  obtain ⟨m, hm, -, -, hb⟩ := seeding_spec g hg A B hAv hBv hBn
  rw [hnone] at hb
  obtain ⟨m1, hm1, hm1len, hm1val⟩ := hb
  have hdisj : ∀ j, j ∈ g.nodes A → j ∉ g.nodes B := by
    intro j hjA hjB
    obtain ⟨a, ha, hai⟩ := (Digraph.mem_nodes g A j).1 hjA
    obtain ⟨b, hb, hbi⟩ := (Digraph.mem_nodes g B j).1 hjB
    have hab := hg.internal_inj g a b j hai hbi
    have := (List.find?_eq_none.1 hnone) b hb
    simp at this
    exact this (hab ▸ ha)
  have hinv0 := bfs_inv_init g hg A B hA hAv hdisj m1 hm1len hm1val
  have hall0 : AllCrossed g
      ⟨List.replicate g.size 0, m1, g.nodes A ++ g.nodes B, sentinel, 0⟩ := by
    intro u hu
    rcases hinv0.closed u hu with hmem | hs
    · exact Or.inl hmem
    · left
      change val m1 u ≠ 0 at hu
      show u ∈ g.nodes A ++ g.nodes B
      rw [hm1val u] at hu
      by_cases hb : u ∈ g.nodes B
      · exact List.mem_append_right _ hb
      · by_cases ha : u ∈ g.nodes A
        · exact List.mem_append_left _ ha
        · simp [hb, ha] at hu
  have hfuel : (g.nodes A ++ g.nodes B).length + m1.count 0 ≤
      (g.nodes A ++ g.nodes B).length + g.size := by
    have := List.count_le_length 0 m1
    omega
  obtain ⟨st, hd, hinv, hq⟩ := drain_spec g hg hsize A B _ _ hinv0 hfuel
  have hall := drain_exact g hg hsize A B _ _ hinv0 hall0 st hd
  have hanc : st.ancestor_id < g.node_map.length := by
    rw [← hg.graph_length]; exact hinv.ancestor_lt
  refine ⟨st, g.node_map[st.ancestor_id], hinv, ?_, List.getElem?_eq_getElem hanc, ?_⟩
  · intro u hu
    rcases hall u hu with hmem | hcr
    · rw [hq] at hmem
      cases hmem
    · exact hcr
  · simp only [bfs, hm, hm1, hd, vec_read, List.getElem?_eq_getElem hanc]

theorem walk_lt (g : Digraph) (hg : g.Inv) (k u x : Nat) (hw : g.Walk k u x) :
    x < g.size := by
  cases hw with
  | zero _ h => exact h
  | succ k _ v _ _ he => exact hg.edge_lt g v x he

theorem walk_zero_eq (g : Digraph) (u x : Nat) (hw : g.Walk 0 u x) : x = u := by
  cases hw
  rfl

/-- Where every vertex has at most one outgoing edge, a walk is fixed by its start and its
length. -/
theorem walk_det (g : Digraph) (hfun : ∀ u x y, g.Edge u x → g.Edge u y → x = y)
    (k u x : Nat) (hw : g.Walk k u x) : ∀ y, g.Walk k u y → x = y := by
  induction hw with
  | zero u _ =>
    intro y hy
    exact (walk_zero_eq g u y hy).symm
  | succ k u v w _ he ih =>
    intro y hy
    cases hy with
    | succ _ _ v1 _ hw1 he1 =>
      have := ih v1 hw1
      subst this
      exact hfun v w y he he1

theorem walk_split (g : Digraph) (hg : g.Inv) (n u x : Nat) (hw : g.Walk n u x) :
    ∀ p r, n = p + r → ∃ y, g.Walk p u y ∧ g.Walk r y x := by
  induction hw with
  | zero u hu =>
    intro p r h
    have hp : p = 0 := by omega
    have hr : r = 0 := by omega
    subst hp hr
    exact ⟨u, .zero u hu, .zero u hu⟩
  | succ k u v w hw he ih =>
    intro p r h
    cases r with
    | zero =>
      have hp : p = k + 1 := by omega
      subst hp
      exact ⟨w, .succ k u v w hw he, .zero w (hg.edge_lt g v w he)⟩
    | succ r1 =>
      obtain ⟨y, h1, h2⟩ := ih p r1 (by omega)
      exact ⟨y, h1, .succ r1 y v w h2 he⟩

/-- In an acyclic graph where every vertex has at most one outgoing edge, two walks between
the same vertices have the same length. -/
theorem walk_length_unique (g : Digraph) (hg : g.Inv) (hacyc : g.Acyclic)
    (hfun : ∀ u x y, g.Edge u x → g.Edge u y → x = y) (p q u x : Nat)
    (hp : g.Walk p u x) (hq : g.Walk q u x) : p = q := by
  have key : ∀ p q, g.Walk p u x → g.Walk q u x → ¬ p < q := by
    intro p q hp hq hlt
    obtain ⟨y, h1, h2⟩ := walk_split g hg q u x hq p (q - p - 1 + 1) (by omega)
    have := walk_det g hfun p u x hp y h1
    subst this
    exact hacyc _ _ h2
  have h1 := key p q hp hq
  have h2 := key q p hq hp
  omega

/-- Once every marked vertex is crossed, every vertex on a walk from a marked vertex is
marked. -/
theorem walk_marked (g : Digraph) (st : BfsState)
    (hall : ∀ u, val st.marked u ≠ 0 → Crossed g st u) (k u x : Nat) (hw : g.Walk k u x)
    (hu : val st.marked u ≠ 0) : val st.marked x ≠ 0 := by
  induction hw with
  | zero u _ => exact hu
  | succ k u v w _ he ih =>
    have hv := ih hu
    rcases hall v hv w he with heq | ⟨hw, -⟩
    · rw [heq]; exact hv
    · exact hw

/-- Once every marked vertex is crossed, a walk from a vertex of mark `s` to a vertex of
another mark has an edge where the mark changes, and that edge bounds `min_distance`. -/
theorem walk_mark_change (g : Digraph) (st : BfsState)
    (hall : ∀ u, val st.marked u ≠ 0 → Crossed g st u) (s : Nat) (hs : s ≠ 0)
    (l u z : Nat) (hw : g.Walk l u z) (hu : val st.marked u = s)
    (hz : val st.marked z ≠ s) :
    ∃ j y y1, j + 1 ≤ l ∧ g.Walk j u y ∧ g.Edge y y1 ∧ val st.marked y = s ∧
      val st.marked y1 ≠ s ∧ val st.marked y1 ≠ 0 ∧
      st.min_distance ≤ val st.distance y1 + val st.distance y + 1 := by
  induction hw with
  | zero u _ => exact absurd hu hz
  | succ k u v w hw he ih =>
    by_cases hv : val st.marked v = s
    · have hv0 : val st.marked v ≠ 0 := by rw [hv]; exact hs
      rcases hall v hv0 w he with heq | ⟨hw0, hle⟩
      · rw [heq] at hz
        exact absurd hv hz
      · exact ⟨k, v, w, Nat.le_refl _, hw, he, hv, hz, hw0, hle⟩
    · obtain ⟨j, y, y1, hj, h1, h2, h3, h4, h5, h6⟩ := ih hu hv
      exact ⟨j, y, y1, by omega, h1, h2, h3, h4, h5, h6⟩

/-- In an acyclic graph of at most 4294967290 vertices where every vertex has at most one
outgoing edge, `bfs({v}, {w})` returns the first vertex common to the chains of `v` and `w`
with the sum of the numbers of edges that lead to it. -/
theorem forest_meeting (g : Digraph) (hg : g.Inv) (hsize : g.size ≤ 4294967290)
    (hacyc : g.Acyclic) (hfun : ∀ u x y, g.Edge u x → g.Edge u y → x = y)
    (v w iv iw z k l : Nat) (hv : g.internal v = some iv) (hw : g.internal w = some iw)
    (hk : g.Walk k iv z) (hl : g.Walk l iw z)
    (hfirst : ∀ p q x, g.Walk p iv x → g.Walk q iw x → k ≤ p ∧ l ≤ q) :
    ∃ ez, g.node_map[z]? = some ez ∧ bfs g [v] [w] = .ok (ez, k + l) := by
  have hvm : v ∈ g.node_map := (hg.mem_node_map g v).2 ⟨iv, hv⟩
  have hwm : w ∈ g.node_map := (hg.mem_node_map g w).2 ⟨iw, hw⟩
  have hAv : ∀ a ∈ [v], a ∈ g.node_map := by
    intro a ha
    rw [List.mem_singleton.1 ha]
    exact hvm
  have hBv : ∀ b ∈ [w], b ∈ g.node_map := by
    intro b hb
    rw [List.mem_singleton.1 hb]
    exact hwm
  have hivlt : iv < g.size := by
    obtain ⟨i, hi, hlt⟩ := hg.internal_of_mem g v hvm
    rw [hv] at hi
    cases hi
    exact hlt
  by_cases hvw : v = w
  · subst hvw
    rw [hv] at hw
    cases hw
    have h0 := hfirst 0 0 iv (.zero iv hivlt) (.zero iv hivlt)
    have hk0 : k = 0 := by omega
    have hl0 : l = 0 := by omega
    subst hk0 hl0
    have hz := walk_zero_eq g iv z hk
    subst hz
    exact ⟨v, hg.node_of_id v z hv, bfs_first_shared g hg [v] [] v hAv (List.mem_singleton_self v)⟩
  · have hnone : [w].find? (fun b => decide (b ∈ [v])) = none := by
      rw [List.find?_eq_none]
      intro b hb
      rw [List.mem_singleton.1 hb]
      simpa using fun e => hvw e.symm
    obtain ⟨st, ez, hinv, hall, hez, hbfs⟩ :=
      bfs_traversal_exact g hg hsize [v] [w] (by simp) hAv hBv (List.nodup_singleton w) hnone
    have hmiv : val st.marked iv = 1 :=
      hinv.seeds_a iv ((Digraph.mem_nodes g [v] iv).2 ⟨v, List.mem_singleton_self v, hv⟩)
    have hmiw : val st.marked iw = 2 :=
      hinv.seeds_b iw ((Digraph.mem_nodes g [w] iw).2 ⟨w, List.mem_singleton_self w, hw⟩)
    have hfrom_v : ∀ x, val st.marked x = 1 → g.Walk (val st.distance x) iv x := by
      intro x hx
      obtain ⟨a, ha, i, hi, hwalk⟩ := hinv.from_a x hx
      rw [List.mem_singleton.1 ha, hv] at hi
      cases hi
      exact hwalk
    have hfrom_w : ∀ x, val st.marked x = 2 → g.Walk (val st.distance x) iw x := by
      intro x hx
      obtain ⟨b, hb, i, hi, hwalk⟩ := hinv.from_b x hx
      rw [List.mem_singleton.1 hb, hw] at hi
      cases hi
      exact hwalk
    have hmz0 : val st.marked z ≠ 0 :=
      walk_marked g st hall k iv z hk (by rw [hmiv]; decide)
    have hmz2 := hinv.marks z
    have hupper : st.min_distance ≤ k + l ∧ k + l < sentinel := by
      by_cases hmz : val st.marked z = 1
      · obtain ⟨j, y, y1, hj, hwy, hedge, hmy, hmy1, hmy10, hle⟩ :=
          walk_mark_change g st hall 2 (by decide) l iw z hl hmiw (by rw [hmz]; decide)
        have hmy1le := hinv.marks y1
        have hmy1eq : val st.marked y1 = 1 := by omega
        have hw1 : g.Walk (j + 1) iw y1 := .succ j iw y y1 hwy hedge
        have hf := hfirst _ _ y1 (hfrom_v y1 hmy1eq) hw1
        have hjl : j + 1 = l := by omega
        rw [hjl] at hw1
        have hy1z : z = y1 := walk_det g hfun l iw z hl y1 hw1
        subst hy1z
        have hdz : val st.distance z = k :=
          walk_length_unique g hg hacyc hfun _ _ iv z (hfrom_v z hmz) hk
        have hdy : val st.distance y = j :=
          walk_length_unique g hg hacyc hfun _ _ iw y (hfrom_w y hmy) hwy
        have hb := hinv.cross_bound g [v] [w] st y z (by rw [hmy]; decide) hmz0
          (by rw [hmz, hmy]; decide)
        simp only [sentinel]
        omega
      · have hmz' : val st.marked z = 2 := by omega
        obtain ⟨j, y, y1, hj, hwy, hedge, hmy, hmy1, hmy10, hle⟩ :=
          walk_mark_change g st hall 1 (by decide) k iv z hk hmiv (by rw [hmz']; decide)
        have hmy1le := hinv.marks y1
        have hmy1eq : val st.marked y1 = 2 := by omega
        have hw1 : g.Walk (j + 1) iv y1 := .succ j iv y y1 hwy hedge
        have hf := hfirst _ _ y1 hw1 (hfrom_w y1 hmy1eq)
        have hjk : j + 1 = k := by omega
        rw [hjk] at hw1
        have hy1z : z = y1 := walk_det g hfun k iv z hk y1 hw1
        subst hy1z
        have hdz : val st.distance z = l :=
          walk_length_unique g hg hacyc hfun _ _ iw z (hfrom_w z hmz') hl
        have hdy : val st.distance y = j :=
          walk_length_unique g hg hacyc hfun _ _ iv y (hfrom_v y hmy) hwy
        have hb := hinv.cross_bound g [v] [w] st y z (by rw [hmy]; decide) hmz0
          (by rw [hmz', hmy]; decide)
        simp only [sentinel]
        omega
    obtain ⟨a, ha, b, hb, p, q, ⟨i1, hi1, hp⟩, ⟨i2, hi2, hq⟩, hpq⟩ :=
      hinv.crossing (by omega)
    rw [List.mem_singleton.1 ha, hv] at hi1
    cases hi1
    rw [List.mem_singleton.1 hb, hw] at hi2
    cases hi2
    have hf := hfirst p q _ hp hq
    have hpk : p = k := by omega
    have hmin : st.min_distance = k + l := by omega
    rw [hpk] at hp
    have hanc : z = st.ancestor_id := walk_det g hfun k iv z hk _ hp
    rw [← hanc] at hez
    rw [hmin] at hbfs
    exact ⟨ez, hez, hbfs⟩

theorem sibling_graph_acyclic : sibling_graph.Acyclic := by
  apply acyclic_of_rank sibling_graph sibling_rank
  have hdec : ∀ u ∈ List.range 3, ∀ v ∈ (sibling_graph.graph[u]?).getD [],
      sibling_rank u < sibling_rank v := by decide
  intro u v ⟨adj, hadj, hv⟩
  have hu : u < 3 := (List.getElem?_eq_some.1 hadj).1
  have := hdec u (List.mem_range.2 hu) v (by rw [hadj]; exact hv)
  exact this

/-- Every edge of `sibling_graph` leads to the parent, the vertex of index 1. -/
theorem sibling_graph_edge (u x : Nat) (h : sibling_graph.Edge u x) : x = 1 := by
  have hdec : ∀ u ∈ List.range 3, ∀ x ∈ (sibling_graph.graph[u]?).getD [], x = 1 := by
    decide
  obtain ⟨adj, hadj, hx⟩ := h
  have hu : u < 3 := (List.getElem?_eq_some.1 hadj).1
  exact hdec u (List.mem_range.2 hu) x (by rw [hadj]; exact hx)

/-- In `sibling_graph` the chains of the two leaves have no vertex in common before the
parent. -/
theorem sibling_graph_first (p q x : Nat) (hp : sibling_graph.Walk p 0 x)
    (hq : sibling_graph.Walk q 2 x) : 1 ≤ p ∧ 1 ≤ q := by
  cases hp with
  | zero _ _ =>
    cases hq with
    | succ k _ v _ _ he =>
      have := sibling_graph_edge v 0 he
      omega
  | succ k _ v _ _ he =>
    have hx := sibling_graph_edge v x he
    subst hx
    cases hq with
    | succ k1 _ v1 _ _ _ => omega

/-- C15 (amended). In an acyclic Digraph of at most 4294967290 vertices in which every vertex
has at most one outgoing edge, for ids `v`, `w` whose chains meet, `bfs({v}, {w})` returns
`(z, k + l)`, where `z` is the first vertex common to both chains, `k` edges from `v` and
`l` edges from `w`: no vertex common to the chains is nearer to `v` or to `w`.  Instances,
each built by `extend(3)` and two `add_edge` calls: the leaves 1 and 2 with the same direct
parent 3 give `(3, 2)`; in the chain `b -> a -> root` with the ids 2, 1, 0,
`bfs({a}, {b}) = (a, 1)` and `bfs({b}, {root}) = (root, 2)`. -/
theorem forest_first_common_vertex :
    (∀ (g : Digraph) (v w iv iw z k l : Nat), g.Inv → g.size ≤ 4294967290 → g.Acyclic →
      (∀ u x y, g.Edge u x → g.Edge u y → x = y) →
      g.internal v = some iv → g.internal w = some iw →
      g.Walk k iv z → g.Walk l iw z →
      (∀ p q x, g.Walk p iv x → g.Walk q iw x → k ≤ p ∧ l ≤ q) →
      ∃ ez, g.node_map[z]? = some ez ∧ bfs g [v] [w] = .ok (ez, k + l)) ∧
    (Digraph.of_edges 3 [(1, 3), (2, 3)] = .ok sibling_graph ∧
      bfs sibling_graph [1] [2] = .ok (3, 2)) ∧
    (Digraph.of_edges 3 [(2, 1), (1, 0)] = .ok chain_graph ∧
      bfs chain_graph [1] [2] = .ok (1, 1) ∧ bfs chain_graph [2] [0] = .ok (0, 2)) := by
  refine ⟨?_, ⟨by decide!, by decide!⟩, by decide!, by decide!, by decide!⟩
  intro g v w iv iw z k l hg hsize hacyc hfun hv hw hk hl hfirst
  exact forest_meeting g hg hsize hacyc hfun v w iv iw z k l hv hw hk hl hfirst

/-- The two leaves of `sibling_graph`: the chains of the ids 1 and 2 meet first at the
parent, one edge from each. -/
theorem forest_first_common_vertex_witness :
    ∃ ez, sibling_graph.node_map[1]? = some ez ∧
      bfs sibling_graph [1] [2] = .ok (ez, 1 + 1) :=
  forest_first_common_vertex.1 sibling_graph 1 2 0 2 1 1 1
    (of_edges_inv 3 [(1, 3), (2, 3)] _ (by decide!) (by decide)) (by decide)
    sibling_graph_acyclic
    (fun u x y hx hy => (sibling_graph_edge u x hx).trans (sibling_graph_edge u y hy).symm)
    (by decide) (by decide)
    (.succ 0 0 0 1 (.zero 0 (by decide)) ⟨[1], rfl, by decide⟩)
    (.succ 0 2 2 1 (.zero 2 (by decide)) ⟨[1], rfl, by decide⟩)
    sibling_graph_first

/-! ## ShortestCommonAncestor: a chain longer than the sentinel -/

theorem lookup_diag (l : List Nat) (e : Nat) :
    (l.map (fun i => (i, i))).lookup e = if e ∈ l then some e else none := by
  induction l with
  | nil => simp
  | cons a rest ih =>
    simp only [List.map_cons, List.lookup_cons, List.mem_cons]
    by_cases h : e = a
    · subst h
      simp
    · have hb : (e == a) = false := by simpa using h
      rw [hb, ih]
      simp [h]

theorem long_chain_size (n : Nat) : (long_chain n).size = n := by
  simp [long_chain, Digraph.size]

theorem long_chain_internal (n e : Nat) (h : e < n) : (long_chain n).internal e = some e := by
  show ((List.range n).map (fun i => (i, i))).lookup e = some e
  rw [lookup_diag, if_pos (List.mem_range.2 h)]

theorem long_chain_node (n i : Nat) (h : i < n) : (long_chain n).node_map[i]? = some i := by
  show (List.range n)[i]? = some i
  exact List.getElem?_range h

theorem long_chain_adj (n u : Nat) (h : u < n) :
    (long_chain n).graph[u]? = some (if u + 1 < n then [u + 1] else []) := by
  show ((List.range n).map (fun i => if i + 1 < n then [i + 1] else []))[u]? = _
  rw [List.getElem?_map, List.getElem?_range h]
  rfl

theorem long_chain_edge (n u v : Nat) (h : (long_chain n).Edge u v) :
    v = u + 1 ∧ u + 1 < n := by
  obtain ⟨adj, hadj, hv⟩ := h
  have hu : u < n := by
    have := (List.getElem?_eq_some.1 hadj).1
    simpa [long_chain] using this
  rw [long_chain_adj n u hu] at hadj
  cases hadj
  by_cases hlt : u + 1 < n
  · rw [if_pos hlt] at hv
    exact ⟨List.mem_singleton.1 hv, hlt⟩
  · rw [if_neg hlt] at hv
    cases hv

theorem long_chain_inv (n : Nat) (hn : n ≤ two32) : (long_chain n).Inv := by
  constructor
  · intro e i h
    change ((List.range n).map (fun i => (i, i))).lookup e = some i at h
    rw [lookup_diag] at h
    by_cases he : e ∈ List.range n
    · rw [if_pos he] at h
      cases h
      exact List.getElem?_range (List.mem_range.1 he)
    · rw [if_neg he] at h
      cases h
  · intro i e h
    change (List.range n)[i]? = some e at h
    obtain ⟨hi, he⟩ := List.getElem?_eq_some.1 h
    rw [List.getElem_range] at he
    subst he
    rw [List.length_range] at hi
    exact long_chain_internal n i hi
  · simp [long_chain]
  · simp [long_chain]
  · intro adj hadj j hj
    change adj ∈ (List.range n).map (fun i => if i + 1 < n then [i + 1] else []) at hadj
    obtain ⟨i, -, rfl⟩ := List.mem_map.1 hadj
    show j < (List.range n).length
    rw [List.length_range]
    by_cases hlt : i + 1 < n
    · rw [if_pos hlt] at hj
      rw [List.mem_singleton.1 hj]
      exact hlt
    · rw [if_neg hlt] at hj
      cases hj
  · show (((List.range n).map (fun i => (i, i))).map Prod.fst).Nodup
    rw [List.map_map]
    have : (Prod.fst ∘ fun i : Nat => (i, i)) = id := rfl
    rw [this, List.map_id]
    exact List.nodup_range n
  · intro p hp
    change p ∈ (List.range n).map (fun i => (i, i)) at hp
    obtain ⟨i, hi, rfl⟩ := List.mem_map.1 hp
    have := List.mem_range.1 hi
    show i < two32
    omega

theorem long_chain_acyclic (n : Nat) : (long_chain n).Acyclic := by
  apply acyclic_of_rank (long_chain n) id
  intro u v he
  have := (long_chain_edge n u v he).1
  simp only [id]
  omega

theorem long_chain_functional (n u x y : Nat) (hx : (long_chain n).Edge u x)
    (hy : (long_chain n).Edge u y) : x = y := by
  rw [(long_chain_edge n u x hx).1, (long_chain_edge n u y hy).1]

theorem long_chain_walk (n : Nat) : ∀ k, k < n → (long_chain n).Walk k 0 k := by
  intro k
  induction k with
  | zero =>
    intro h
    exact .zero 0 (by rw [long_chain_size]; exact h)
  | succ k ih =>
    intro h
    refine .succ k 0 k (k + 1) (ih (by omega)) ⟨[k + 1], ?_, List.mem_singleton_self _⟩
    rw [long_chain_adj n k (by omega), if_pos h]

theorem long_chain_walk_end (n k u x : Nat) (hw : (long_chain n).Walk k u x) :
    x = u + k ∧ x < n := by
  induction hw with
  | zero u hu =>
    rw [long_chain_size] at hu
    exact ⟨rfl, hu⟩
  | succ k u v w _ he ih =>
    have := long_chain_edge n v w he
    omega

theorem drain_done (g : Digraph) (fuel : Nat) (st : BfsState) (hq : st.queue = []) :
    drain g fuel st = .ok st := by
  unfold drain
  rw [hq]

theorem drain_step (g : Digraph) (fuel : Nat) (st st1 : BfsState) (node : Nat)
    (rest adj : List Nat) (hq : st.queue = node :: rest) (hadj : g.graph[node]? = some adj)
    (hv : visit node adj st = .ok st1) :
    drain g (fuel + 1) st = drain g fuel { st1 with queue := st1.queue.tail } := by
  rw [drain]
  rw [hq]
  simp only [hadj, hv]

/-- The pass for the edge from `t` to `t + 1` when `t + 1` is not the last vertex: the
successor is marked 1 at the distance `t + 1` and enqueued. -/
theorem chain_step_mark (n t : Nat) (st : BfsState) (hn : n ≤ two32) (h : ChainState n t st)
    (ht : t + 2 < n) :
    ∃ st1, relax t st (t + 1) = .ok st1 ∧ ChainState n (t + 1) st1 ∧
      st1.queue = st.queue ++ [t + 1] := by
  have hit : t + 1 < st.marked.length := by rw [h.marked_length]; omega
  have hnode : t < st.marked.length := by rw [h.marked_length]; omega
  have hlen : st.distance.length = st.marked.length := by
    rw [h.marked_length, h.distance_length]
  have hz : val st.marked (t + 1) = 0 := by
    rw [h.marked_val (t + 1), if_neg (show ¬ t + 1 ≤ t by omega),
      if_neg (show ¬ t + 1 + 1 = n by omega)]
  have hmt : val st.marked t = 1 := by
    rw [h.marked_val t, if_pos (Nat.le_refl _)]
  have hdt : val st.distance t = t := h.distance_val t (Nat.le_refl _)
  have hmod : (t + 1) % two32 = t + 1 := Nat.mod_eq_of_lt (by omega)
  refine ⟨_, relax_mark t (t + 1) st hit hnode hlen hz, ?_, rfl⟩
  rw [hmt, hdt, hmod]
  constructor
  · simpa using h.marked_length
  · simpa using h.distance_length
  · intro j
    show val (st.marked.set (t + 1) 1) j = _
    rw [val_set _ _ _ _ hit, h.marked_val j]
    by_cases hj : j = t + 1
    · rw [if_pos hj, if_pos (show j ≤ t + 1 by omega)]
    · rw [if_neg hj]
      by_cases hjt : j ≤ t
      · rw [if_pos hjt, if_pos (show j ≤ t + 1 by omega)]
      · rw [if_neg hjt, if_neg (show ¬ j ≤ t + 1 by omega)]
  · intro j hj
    show val (st.distance.set (t + 1) (t + 1)) j = j
    rw [val_set _ _ _ _ (hlen ▸ hit)]
    by_cases hje : j = t + 1
    · rw [if_pos hje, hje]
    · rw [if_neg hje]
      exact h.distance_val j (by omega)
  · intro j hj
    show val (st.distance.set (t + 1) (t + 1)) j = 0
    rw [val_set _ _ _ _ (hlen ▸ hit), if_neg (show ¬ j = t + 1 by omega)]
    exact h.distance_top j hj
  · exact h.min_eq
  · exact h.ancestor_eq

/-- The pass for the edge into the last vertex: the marks differ, and the total `t + 1` is
not below the sentinel, so nothing is recorded. -/
theorem chain_step_cross (n t : Nat) (st : BfsState) (hn : n ≤ two32) (h : ChainState n t st)
    (ht : t + 2 = n) (hbig : sentinel ≤ t + 1) : relax t st (t + 1) = .ok st := by
  have hit : t + 1 < st.marked.length := by rw [h.marked_length]; omega
  have hnode : t < st.marked.length := by rw [h.marked_length]; omega
  have hlen : st.distance.length = st.marked.length := by
    rw [h.marked_length, h.distance_length]
  have hm1 : val st.marked (t + 1) = 2 := by
    rw [h.marked_val (t + 1), if_neg (show ¬ t + 1 ≤ t by omega),
      if_pos (show t + 1 + 1 = n by omega)]
  have hmt : val st.marked t = 1 := by
    rw [h.marked_val t, if_pos (Nat.le_refl _)]
  have hdt : val st.distance t = t := h.distance_val t (Nat.le_refl _)
  have hd1 : val st.distance (t + 1) = 0 := h.distance_top (t + 1) (by omega)
  have hmod : (0 + t + 1) % two32 = t + 1 := by
    rw [Nat.zero_add]
    exact Nat.mod_eq_of_lt (by omega)
  rw [relax_cross t (t + 1) st hit hnode hlen (by rw [hm1]; decide)
    (by rw [hm1, hmt]; decide), hd1, hdt, hmod, h.min_eq,
    if_neg (show ¬ t + 1 < sentinel by omega)]

/-- The traversal of `long_chain n` from the state in which `t` is the only queued vertex:
it ends, and no crossing is recorded. -/
theorem chain_drain (n : Nat) (hn : n ≤ two32) (hbig : sentinel + 1 ≤ n) :
    ∀ (m t : Nat) (st : BfsState) (fuel : Nat), t + 2 + m = n → m + 1 ≤ fuel →
      ChainState n t st → st.queue = [t] →
      ∃ st1, drain (long_chain n) fuel st = .ok st1 ∧ st1.min_distance = sentinel ∧
        st1.ancestor_id = 0 := by
  intro m
  induction m with
  | zero =>
    intro t st fuel ht hfuel h hq
    obtain ⟨f, rfl⟩ : ∃ f, fuel = f + 1 := ⟨fuel - 1, by omega⟩
    have hadj : (long_chain n).graph[t]? = some [t + 1] := by
      rw [long_chain_adj n t (by omega), if_pos (show t + 1 < n by omega)]
    have hr := chain_step_cross n t st hn h (by omega) (by omega)
    have hv : visit t [t + 1] st = .ok st := by
      simp only [visit, hr]
    rw [drain_step (long_chain n) f st st t [] [t + 1] hq hadj hv]
    refine ⟨_, drain_done _ _ _ (by simp [hq]), h.min_eq, h.ancestor_eq⟩
  | succ m ih =>
    intro t st fuel ht hfuel h hq
    obtain ⟨f, rfl⟩ : ∃ f, fuel = f + 1 := ⟨fuel - 1, by omega⟩
    have hadj : (long_chain n).graph[t]? = some [t + 1] := by
      rw [long_chain_adj n t (by omega), if_pos (show t + 1 < n by omega)]
    obtain ⟨st1, hr, h1, hq1⟩ := chain_step_mark n t st hn h (by omega)
    have hv : visit t [t + 1] st = .ok st1 := by
      simp only [visit, hr]
    rw [drain_step (long_chain n) f st st1 t [] [t + 1] hq hadj hv]
    apply ih (t + 1) _ f (by omega) (by omega)
    · exact ⟨h1.marked_length, h1.distance_length, h1.marked_val, h1.distance_val,
        h1.distance_top, h1.min_eq, h1.ancestor_eq⟩
    · show st1.queue.tail = [t + 1]
      rw [hq1, hq]
      rfl

/-- On the chain of `n` vertices with `4294967291 ≤ n ≤ 2^32`, `bfs` from the first and the
last vertex reports no common ancestor: the sentinel, with the id of the vertex of
index 0. -/
theorem chain_bfs (n t : Nat) (hn : n ≤ two32) (ht : t + 1 = n) (hbig : sentinel + 1 ≤ n) :
    bfs (long_chain n) [0] [t] = .ok (0, sentinel) := by
  have hs : sentinel = 4294967290 := rfl
  have hg := long_chain_inv n hn
  have hA : ∀ a ∈ [0], a ∈ (long_chain n).node_map := by
    intro a ha
    rw [List.mem_singleton.1 ha]
    exact List.mem_range.2 (by omega)
  have hB : ∀ b ∈ [t], b ∈ (long_chain n).node_map := by
    intro b hb
    rw [List.mem_singleton.1 hb]
    exact List.mem_range.2 (by omega)
  have hnone : [t].find? (fun b => decide (b ∈ [0])) = none := by
    rw [List.find?_eq_none]
    intro b hb
    rw [List.mem_singleton.1 hb]
    simp only [List.mem_singleton, decide_eq_true_eq]
    omega
  obtain ⟨m, hm, -, -, hb⟩ :=
    seeding_spec (long_chain n) hg [0] [t] hA hB (List.nodup_singleton t)
  rw [hnone] at hb
  obtain ⟨m1, hm1, hm1len, hm1val⟩ := hb
  have hn0 : (long_chain n).nodes [0] = [0] := by
    rw [Digraph.nodes_cons _ 0 0 [] (long_chain_internal n 0 (by omega))]
    rfl
  have hnt : (long_chain n).nodes [t] = [t] := by
    rw [Digraph.nodes_cons _ t t [] (long_chain_internal n t (by omega))]
    rfl
  rw [long_chain_size] at hm1len
  have h0 : ChainState n 0 ⟨List.replicate n 0, m1, [0, t], sentinel, 0⟩ := by
    refine ⟨hm1len, by simp, ?_, ?_, ?_, rfl, rfl⟩
    · intro j
      show val m1 j = _
      rw [hm1val j, hn0, hnt]
      simp only [List.mem_singleton]
      by_cases hjt : j = t
      · rw [if_pos hjt, if_neg (show ¬ j ≤ 0 by omega), if_pos (show j + 1 = n by omega)]
      · rw [if_neg hjt]
        by_cases hj0 : j = 0
        · rw [if_pos hj0, if_pos (show j ≤ 0 by omega)]
        · rw [if_neg hj0, if_neg (show ¬ j ≤ 0 by omega),
            if_neg (show ¬ j + 1 = n by omega)]
    · intro j hj
      show val (List.replicate n 0) j = j
      rw [val_replicate]
      omega
    · intro j _
      exact val_replicate n j
  obtain ⟨st1, hr1, hc1, hq1⟩ :=
    chain_step_mark n 0 ⟨List.replicate n 0, m1, [0, t], sentinel, 0⟩ hn h0 (by omega)
  have hv1 : visit 0 [0 + 1] ⟨List.replicate n 0, m1, [0, t], sentinel, 0⟩ = .ok st1 := by
    simp only [visit, hr1]
  have hadj0 : (long_chain n).graph[0]? = some [0 + 1] := by
    rw [long_chain_adj n 0 (by omega), if_pos (show 0 + 1 < n by omega)]
  have hadjt : (long_chain n).graph[t]? = some [] := by
    rw [long_chain_adj n t (by omega), if_neg (show ¬ t + 1 < n by omega)]
  have hq2 : st1.queue.tail = [t, 0 + 1] := by
    rw [hq1]
    rfl
  obtain ⟨st3, hd3, hmin3, hanc3⟩ :=
    chain_drain n hn hbig (n - 3) 1
      { st1 with queue := ({ st1 with queue := st1.queue.tail } : BfsState).queue.tail } n
      (by omega) (by omega)
      ⟨hc1.marked_length, hc1.distance_length, hc1.marked_val, hc1.distance_val,
        hc1.distance_top, hc1.min_eq, hc1.ancestor_eq⟩
      (by
        show st1.queue.tail.tail = [1]
        rw [hq2]
        rfl)
  have hd : drain (long_chain n)
      (((long_chain n).nodes [0] ++ (long_chain n).nodes [t]).length + (long_chain n).size)
      ⟨List.replicate (long_chain n).size 0, m1,
        (long_chain n).nodes [0] ++ (long_chain n).nodes [t], sentinel, 0⟩ = .ok st3 := by
    rw [hn0, hnt, long_chain_size]
    have hfuel : ([0] ++ [t]).length + n = n + 1 + 1 := by
      simp only [List.length_append, List.length_singleton]
      omega
    rw [hfuel]
    show drain (long_chain n) (n + 1 + 1) ⟨List.replicate n 0, m1, [0, t], sentinel, 0⟩ = _
    rw [drain_step (long_chain n) (n + 1) _ st1 0 [t] [0 + 1] rfl hadj0 hv1]
    rw [drain_step (long_chain n) n { st1 with queue := st1.queue.tail }
      { st1 with queue := st1.queue.tail } t [0 + 1] [] hq2 hadjt rfl]
    exact hd3
  have hread : (long_chain n).node_map[st3.ancestor_id]? = some 0 := by
    rw [hanc3]
    exact List.getElem?_range (by omega)
  simp only [bfs, hm, hm1, hd, vec_read, hread, hmin3]

/-- The call `add_edge(m, m + 1)` on the chain of `m + 1` vertices gives the chain of
`m + 2` vertices, when `graph` has room for one more vertex. -/
theorem chain_add_edge (c m : Nat) (hm : m + 1 < two32) (hc : m + 1 < c) :
    ({ long_chain (m + 1) with capacity := c } : Digraph).add_edge m (m + 1) =
      .ok { long_chain (m + 2) with capacity := c } := by
  have h1 : (long_chain (m + 1)).id_map.lookup m = some m :=
    long_chain_internal (m + 1) m (by omega)
  have h2 : (long_chain (m + 1)).id_map.lookup (m + 1) = none := by
    show ((List.range (m + 1)).map (fun i => (i, i))).lookup (m + 1) = none
    rw [lookup_diag, if_neg (by simp)]
  have hlen : (long_chain (m + 1)).node_map.length % two32 = m + 1 := by
    show (List.range (m + 1)).length % two32 = m + 1
    rw [List.length_range]
    exact Nat.mod_eq_of_lt hm
  have hglen : (long_chain (m + 1)).graph.length = m + 1 := by
    simp [long_chain]
  have hmap : (List.range m).map (fun i => if i + 1 < m + 1 then [i + 1] else []) =
      (List.range m).map (fun i => if i + 1 < m + 2 then [i + 1] else []) := by
    apply List.map_congr_left
    intro i hi
    have := List.mem_range.1 hi
    rw [if_pos (show i + 1 < m + 1 by omega), if_pos (show i + 1 < m + 2 by omega)]
  have hgraph : (long_chain (m + 1)).graph =
      (List.range m).map (fun i => if i + 1 < m + 2 then [i + 1] else []) ++ [[]] := by
    show (List.range (m + 1)).map (fun i => if i + 1 < m + 1 then [i + 1] else []) = _
    rw [List.range_succ, List.map_append, hmap]
    simp
  have hgraph2 : (long_chain (m + 2)).graph =
      (List.range m).map (fun i => if i + 1 < m + 2 then [i + 1] else []) ++
        [[m + 1], []] := by
    show (List.range (m + 2)).map (fun i => if i + 1 < m + 2 then [i + 1] else []) = _
    rw [List.range_succ, List.range_succ, List.map_append, List.map_append]
    simp
  have hL : ((List.range m).map (fun i => if i + 1 < m + 2 then [i + 1] else [])).length =
      m := by simp
  have hget : ((long_chain (m + 1)).graph ++ [[]])[m]? = some [] := by
    rw [hgraph, List.append_assoc, List.getElem?_append_right (by rw [hL]), hL]
    simp
  have hset : ((long_chain (m + 1)).graph ++ [[]]).set m ([] ++ [m + 1]) =
      (long_chain (m + 2)).graph := by
    rw [hgraph, hgraph2, List.append_assoc, List.set_append_right _ _ (by rw [hL]), hL]
    simp
  have hno : ¬ c ≤ m + 1 := by omega
  simp only [Digraph.add_edge, Digraph.build, Digraph.reallocates, h1, h2, hlen, hget, hset,
    hglen, hno, if_pos hc, Option.isNone_none, decide_False, Bool.and_false,
    Bool.false_eq_true, if_false]
  show Except.ok (Digraph.mk _ _ _ _) = Except.ok (Digraph.mk _ _ _ _)
  congr 2
  · show (List.range (m + 1)).map (fun i => (i, i)) ++ [(m + 1, m + 1)] =
      (List.range (m + 2)).map (fun i => (i, i))
    rw [List.range_succ (m + 1), List.map_append]
    rfl
  · show List.range (m + 1) ++ [m + 1] = List.range (m + 2)
    rw [List.range_succ (m + 1)]

/-- The first call, `add_edge(0, 1)` after `extend(c)`, gives the chain of two vertices. -/
theorem chain_first_edge (c : Nat) (hc : 2 ≤ c) :
    (Digraph.empty.extend c).add_edge 0 1 = .ok { long_chain 2 with capacity := c } := by
  have e0 : Digraph.empty.extend c = ⟨[], [], [], c⟩ := by
    show Digraph.mk [] [] [] (max 0 c) = _
    rw [Nat.zero_max]
  have hc0 : ¬ c ≤ 1 := by omega
  have b0 : (Digraph.mk [] [] [] c).build 0 = (0, ⟨[[]], [(0, 0)], [0], c⟩) := by
    show (0 % two32, Digraph.mk [[]] [(0, 0 % two32)] [0] (if 0 < c then c else 0 + 1)) = _
    rw [if_pos (by omega)]
    rfl
  have b1 : (Digraph.mk [[]] [(0, 0)] [0] c).build 1 =
      (1, ⟨[[], []], [(0, 0), (1, 1)], [0, 1], c⟩) := by
    show (1 % two32, Digraph.mk [[], []] [(0, 0), (1, 1 % two32)] [0, 1]
      (if 1 < c then c else 1 + 1)) = _
    rw [if_pos (by omega)]
    rfl
  have r1 : (Digraph.mk [[]] [(0, 0)] [0] c).reallocates 1 = false := by
    show (true && decide (c ≤ 1)) = false
    simp only [Bool.true_and, decide_eq_false_iff_not]
    exact hc0
  rw [e0]
  show (if ((Digraph.mk [] [] [] c).build 0).2.reallocates 1 = true then
      (Except.error Error.undefined : Except Error Digraph) else
    match ((((Digraph.mk [] [] [] c).build 0).2.build 1).2.graph[
        ((Digraph.mk [] [] [] c).build 0).1]?) with
    | some adj => Except.ok { (((Digraph.mk [] [] [] c).build 0).2.build 1).2 with
        graph := (((Digraph.mk [] [] [] c).build 0).2.build 1).2.graph.set
          ((Digraph.mk [] [] [] c).build 0).1
          (adj ++ [(((Digraph.mk [] [] [] c).build 0).2.build 1).1]) }
    | none => Except.error Error.undefined) = _
  rw [b0]
  simp only []
  rw [r1, b1]
  rfl

/-- The chain of `n` vertices is the graph that `extend(n)` and the calls `add_edge(0, 1)`,
..., `add_edge(n - 2, n - 1)` build. -/
theorem chain_of_edges (n : Nat) (h2 : 2 ≤ n) (hn : n ≤ two32) :
    Digraph.of_edges n (chain_edges n) = .ok (long_chain n) := by
  have key : ∀ m, m + 2 ≤ n →
      (chain_edges (m + 2)).foldlM (fun g e => g.add_edge e.1 e.2) (Digraph.empty.extend n) =
        .ok { long_chain (m + 2) with capacity := n } := by
    intro m
    induction m with
    | zero =>
      intro _
      show ([(0, 1)] : List (Nat × Nat)).foldlM
        (fun (g : Digraph) (e : Nat × Nat) => g.add_edge e.1 e.2) _ = _
      simp only [List.foldlM_cons, List.foldlM_nil, chain_first_edge n h2, bind, Except.bind,
        pure, Except.pure]
    | succ m ih =>
      intro hm
      have ih1 := ih (by omega)
      have he : chain_edges (m + 1 + 2) = chain_edges (m + 2) ++ [(m + 1, m + 2)] := by
        show (List.range (m + 2)).map (fun i => (i, i + 1)) =
          (List.range (m + 1)).map (fun i => (i, i + 1)) ++ [(m + 1, m + 2)]
        rw [List.range_succ (m + 1), List.map_append]
        rfl
      rw [he, List.foldlM_append, ih1]
      show (({ long_chain (m + 2) with capacity := n } : Digraph).add_edge (m + 1) (m + 2) >>=
        fun g => pure g) = _
      rw [chain_add_edge n (m + 1) (by omega) (by omega)]
      rfl
  obtain ⟨m, rfl⟩ : ∃ m, n = m + 2 := ⟨n - 2, by omega⟩
  exact key m (Nat.le_refl _)

/-- C15 (as stated, refuted). The chain `0 -> 1 -> ... -> 4294967291`, built by
`extend(4294967292)` and `add_edge` calls, is acyclic with at most one edge out of every
vertex; the chains of its first and of its last vertex meet first in the last vertex,
4294967291 edges from the first and 0 from the last.  `bfs({0}, {4294967291})` returns
`(0, 4294967290)`: the total 4294967291 of the one crossing is not below the initial
`min_distance`, so it is not recorded.  On the chain of 4294967291 vertices
`bfs({0}, {4294967290})` returns `(0, 4294967290)` too, the id 0 in place of the common
vertex 4294967290. -/
theorem long_chain_reports_sentinel :
    Digraph.of_edges 4294967292 (chain_edges 4294967292) = .ok (long_chain 4294967292) ∧
    (long_chain 4294967292).Acyclic ∧
    (∀ u x y, (long_chain 4294967292).Edge u x → (long_chain 4294967292).Edge u y →
      x = y) ∧
    (long_chain 4294967292).internal 0 = some 0 ∧
    (long_chain 4294967292).internal 4294967291 = some 4294967291 ∧
    (long_chain 4294967292).Walk 4294967291 0 4294967291 ∧
    (long_chain 4294967292).Walk 0 4294967291 4294967291 ∧
    (∀ p q x, (long_chain 4294967292).Walk p 0 x →
      (long_chain 4294967292).Walk q 4294967291 x → 4294967291 ≤ p ∧ 0 ≤ q) ∧
    (long_chain 4294967292).node_map[4294967291]? = some 4294967291 ∧
    bfs (long_chain 4294967292) [0] [4294967291] = .ok (0, 4294967290) ∧
    Digraph.of_edges 4294967291 (chain_edges 4294967291) = .ok (long_chain 4294967291) ∧
    (long_chain 4294967291).size = 4294967291 ∧
    (long_chain 4294967291).Walk 4294967290 0 4294967290 ∧
    (long_chain 4294967291).node_map[4294967290]? = some 4294967290 ∧
    bfs (long_chain 4294967291) [0] [4294967290] = .ok (0, 4294967290) := by
  have hn : (4294967292 : Nat) ≤ two32 := by
    unfold two32
    omega
  have hs : sentinel + 1 ≤ 4294967292 := by
    unfold sentinel
    omega
  have hn1 : (4294967291 : Nat) ≤ two32 := by
    unfold two32
    omega
  have hs1 : sentinel + 1 ≤ 4294967291 := by
    unfold sentinel
    omega
  refine ⟨chain_of_edges 4294967292 (by omega) hn, long_chain_acyclic _,
    fun u x y => long_chain_functional _ u x y, long_chain_internal _ 0 (by omega),
    long_chain_internal _ 4294967291 (by omega), long_chain_walk _ 4294967291 (by omega),
    .zero 4294967291 (by rw [long_chain_size]; omega), ?_,
    long_chain_node _ _ (by omega), chain_bfs 4294967292 4294967291 hn (by omega) hs,
    chain_of_edges 4294967291 (by omega) hn1,
    long_chain_size _, long_chain_walk _ 4294967290 (by omega),
    long_chain_node _ _ (by omega), chain_bfs 4294967291 4294967290 hn1 (by omega) hs1⟩
  intro p q x hp hq
  have h1 := long_chain_walk_end _ p 0 x hp
  have h2 := long_chain_walk_end _ q 4294967291 x hq
  omega

end Wordnet
